import Mathlib

/-
Verification of the monomorphic type-inference engine for Simplicity DAGs
declared in C/typeInference.h.

The header declares the data structures (unification_cont, binding,
unification_var) and the entry point mallocTypeInference.  The algorithmic
body (union-find with path compression and union by rank, the worklist
unifier, the constraint emitter and the freezer) is not part of the
provided sources; those operations are modelled from the specification
(sections 4.1-4.4) and marked as such in their doc comments.

Modelling conventions:
- C pointers to unification variables become indices into a pool;
  the NULL pointer becomes Option.none (for parent pointers) or, for
  stack frames, an index outside the pool.
- The unification stack, a linked chain of unification_cont frames in C,
  is modelled as a list of index pairs; the bottom NULL pointer is the
  empty list.
- The transient frozen_ix slot (a plain size_t in C whose validity is
  tracked by the freezing state machine) is modelled as Option Nat with
  none meaning "not yet assigned".
- malloc is modelled by an allocation oracle: a list of Booleans, one
  consulted per allocation performed, true meaning success.
-/

set_option maxHeartbeats 1000000

namespace Simplicity

/-- Kinds of Simplicity types, the typeName values used by bindings:
ONE, SUM and PRODUCT. -/
inductive typeName where
  | one
  | sum
  | prod
  deriving DecidableEq, Repr

/-- The non-scratch part of the C union 'binding': the constructor kind,
the two argument variables (as pool indices, used only when the kind is
SUM or PRODUCT), the occurs-check marker and the frozen index. -/
structure binding where
  arg0 : Nat
  arg1 : Nat
  frozen_ix : Option Nat
  kind : typeName
  occursCheck : Bool
  deriving DecidableEq, Repr

/-- The C struct 'unification_var': parent pointer (none when this
variable is the representative of its class), binding (meaningful only
on a representative with isBound set), rank (active during unification),
and the isBound flag. -/
structure unification_var where
  parent : Option Nat
  bound : binding
  rank : Nat
  isBound : Bool
  deriving DecidableEq, Repr

/-- The all-zero binding: what C zero-initialization produces
(null argument pointers become index 0 which is never read on a fresh
variable, frozen_ix unset, kind ONE which is the zero enum value,
occursCheck false). -/
def zeroBinding : binding :=
  { arg0 := 0, arg1 := 0, frozen_ix := none, kind := typeName.one, occursCheck := false }

/-- The all-zero unification_var: what initializing the C struct with
{0} or implicit static initialization produces: NULL parent, zeroed
binding, rank 0, isBound false. -/
def zeroVar : unification_var :=
  { parent := none, bound := zeroBinding, rank := 0, isBound := false }

/-- The pool of unification variables: a size and the contents of each
slot.  Slots at indices at or above the size are irrelevant. -/
structure Pool where
  size : Nat
  vars : Nat → unification_var

/-- Update one slot of the pool. -/
def Pool.set (p : Pool) (i : Nat) (v : unification_var) : Pool :=
  { size := p.size, vars := Function.update p.vars i v }

/-- A zero-filled pool of n fresh variables. -/
def freshPool (n : Nat) : Pool := { size := n, vars := fun _ => zeroVar }

/-- Chase parent pointers for at most the given fuel.  With the pool
invariants a fuel of the pool size always reaches the representative. -/
def rootAux (p : Pool) : Nat → Nat → Nat
  | 0, v => v
  | fuel + 1, v =>
    match (p.vars v).parent with
    | none => v
    | some u => rootAux p fuel u

/-- The representative of the class of v, by chasing parent pointers. -/
def Pool.root (p : Pool) (v : Nat) : Nat := rootAux p p.size v

/-- v is the representative of its equivalence class: NULL parent. -/
def isRep (p : Pool) (v : Nat) : Prop := (p.vars v).parent = none

instance (p : Pool) (v : Nat) : Decidable (isRep p v) := by
  unfold isRep; infer_instance

/-- The equivalence class rooted at r, as a set of pool indices. -/
def classOf (p : Pool) (r : Nat) : Finset Nat :=
  (Finset.range p.size).filter (fun v => p.root v = r)

/-- Number of representatives in the pool. -/
def repCount (p : Pool) : Nat :=
  ((Finset.range p.size).filter (fun v => isRep p v)).card

/-- Every parent pointer stays in the pool and points to a variable of
strictly greater rank (header invariant: rank < parent->rank). -/
def parentWF (p : Pool) : Prop :=
  ∀ v, v < p.size → ∀ u, (p.vars v).parent = some u →
    u < p.size ∧ (p.vars v).rank < (p.vars u).rank

/-- Ranks are bounded by the pool size. -/
def rankWF (p : Pool) : Prop := ∀ v, v < p.size → (p.vars v).rank < p.size

/-- Header invariant: there are at least 2^rank unification variables in
a representative's equivalence class. -/
def sizeInv (p : Pool) : Prop :=
  ∀ r, r < p.size → isRep p r → 2 ^ (p.vars r).rank ≤ (classOf p r).card

/-- A bound representative with non-trivial kind has both argument
pointers naming existing variables. -/
def bindingWF (p : Pool) : Prop :=
  ∀ v, v < p.size → isRep p v → (p.vars v).isBound →
    (p.vars v).bound.kind ≠ typeName.one →
    (p.vars v).bound.arg0 < p.size ∧ (p.vars v).bound.arg1 < p.size

/-- The structural union-find invariants. -/
def ufInv (p : Pool) : Prop := parentWF p ∧ rankWF p ∧ sizeInv p

/-- Modelled from the spec (4.1): find with full path compression; the
implementation in typeInference.c is not among the provided sources.
Every variable traversed has its parent re-pointed to the
representative.  Fueled; the pool invariants make fuel p.size enough. -/
def findAux : Nat → Pool → Nat → Pool × Nat
  | 0, p, v => (p, v)
  | fuel + 1, p, v =>
    match (p.vars v).parent with
    | none => (p, v)
    | some u =>
      let pr := findAux fuel p u
      (pr.1.set v { pr.1.vars v with parent := some pr.2 }, pr.2)

/-- find(v): the representative of v, compressing the traversed path. -/
def Pool.find (p : Pool) (v : Nat) : Pool × Nat := findAux p.size p v

/-- Modelled from the spec (4.1): the linking step of union, applied to
two distinct representatives: the higher-ranked becomes the parent; on a
tie the first one wins and its rank is incremented. -/
def link (p : Pool) (ra rb : Nat) : Pool × Nat :=
  if (p.vars ra).rank < (p.vars rb).rank then
    (p.set ra { p.vars ra with parent := some rb }, rb)
  else if (p.vars rb).rank < (p.vars ra).rank then
    (p.set rb { p.vars rb with parent := some ra }, ra)
  else
    ((p.set ra { p.vars ra with rank := (p.vars ra).rank + 1 }).set rb
      { p.vars rb with parent := some ra }, ra)

/-- Modelled from the spec (4.1): union(x, y): find both
representatives, then link them if they differ.  Purely structural; no
binding logic lives here. -/
def Pool.union (p : Pool) (x y : Nat) : Pool × Nat :=
  let f1 := p.find x
  let f2 := f1.1.find y
  if f1.2 = f2.2 then (f2.1, f1.2) else link f2.1 f1.2 f2.2

/-- Re-point the parent of x directly at its representative: the single
path-compression update performed by find on each traversed variable. -/
def redirect (p : Pool) (x : Nat) : Pool :=
  p.set x { p.vars x with parent := some (p.root x) }

/-- States of the variable pool reachable from a zero-filled pool by
find and union operations. -/
inductive Reach (n : Nat) : Pool → Prop where
  | init : Reach n (freshPool n)
  | find {p : Pool} (v : Nat) : Reach n p → v < n → Reach n (p.find v).1
  | union {p : Pool} (x y : Nat) : Reach n p → x < n → y < n → Reach n (p.union x y).1

/-- The unification stack, a linked chain of unification_cont frames in
C (drawn from the inert binding slots of non-representative variables),
modelled as a list of pairs of pool indices; the NULL chain end is the
empty list. -/
def stackWF (p : Pool) (s : List (Nat × Nat)) : Prop :=
  ∀ fr ∈ s, fr.1 < p.size ∧ fr.2 < p.size

instance (p : Pool) (s : List (Nat × Nat)) : Decidable (stackWF p s) := by
  unfold stackWF; infer_instance

/-- Result of one unifier step: more work, a constructor clash, or an
empty stack. -/
inductive UnifyRes where
  | ok (p : Pool) (s : List (Nat × Nat))
  | clash
  | done (p : Pool)

/-- Install a binding on a representative: used when a merge must move
the single binding onto the surviving representative. -/
def copyBind (p : Pool) (r : Nat) (b : binding) : Pool :=
  p.set r { p.vars r with isBound := true, bound := b }

/-- Modelled from the spec (4.2): the case split of the unifier on a
popped pair whose representatives are ra and rb.  Same representative:
discard.  Neither bound: union.  Exactly one bound: union, then make
sure the merged representative carries that binding.  Both bound: clash
when the kinds differ; union for kind ONE; union plus pushing both
argument pairs (arg 1 first, so the arg 0 pair is popped first) for SUM
and PRODUCT. -/
def unifyPop (p : Pool) (ra rb : Nat) (rest : List (Nat × Nat)) : UnifyRes :=
  if ra = rb then .ok p rest
  else
    let va := p.vars ra
    let vb := p.vars rb
    if va.isBound then
      if vb.isBound then
        if va.bound.kind = vb.bound.kind then
          if va.bound.kind = typeName.one then .ok (link p ra rb).1 rest
          else .ok (link p ra rb).1
            ((va.bound.arg0, vb.bound.arg0) :: (va.bound.arg1, vb.bound.arg1) :: rest)
        else .clash
      else
        .ok (if (link p ra rb).2 = ra then (link p ra rb).1
             else copyBind (link p ra rb).1 (link p ra rb).2 va.bound) rest
    else
      if vb.isBound then
        .ok (if (link p ra rb).2 = rb then (link p ra rb).1
             else copyBind (link p ra rb).1 (link p ra rb).2 vb.bound) rest
      else .ok (link p ra rb).1 rest

/-- Modelled from the spec (4.2): one step of the worklist unifier: pop
a pair, take both representatives (with path compression), and apply the
case split. -/
def unifyStep (p : Pool) : List (Nat × Nat) → UnifyRes
  | [] => .done p
  | (a, b) :: rest => unifyPop ((p.find a).1.find b).1 (p.find a).2 ((p.find a).1.find b).2 rest

/-- Modelled from the spec (4.2): drive the unifier until the stack is
empty or a clash is found.  Fueled; some (some q) is success with final
pool q, some none is a clash, none means the fuel ran out (proved
impossible for the fuel used by the engine). -/
def unifyLoop : Nat → Pool → List (Nat × Nat) → Option (Option Pool)
  | 0, _, _ => none
  | fuel + 1, p, s =>
    match unifyStep p s with
    | .done q => some (some q)
    | .clash => some none
    | .ok q s2 => unifyLoop fuel q s2

/-- The state of the unifier after k successful steps (none when the
run stopped earlier, by termination or clash). -/
def unifyIter : Nat → Pool → List (Nat × Nat) → Option (Pool × List (Nat × Nat))
  | 0, p, s => some (p, s)
  | k + 1, p, s =>
    match unifyStep p s with
    | .ok q s2 => unifyIter k q s2
    | _ => none

/-- The constructor kind carried by the class of v, if its
representative is bound. -/
def classKind (p : Pool) (v : Nat) : Option typeName :=
  if (p.vars (p.root v)).isBound then some ((p.vars (p.root v)).bound.kind) else none

/-- Termination potential of the unifier: stack length plus three per
representative.  Every unifier step decreases it. -/
def uPhi (p : Pool) (s : List (Nat × Nat)) : Nat := s.length + 3 * repCount p

/-- All transient freezing state is unset: no frozen_ix assigned, no
occursCheck mark.  Holds before freezing starts. -/
def clean (p : Pool) : Prop :=
  ∀ v, (p.vars v).bound.frozen_ix = none ∧ (p.vars v).bound.occursCheck = false

/-- Relation between a binding argument a in the pre-state and the
corresponding argument c in the post-state of a unifier step: already
merged, or their unification is still pending on the stack. -/
def argRel (q : Pool) (s : List (Nat × Nat)) (a c : Nat) : Prop :=
  q.root c = q.root a ∨ (a, c) ∈ s ∨ (c, a) ∈ s

/-- The pool invariants maintained by the unifier. -/
def uInv (p : Pool) : Prop := parentWF p ∧ rankWF p ∧ sizeInv p ∧ bindingWF p

/-- Combinator tags of the Simplicity expression DAG nodes handled by
the constraint emitter. -/
inductive combTag where
  | iden
  | unit
  | injl
  | injr
  | take
  | drop
  | comp
  | pair
  deriving DecidableEq, Repr

/-- A node of the Simplicity expression DAG: a combinator tag and up to
two child indices referring to earlier nodes (the dag_node structure of
dag.h, reduced to the fields type inference reads). -/
structure dag_node where
  tag : combTag
  child0 : Nat
  child1 : Nat
  deriving DecidableEq, Repr

/-- Number of subexpression references a combinator carries. -/
def arity : combTag → Nat
  | .iden => 0
  | .unit => 0
  | .injl => 1
  | .injr => 1
  | .take => 1
  | .drop => 1
  | .comp => 2
  | .pair => 2

/-- The node at position i (the default is never read on well-formed
input). -/
def nodeAt (dag : List dag_node) (i : Nat) : dag_node :=
  dag.getD i { tag := combTag.iden, child0 := 0, child1 := 0 }

/-- Well-formed Simplicity DAG: non-empty, and every child reference
names a strictly earlier node. -/
def dagWF (dag : List dag_node) : Prop :=
  dag ≠ [] ∧ ∀ i, i < dag.length →
    (1 ≤ arity (nodeAt dag i).tag → (nodeAt dag i).child0 < i) ∧
    (2 ≤ arity (nodeAt dag i).tag → (nodeAt dag i).child1 < i)

instance (dag : List dag_node) : Decidable (dagWF dag) := by
  unfold dagWF; infer_instance

/-- The combinator census: a tally of the tags occurring in the DAG
(the combinator_counters of the C interface; used only for up-front
sizing). -/
structure combinator_counters where
  nIden : Nat
  nUnit : Nat
  nInjl : Nat
  nInjr : Nat
  nTake : Nat
  nDrop : Nat
  nComp : Nat
  nPair : Nat
  deriving DecidableEq, Repr

/-- Number of nodes with the given tag. -/
def countTag (dag : List dag_node) (t : combTag) : Nat :=
  (dag.filter (fun nd => nd.tag == t)).length

/-- The census matching a DAG. -/
def censusOf (dag : List dag_node) : combinator_counters :=
  { nIden := countTag dag .iden, nUnit := countTag dag .unit,
    nInjl := countTag dag .injl, nInjr := countTag dag .injr,
    nTake := countTag dag .take, nDrop := countTag dag .drop,
    nComp := countTag dag .comp, nPair := countTag dag .pair }

/-- Index of the source-type variable of node i. -/
def srcVar (i : Nat) : Nat := 2 * i

/-- Index of the target-type variable of node i. -/
def tgtVar (i : Nat) : Nat := 2 * i + 1

/-- Index of the shared variable pre-bound to ONE. -/
def oneVar (len : Nat) : Nat := 2 * len

/-- Index of the first (fresh) extra variable of node i. -/
def extraVar0 (len i : Nat) : Nat := 2 * len + 1 + 2 * i

/-- Index of the second (possibly pre-bound) extra variable of node i. -/
def extraVar1 (len i : Nat) : Nat := 2 * len + 2 + 2 * i

/-- Size of the variable pool for a DAG of the given length. -/
def poolSize (len : Nat) : Nat := 4 * len + 1

/-- A representative pre-bound with the given kind and arguments. -/
def mkBoundVar (k : typeName) (a0 a1 : Nat) : unification_var :=
  { parent := none
    bound := { arg0 := a0, arg1 := a1, frozen_ix := none, kind := k, occursCheck := false }
    rank := 0
    isBound := true }

/-- The node index owning the extra pool slot v. -/
def extraIx (len v : Nat) : Nat := (v - (2 * len + 1)) / 2

/-- The pre-bound extra variable of node i, determined by its
combinator's typing rule (ONE argument of unit is handled by the
shared oneVar slot instead). -/
def boundExtra (dag : List dag_node) (i : Nat) : unification_var :=
  match (nodeAt dag i).tag with
  | .injl => mkBoundVar typeName.sum (tgtVar (nodeAt dag i).child0) (extraVar0 dag.length i)
  | .injr => mkBoundVar typeName.sum (extraVar0 dag.length i) (tgtVar (nodeAt dag i).child0)
  | .take => mkBoundVar typeName.prod (srcVar (nodeAt dag i).child0) (extraVar0 dag.length i)
  | .drop => mkBoundVar typeName.prod (extraVar0 dag.length i) (srcVar (nodeAt dag i).child0)
  | .pair => mkBoundVar typeName.prod (tgtVar (nodeAt dag i).child0)
      (tgtVar (nodeAt dag i).child1)
  | _ => zeroVar

/-- Modelled from the spec (4.3, typeInference.c is not among the
provided sources): the initial value of each pool slot: fresh source
and target variables for every node, one variable pre-bound to ONE, and
per node an extra fresh variable plus an extra variable pre-bound
according to the combinator's typing rule, so that every constraint the
emitter issues is a plain unification request. -/
def initVar (dag : List dag_node) (v : Nat) : unification_var :=
  if v < 2 * dag.length then zeroVar
  else if v = 2 * dag.length then mkBoundVar typeName.one 0 0
  else if (v - (2 * dag.length + 1)) % 2 = 0 then zeroVar
  else boundExtra dag (extraIx dag.length v)

/-- The variable pool as allocated and initialized by the emitter. -/
def initPool (dag : List dag_node) : Pool :=
  { size := poolSize dag.length, vars := fun v => initVar dag v }

/-- Modelled from the spec (4.3): the unification constraints emitted
for node i, expressing the standard Simplicity typing rule of its
combinator; sharing of subexpressions is expressed by referring to the
source and target variables of the referenced child nodes. -/
def nodeConstraints (len : Nat) (i : Nat) (nd : dag_node) : List (Nat × Nat) :=
  match nd.tag with
  | .iden => [(srcVar i, tgtVar i)]
  | .unit => [(tgtVar i, oneVar len)]
  | .injl => [(srcVar i, srcVar nd.child0), (tgtVar i, extraVar1 len i)]
  | .injr => [(srcVar i, srcVar nd.child0), (tgtVar i, extraVar1 len i)]
  | .take => [(tgtVar i, tgtVar nd.child0), (srcVar i, extraVar1 len i)]
  | .drop => [(tgtVar i, tgtVar nd.child0), (srcVar i, extraVar1 len i)]
  | .comp => [(srcVar i, srcVar nd.child0), (tgtVar nd.child0, srcVar nd.child1),
      (tgtVar i, tgtVar nd.child1)]
  | .pair => [(srcVar i, srcVar nd.child0), (srcVar i, srcVar nd.child1),
      (tgtVar i, extraVar1 len i)]

/-- Modelled from the spec (4.3): the full initial unification stack:
the constraints of every node, followed by, when the expression is
declared a program, the constraints binding the root's source and
target variables to ONE. -/
def emitStack (isProgram : Bool) (dag : List dag_node) : List (Nat × Nat) :=
  (List.range dag.length).flatMap (fun i => nodeConstraints dag.length i (nodeAt dag i)) ++
    (if isProgram then
      [(srcVar (dag.length - 1), oneVar dag.length),
       (tgtVar (dag.length - 1), oneVar dag.length)]
     else [])

/-- Modelled from the spec (3, 6; the type array of type.h is not among
the provided sources): a node of the output type DAG: ONE, or a SUM or
PRODUCT of two earlier entries of the same array. -/
inductive typeSkel where
  | one
  | sum (a b : Nat)
  | prod (a b : Nat)
  deriving DecidableEq, Repr

/-- Topological condition on one type-DAG entry: child indices are
strictly below the entry's own index. -/
def nodeTopo (i : Nat) : typeSkel → Bool
  | .one => true
  | .sum a b => decide (a < i ∧ b < i)
  | .prod a b => decide (a < i ∧ b < i)

/-- Well-formed type DAG: non-empty, entry 0 is ONE, and every entry's
children are strictly earlier entries. -/
def typeDagWF (td : List typeSkel) : Prop :=
  td ≠ [] ∧ td.getD 0 typeSkel.one = typeSkel.one ∧
    ∀ i, i < td.length → nodeTopo i (td.getD i typeSkel.one) = true

instance (td : List typeSkel) : Decidable (typeDagWF td) := by
  unfold typeDagWF; infer_instance

/-- Result of one freezer step: more work, an occurs-check failure, or
an exhausted worklist. -/
inductive FreezeRes where
  | ok (p : Pool) (td : List typeSkel) (stack : List (Nat × Bool))
  | fail
  | done (p : Pool) (td : List typeSkel)

/-- Freeze the (representative) variable x to type-DAG index n,
clearing its gray mark. -/
def freezeExitPool (p : Pool) (x n : Nat) : Pool :=
  p.set x { p.vars x with
    bound := { (p.vars x).bound with frozen_ix := some n, occursCheck := false } }

/-- Freeze the (representative) variable x to type-DAG index n. -/
def freezeAssign (p : Pool) (x n : Nat) : Pool :=
  p.set x { p.vars x with bound := { (p.vars x).bound with frozen_ix := some n } }

/-- Set the gray (occurs-check) mark on the (representative)
variable x. -/
def freezeMark (p : Pool) (x : Nat) : Pool :=
  p.set x { p.vars x with bound := { (p.vars x).bound with occursCheck := true } }

/-- The type-DAG node recorded for the binding of x, reading the
(already assigned) frozen indices of its children's representatives. -/
def freezeNode (p : Pool) (x : Nat) : typeSkel :=
  match (p.vars x).bound.kind with
  | typeName.sum =>
    typeSkel.sum ((p.vars (p.root (p.vars x).bound.arg0)).bound.frozen_ix.getD 0)
      ((p.vars (p.root (p.vars x).bound.arg1)).bound.frozen_ix.getD 0)
  | typeName.prod =>
    typeSkel.prod ((p.vars (p.root (p.vars x).bound.arg0)).bound.frozen_ix.getD 0)
      ((p.vars (p.root (p.vars x).bound.arg1)).bound.frozen_ix.getD 0)
  | typeName.one => typeSkel.one

/-- Modelled from the spec (4.4): one step of the explicit-stack
two-colour freezer.  A frame (v, false) requests freezing the
representative of v: already frozen means nothing to do; an occursCheck
mark means a cycle was reached (failure); a free representative or a
ONE binding freezes to index 0; a SUM or PRODUCT binding is marked gray
and its children are pushed above an exit frame (r, true).  An exit
frame appends the node built from the children's now-assigned indices
and turns its representative black. -/
def freezeStep (p : Pool) (td : List typeSkel) : List (Nat × Bool) → FreezeRes
  | [] => .done p td
  | (v, phase) :: rest =>
    let r := p.root v
    if phase then
      .ok (freezeExitPool p r td.length) (td ++ [freezeNode p r]) rest
    else
      match (p.vars r).bound.frozen_ix with
      | some _ => .ok p td rest
      | none =>
        if (p.vars r).bound.occursCheck then .fail
        else if (p.vars r).isBound = false ∨ (p.vars r).bound.kind = typeName.one then
          .ok (freezeAssign p r 0) td rest
        else
          .ok (freezeMark p r) td
            (((p.vars r).bound.arg0, false) ::
              ((p.vars r).bound.arg1, false) :: (r, true) :: rest)

/-- Modelled from the spec (4.4): drive the freezer to completion.
Fueled; some (some (q, td)) is success, some none is an occurs-check
failure, none means the fuel ran out (proved impossible for the fuel
the engine uses). -/
def freezeLoop : Nat → Pool → List typeSkel → List (Nat × Bool) →
    Option (Option (Pool × List typeSkel))
  | 0, _, _, _ => none
  | fuel + 1, p, td, st =>
    match freezeStep p td st with
    | .done q tdq => some (some (q, tdq))
    | .fail => some none
    | .ok q tdq st2 => freezeLoop fuel q tdq st2

/-- The initial freezer worklist: an enter frame for the source and
target variable of every node. -/
def freezeInit (len : Nat) : List (Nat × Bool) :=
  (List.range len).flatMap (fun i => [(srcVar i, false), (tgtVar i, false)])

/-- Representatives not yet visited by the freezer. -/
def unseenCount (p : Pool) : Nat :=
  ((Finset.range p.size).filter (fun v => isRep p v ∧
    (p.vars v).bound.frozen_ix = none ∧ (p.vars v).bound.occursCheck = false)).card

/-- Termination potential of the freezer: worklist length plus three
per unseen representative. -/
def fPhi (p : Pool) (st : List (Nat × Bool)) : Nat := st.length + 3 * unseenCount p

/-- The three error kinds of the engine (spec section 7). -/
inductive InferErr where
  | allocFailure
  | clash
  | occursCheck
  deriving DecidableEq, Repr

/-- A successful inference outcome before surfacing. -/
structure InferOut where
  type_dag : List typeSkel
  sourceIx : Nat
  targetIx : Nat
  annotations : List (Nat × Nat)
  deriving DecidableEq, Repr

/-- Fuel that provably suffices for the unifier. -/
def unifyFuel (p : Pool) (s : List (Nat × Nat)) : Nat := uPhi p s + 1

/-- Emit then unify: the unification phase of the engine. -/
def runUnify (isProgram : Bool) (dag : List dag_node) : Option (Option Pool) :=
  unifyLoop (unifyFuel (initPool dag) (emitStack isProgram dag)) (initPool dag)
    (emitStack isProgram dag)

/-- Fuel that provably suffices for the freezer. -/
def freezeFuel (p : Pool) (st : List (Nat × Bool)) : Nat := fPhi p st + 1

/-- The freezing phase: start from the array holding just ONE and
freeze every node's source and target representative. -/
def runFreeze (p : Pool) (len : Nat) : Option (Option (Pool × List typeSkel)) :=
  freezeLoop (freezeFuel p (freezeInit len)) p [typeSkel.one] (freezeInit len)

/-- The typeAnnotation written back onto node i: the frozen indices of
its source and target representatives. -/
def annOf (p : Pool) (i : Nat) : Nat × Nat :=
  ((p.vars (p.root (srcVar i))).bound.frozen_ix.getD 0,
   (p.vars (p.root (tgtVar i))).bound.frozen_ix.getD 0)

/-- Modelled from the spec (sections 2, 6, 7): the complete sequential
engine: allocate the pool (first oracle entry), emit, unify, allocate
the output array (second oracle entry), freeze, and read off the
annotations and the root indices.  The fuel-exhaustion branches are
proved unreachable. -/
def runInfer (alloc : List Bool) (isProgram : Bool) (dag : List dag_node) :
    Except InferErr InferOut :=
  if alloc.getD 0 true = false then .error .allocFailure
  else
    match runUnify isProgram dag with
    | none => .error .allocFailure
    | some none => .error .clash
    | some (some pf) =>
      if alloc.getD 1 true = false then .error .allocFailure
      else
        match runFreeze pf dag.length with
        | none => .error .allocFailure
        | some none => .error .occursCheck
        | some (some (pz, td)) =>
          .ok { type_dag := td,
                sourceIx := (annOf pz (dag.length - 1)).1,
                targetIx := (annOf pz (dag.length - 1)).2,
                annotations := (List.range dag.length).map (fun i => annOf pz i) }

/-- What mallocTypeInference leaves at the caller: the returned Boolean
and the values written through the out-pointers; type_dag is none for
the NULL pointer. -/
structure InferResult where
  ok : Bool
  type_dag : Option (List typeSkel)
  sourceIx : Nat
  targetIx : Nat
  annotations : List (Nat × Nat)
  deriving DecidableEq, Repr

/-- Modelled from the spec and the header contract (typeInference.h
lines 74-102, body not among the provided sources): run the engine and
surface the outcome: allocation failure returns false with *type_dag
NULL; a type error (clash or occurs check) returns true with *type_dag
NULL; success returns true with the type DAG, the root's source and
target indices, and the per-node annotations.  The census argument is
used by the C code only to pre-size allocations. -/
def mallocTypeInference (alloc : List Bool) (isProgram : Bool) (dag : List dag_node)
    (_census : combinator_counters) : InferResult :=
  match runInfer alloc isProgram dag with
  | .error .allocFailure =>
    { ok := false, type_dag := none, sourceIx := 0, targetIx := 0, annotations := [] }
  | .error .clash =>
    { ok := true, type_dag := none, sourceIx := 0, targetIx := 0, annotations := [] }
  | .error .occursCheck =>
    { ok := true, type_dag := none, sourceIx := 0, targetIx := 0, annotations := [] }
  | .ok out =>
    { ok := true, type_dag := some out.type_dag, sourceIx := out.sourceIx,
      targetIx := out.targetIx, annotations := out.annotations }

/-- The unifier state after k steps on the emitted constraints, for
stating properties of intermediate states (the initial state when the
run stopped before k steps; use together with isSome). -/
def iterState (k : Nat) (isProgram : Bool) (dag : List dag_node) :
    Pool × List (Nat × Nat) :=
  (unifyIter k (initPool dag) (emitStack isProgram dag)).getD
    (initPool dag, emitStack isProgram dag)

/-- The next pop of the unifier faces two representatives carrying
bindings of different kinds. -/
def popsClash (p : Pool) : List (Nat × Nat) → Bool
  | [] => false
  | (a, b) :: _ =>
    let p2 := ((p.find a).1.find b).1
    let ra := (p.find a).2
    let rb := ((p.find a).1.find b).2
    (p2.vars ra).isBound && (p2.vars rb).isBound &&
      decide ((p2.vars ra).bound.kind ≠ (p2.vars rb).bound.kind)

/-- Frame fr guarantees future processing of the class of c: an enter
frame for a variable of the same class, or the exit frame of its
representative. -/
def coversVar (p : Pool) (fr : Nat × Bool) (c : Nat) : Prop :=
  (fr.2 = false ∧ p.root fr.1 = p.root c) ∨ (fr.2 = true ∧ fr.1 = p.root c)

instance (p : Pool) (fr : Nat × Bool) (c : Nat) : Decidable (coversVar p fr c) := by
  unfold coversVar; infer_instance

/-- The class of c has been frozen (black). -/
def blackV (p : Pool) (c : Nat) : Prop := (p.vars (p.root c)).bound.frozen_ix ≠ none

/-- The class of c is frozen or its freezing is pending on the
worklist. -/
def coveredV (p : Pool) (st : List (Nat × Bool)) (c : Nat) : Prop :=
  blackV p c ∨ ∃ fr ∈ st, coversVar p fr c

/-- Meaning of an assigned frozen index: a free or ONE class froze to
index 0; a SUM or PRODUCT class froze to an entry of the type DAG built
from its children's (already assigned) frozen indices. -/
def blackSem (p : Pool) (td : List typeSkel) : Prop :=
  ∀ r, r < p.size → isRep p r → ∀ i, (p.vars r).bound.frozen_ix = some i →
    ((¬ (p.vars r).isBound = true ∨ (p.vars r).bound.kind = typeName.one) → i = 0) ∧
    ((p.vars r).isBound = true → (p.vars r).bound.kind ≠ typeName.one →
      ∃ j0 j1, (p.vars (p.root (p.vars r).bound.arg0)).bound.frozen_ix = some j0 ∧
        (p.vars (p.root (p.vars r).bound.arg1)).bound.frozen_ix = some j1 ∧
        i < td.length ∧ td.getD i typeSkel.one =
          (if (p.vars r).bound.kind = typeName.sum then typeSkel.sum j0 j1
           else typeSkel.prod j0 j1))

/-- Every exit frame's representative is gray (marked, unassigned) and
each of its children is already frozen or still covered by an earlier
frame of the worklist. -/
def exitInv (p : Pool) (st : List (Nat × Bool)) : Prop :=
  ∀ j, j < st.length → ∀ r, st.getD j (0, false) = (r, true) →
    r < p.size ∧ isRep p r ∧ (p.vars r).bound.occursCheck = true ∧
    (p.vars r).bound.frozen_ix = none ∧ (p.vars r).isBound = true ∧
    (p.vars r).bound.kind ≠ typeName.one ∧
    (∀ c, c = (p.vars r).bound.arg0 ∨ c = (p.vars r).bound.arg1 →
      blackV p c ∨ ∃ j2, j2 < j ∧ coversVar p (st.getD j2 (0, false)) c)

/-- No representative has two pending exit frames. -/
def exitDistinct (st : List (Nat × Bool)) : Prop :=
  ∀ j1 j2, j1 < j2 → j2 < st.length → ∀ r1 r2,
    st.getD j1 (0, false) = (r1, true) → st.getD j2 (0, false) = (r2, true) → r1 ≠ r2

/-- The freezer invariant. -/
structure FInv (p : Pool) (td : List typeSkel) (st : List (Nat × Bool)) : Prop where
  pwf : parentWF p
  rwf : rankWF p
  bwf : bindingWF p
  stv : ∀ fr ∈ st, fr.1 < p.size
  tdne : td ≠ []
  td0 : td.getD 0 typeSkel.one = typeSkel.one
  topo : ∀ i, i < td.length → nodeTopo i (td.getD i typeSkel.one) = true
  alt : ∀ v i, (p.vars v).bound.frozen_ix = some i → i < td.length
  sem : blackSem p td
  exits : exitInv p st
  exdis : exitDistinct st

/-- What one ok freezer step guarantees: the invariant holds at the new
state, the pool keeps its size, roots and all binding fields except
frozen_ix and occursCheck, assigned frozen indices persist, the
potential decreases, the type DAG only grows, and pending coverage is
preserved. -/
def freezeStepOkConc (p : Pool) (td : List typeSkel) (st : List (Nat × Bool))
    (q : Pool) (td2 : List typeSkel) (st2 : List (Nat × Bool)) : Prop :=
  FInv q td2 st2 ∧ q.size = p.size ∧ fPhi q st2 < fPhi p st ∧
  (∀ w, (q.vars w).isBound = (p.vars w).isBound ∧
    (q.vars w).bound.kind = (p.vars w).bound.kind ∧
    (q.vars w).bound.arg0 = (p.vars w).bound.arg0 ∧
    (q.vars w).bound.arg1 = (p.vars w).bound.arg1) ∧
  (∀ w, q.root w = p.root w) ∧
  (∀ u i, (p.vars u).bound.frozen_ix = some i → (q.vars u).bound.frozen_ix = some i) ∧
  td.length ≤ td2.length ∧
  (∀ i, i < td.length → td2.getD i typeSkel.one = td.getD i typeSkel.one) ∧
  (∀ c, coveredV p st c → coveredV q st2 c)

/-- The engine found no principal type: the unifier clashed, or the
freezer failed the occurs check (spec section 7 conflates the two at
the boundary). -/
def noPrincipalType (ip : Bool) (dag : List dag_node) : Prop :=
  runUnify ip dag = some none ∨
    ∃ pf, runUnify ip dag = some (some pf) ∧ runFreeze pf dag.length = some none

/-- Did the unification phase succeed. -/
def unifySucceeded (ip : Bool) (dag : List dag_node) : Bool :=
  match runUnify ip dag with
  | some (some _) => true
  | _ => false

/-- The pool produced by a successful unification phase (the initial
pool when unification did not succeed). -/
def theUnifyPool (ip : Bool) (dag : List dag_node) : Pool :=
  match runUnify ip dag with
  | some (some pf) => pf
  | _ => initPool dag

/-- Representative r carries a directly cyclic binding: a non-trivial
constructor one of whose arguments belongs to the class of r itself. -/
def cyclicAt (p : Pool) (r : Nat) : Bool :=
  decide (r < p.size) && decide (isRep p r) && (p.vars r).isBound &&
    decide ((p.vars r).bound.kind ≠ typeName.one) &&
    (decide (p.root (p.vars r).bound.arg0 = r) || decide (p.root (p.vars r).bound.arg1 = r))

/-- Checker for one node of the annotated expression DAG against the
spec's combinator typing rules, reading types as indices into the type
DAG (this definition follows the spec's statement of the rules and is
compared against the engine's output). -/
def checkNode (td : List typeSkel) (anns : List (Nat × Nat)) (i : Nat)
    (nd : dag_node) : Bool :=
  match nd.tag with
  | .iden => (anns.getD i (0, 0)).1 == (anns.getD i (0, 0)).2
  | .unit => (anns.getD i (0, 0)).2 == 0
  | .injl =>
    ((anns.getD i (0, 0)).1 == (anns.getD nd.child0 (0, 0)).1) &&
      (match td.getD (anns.getD i (0, 0)).2 typeSkel.one with
       | typeSkel.sum a _ => a == (anns.getD nd.child0 (0, 0)).2
       | _ => false)
  | .injr =>
    ((anns.getD i (0, 0)).1 == (anns.getD nd.child0 (0, 0)).1) &&
      (match td.getD (anns.getD i (0, 0)).2 typeSkel.one with
       | typeSkel.sum _ b => b == (anns.getD nd.child0 (0, 0)).2
       | _ => false)
  | .take =>
    ((anns.getD i (0, 0)).2 == (anns.getD nd.child0 (0, 0)).2) &&
      (match td.getD (anns.getD i (0, 0)).1 typeSkel.one with
       | typeSkel.prod a _ => a == (anns.getD nd.child0 (0, 0)).1
       | _ => false)
  | .drop =>
    ((anns.getD i (0, 0)).2 == (anns.getD nd.child0 (0, 0)).2) &&
      (match td.getD (anns.getD i (0, 0)).1 typeSkel.one with
       | typeSkel.prod _ b => b == (anns.getD nd.child0 (0, 0)).1
       | _ => false)
  | .comp =>
    ((anns.getD i (0, 0)).1 == (anns.getD nd.child0 (0, 0)).1) &&
      ((anns.getD nd.child0 (0, 0)).2 == (anns.getD nd.child1 (0, 0)).1) &&
      ((anns.getD i (0, 0)).2 == (anns.getD nd.child1 (0, 0)).2)
  | .pair =>
    ((anns.getD i (0, 0)).1 == (anns.getD nd.child0 (0, 0)).1) &&
      ((anns.getD i (0, 0)).1 == (anns.getD nd.child1 (0, 0)).1) &&
      (match td.getD (anns.getD i (0, 0)).2 typeSkel.one with
       | typeSkel.prod a b =>
         (a == (anns.getD nd.child0 (0, 0)).2) && (b == (anns.getD nd.child1 (0, 0)).2)
       | _ => false)

/-- Checker for a whole annotated expression DAG: every node satisfies
its combinator's typing rule. -/
def checkTypedDag (dag : List dag_node) (td : List typeSkel)
    (anns : List (Nat × Nat)) : Bool :=
  (List.range dag.length).all (fun i => checkNode td anns i (nodeAt dag i))

/-- A single iden node (spec scenario: identity on unit). -/
def dagIden : List dag_node := [{ tag := combTag.iden, child0 := 0, child1 := 0 }]

/-- A single unit node (spec scenario: unit combinator, program form). -/
def dagUnit : List dag_node := [{ tag := combTag.unit, child0 := 0, child1 := 0 }]

/-- pair iden iden with the iden subexpression shared (spec scenario:
pair of identities). -/
def dagPairIden : List dag_node :=
  [{ tag := combTag.iden, child0 := 0, child1 := 0 },
   { tag := combTag.pair, child0 := 0, child1 := 0 }]

/-- comp (injl iden) (take iden): the middle type must unify both as a
SUM (target of injl) and as a PRODUCT (source of take), a kind clash. -/
def dagClash : List dag_node :=
  [{ tag := combTag.iden, child0 := 0, child1 := 0 },
   { tag := combTag.injl, child0 := 0, child1 := 0 },
   { tag := combTag.iden, child0 := 0, child1 := 0 },
   { tag := combTag.take, child0 := 2, child1 := 0 },
   { tag := combTag.comp, child0 := 1, child1 := 3 }]

/-- comp (pair iden unit) iden with the iden node shared: unification
binds the class of the iden source to PRODUCT of itself and ONE,
a cyclic solution caught by the freezer's occurs check. -/
def dagOccurs : List dag_node :=
  [{ tag := combTag.iden, child0 := 0, child1 := 0 },
   { tag := combTag.unit, child0 := 0, child1 := 0 },
   { tag := combTag.pair, child0 := 0, child1 := 1 },
   { tag := combTag.comp, child0 := 2, child1 := 0 }]

/-- comp (pair iden iden) iden with the single iden node shared by all
three references: unification binds the source class of iden to PRODUCT
of itself with itself, a cyclic solution caught by the freezer's occurs
check. -/
def dagOccursSmall : List dag_node :=
  [{ tag := combTag.iden, child0 := 0, child1 := 0 },
   { tag := combTag.pair, child0 := 0, child1 := 0 },
   { tag := combTag.comp, child0 := 1, child1 := 0 }]

/- ===================== General lemmas ===================== -/

theorem Pool.set_size (p : Pool) (i : Nat) (x : unification_var) : (p.set i x).size = p.size :=
  rfl

theorem Pool.set_vars_self (p : Pool) (i : Nat) (x : unification_var) :
    (p.set i x).vars i = x := by
  simp [Pool.set]

theorem Pool.set_vars_ne (p : Pool) (i : Nat) (x : unification_var) {j : Nat} (h : j ≠ i) :
    (p.set i x).vars j = p.vars j := by
  simp [Pool.set, Function.update_noteq h]

theorem rootAux_parent_none {p : Pool} {v : Nat} (h : (p.vars v).parent = none) :
    ∀ fuel, rootAux p fuel v = v := by
  intro fuel
  cases fuel with
  | zero => rfl
  | succ f => simp [rootAux, h]

theorem rootAux_parent_some {p : Pool} {v u : Nat} (h : (p.vars v).parent = some u)
    (fuel : Nat) : rootAux p (fuel + 1) v = rootAux p fuel u := by
  simp [rootAux, h]

theorem root_of_isRep {p : Pool} {v : Nat} (h : isRep p v) : p.root v = v :=
  rootAux_parent_none h p.size

theorem rootAux_good {p : Pool} (hp : parentWF p) (hr : rankWF p) :
    ∀ fuel v, v < p.size → p.size ≤ fuel + (p.vars v).rank →
      isRep p (rootAux p fuel v) ∧ rootAux p fuel v < p.size ∧
        (p.vars v).rank ≤ (p.vars (rootAux p fuel v)).rank := by
  intro fuel
  induction fuel with
  | zero => intro v hv hle; exact absurd hle (by have := hr v hv; omega)
  | succ f ih =>
    intro v hv hle
    cases hpar : (p.vars v).parent with
    | none =>
      rw [rootAux_parent_none hpar]
      exact ⟨hpar, hv, le_refl _⟩
    | some u =>
      obtain ⟨hu, hrank⟩ := hp v hv u hpar
      rw [rootAux_parent_some hpar]
      obtain ⟨h1, h2, h3⟩ := ih u hu (by omega)
      exact ⟨h1, h2, by omega⟩

theorem rootAux_fuel_eq {p : Pool} (hp : parentWF p) (hr : rankWF p) :
    ∀ f g v, v < p.size → p.size ≤ f + (p.vars v).rank → p.size ≤ g + (p.vars v).rank →
      rootAux p f v = rootAux p g v := by
  intro f
  induction f with
  | zero => intro g v hv hf _; exact absurd hf (by have := hr v hv; omega)
  | succ f ih =>
    intro g v hv hf hg
    cases g with
    | zero => exact absurd hg (by have := hr v hv; omega)
    | succ g =>
      cases hpar : (p.vars v).parent with
      | none => rw [rootAux_parent_none hpar, rootAux_parent_none hpar]
      | some u =>
        obtain ⟨hu, hrank⟩ := hp v hv u hpar
        rw [rootAux_parent_some hpar, rootAux_parent_some hpar]
        exact ih g u hu (by omega) (by omega)

theorem root_isRep {p : Pool} (hp : parentWF p) (hr : rankWF p) {v : Nat} (hv : v < p.size) :
    isRep p (p.root v) ∧ p.root v < p.size ∧ (p.vars v).rank ≤ (p.vars (p.root v)).rank :=
  rootAux_good hp hr p.size v hv (by omega)

theorem root_parent {p : Pool} (hp : parentWF p) (hr : rankWF p) {v u : Nat}
    (hv : v < p.size) (h : (p.vars v).parent = some u) : p.root v = p.root u := by
  obtain ⟨hu, hrank⟩ := hp v hv u h
  have hs : 1 ≤ p.size := by omega
  have h1 : p.root v = rootAux p (p.size - 1 + 1) v := by
    rw [Nat.sub_add_cancel hs]; rfl
  rw [h1, rootAux_parent_some h]
  exact rootAux_fuel_eq hp hr (p.size - 1) p.size u hu (by omega) (by omega)

theorem rank_lt_root {p : Pool} (hp : parentWF p) (hr : rankWF p) {v : Nat}
    (hv : v < p.size) (hnr : ¬ isRep p v) :
    (p.vars v).rank < (p.vars (p.root v)).rank := by
  cases hpar : (p.vars v).parent with
  | none => exact absurd hpar hnr
  | some u =>
    obtain ⟨hu, hrank⟩ := hp v hv u hpar
    have h2 := (root_isRep hp hr hu).2.2
    rw [root_parent hp hr hv hpar]
    omega

theorem root_ne_of_not_isRep {p : Pool} (hp : parentWF p) (hr : rankWF p) {v : Nat}
    (hv : v < p.size) (hnr : ¬ isRep p v) : p.root v ≠ v := by
  intro h
  have h2 := rank_lt_root hp hr hv hnr
  rw [h] at h2
  omega

theorem rootAux_congr {p q : Pool} (h : ∀ w, (q.vars w).parent = (p.vars w).parent) :
    ∀ fuel v, rootAux q fuel v = rootAux p fuel v := by
  intro fuel
  induction fuel with
  | zero => intro v; rfl
  | succ f ih =>
    intro v
    cases hpar : (p.vars v).parent with
    | none => rw [rootAux_parent_none (by rw [h]; exact hpar), rootAux_parent_none hpar]
    | some u => rw [rootAux_parent_some (by rw [h]; exact hpar) f, rootAux_parent_some hpar f, ih]

theorem root_congr {p q : Pool} (hsz : q.size = p.size)
    (h : ∀ w, (q.vars w).parent = (p.vars w).parent) (v : Nat) : q.root v = p.root v := by
  unfold Pool.root
  rw [hsz, rootAux_congr h]

theorem compress_rootAux {p : Pool} (hp : parentWF p) (hr : rankWF p) {x : Nat}
    (hx : x < p.size) (hnr : ¬ isRep p x) :
    ∀ fuel v, v < p.size → p.size ≤ fuel + (p.vars v).rank →
      rootAux (redirect p x) fuel v = p.root v := by
  have hrx := root_ne_of_not_isRep hp hr hx hnr
  have hxrep := (root_isRep hp hr hx).1
  intro fuel
  induction fuel with
  | zero => intro v hv hle; exact absurd hle (by have := hr v hv; omega)
  | succ f ih =>
    intro v hv hle
    by_cases hvx : v = x
    · subst hvx
      have hpar : ((redirect p v).vars v).parent = some (p.root v) := by
        simp [redirect, Pool.set_vars_self]
      rw [rootAux_parent_some hpar]
      have hroot : ((redirect p v).vars (p.root v)).parent = none := by
        rw [redirect, Pool.set_vars_ne _ _ _ hrx]
        exact hxrep
      rw [rootAux_parent_none hroot]
    · cases hpar : (p.vars v).parent with
      | none =>
        have hpar2 : ((redirect p x).vars v).parent = none := by
          rw [redirect, Pool.set_vars_ne _ _ _ hvx]; exact hpar
        rw [rootAux_parent_none hpar2, root_of_isRep hpar]
      | some u =>
        obtain ⟨hu, hrank⟩ := hp v hv u hpar
        have hpar2 : ((redirect p x).vars v).parent = some u := by
          rw [redirect, Pool.set_vars_ne _ _ _ hvx]; exact hpar
        rw [rootAux_parent_some hpar2, ih u hu (by omega), root_parent hp hr hv hpar]

theorem compress_spec {p : Pool} (hp : parentWF p) (hr : rankWF p) {x : Nat}
    (hx : x < p.size) (hnr : ¬ isRep p x) :
    parentWF (redirect p x) ∧ rankWF (redirect p x) ∧
      (∀ v, v < p.size → (redirect p x).root v = p.root v) := by
  have hranks : ∀ w, ((redirect p x).vars w).rank = (p.vars w).rank := by
    intro w
    by_cases hwx : w = x
    · subst hwx; simp [redirect, Pool.set_vars_self]
    · rw [redirect, Pool.set_vars_ne _ _ _ hwx]
  refine ⟨?_, ?_, ?_⟩
  · intro v hv u hpar
    by_cases hvx : v = x
    · subst hvx
      rw [redirect, Pool.set_vars_self] at hpar
      simp only at hpar
      cases hpar
      have h1 := (root_isRep hp hr hx).2.1
      have h2 := rank_lt_root hp hr hx hnr
      rw [hranks, hranks]
      exact ⟨h1, h2⟩
    · rw [redirect, Pool.set_vars_ne _ _ _ hvx] at hpar
      have hv2 : v < p.size := hv
      obtain ⟨hu, hrank⟩ := hp v hv2 u hpar
      rw [hranks, hranks]
      exact ⟨hu, hrank⟩
  · intro v hv
    rw [hranks]
    exact hr v hv
  · intro v hv
    exact compress_rootAux hp hr hx hnr p.size v hv (by omega)

theorem findAux_spec {p : Pool} (hp : parentWF p) (hr : rankWF p) :
    ∀ fuel v, v < p.size → p.size ≤ fuel + (p.vars v).rank →
      (findAux fuel p v).2 = p.root v ∧
      (findAux fuel p v).1.size = p.size ∧
      parentWF (findAux fuel p v).1 ∧ rankWF (findAux fuel p v).1 ∧
      (∀ w, w < p.size → (findAux fuel p v).1.root w = p.root w) ∧
      (∀ w, (findAux fuel p v).1.vars w = p.vars w ∨
        (¬ isRep p w ∧ (p.vars v).rank ≤ (p.vars w).rank ∧
          (findAux fuel p v).1.vars w = { p.vars w with parent := some (p.root w) })) := by
  intro fuel
  induction fuel with
  | zero => intro v hv hle; exact absurd hle (by have := hr v hv; omega)
  | succ f ih =>
    intro v hv hle
    cases hpar : (p.vars v).parent with
    | none =>
      have heq : findAux (f + 1) p v = (p, v) := by simp [findAux, hpar]
      rw [heq]
      exact ⟨(root_of_isRep hpar).symm, rfl, hp, hr, fun w _ => rfl, fun w => Or.inl rfl⟩
    | some u =>
      obtain ⟨hu, hrank⟩ := hp v hv u hpar
      obtain ⟨ih2, ihsz, ihp, ihr, ihroot, ihvars⟩ := ih u hu (by omega)
      have heq : findAux (f + 1) p v =
          ((findAux f p u).1.set v
            { (findAux f p u).1.vars v with parent := some (findAux f p u).2 },
           (findAux f p u).2) := by
        simp [findAux, hpar]
      have hvun : (findAux f p u).1.vars v = p.vars v := by
        rcases ihvars v with h | ⟨_, hle2, _⟩
        · exact h
        · omega
      have hrootv : (findAux f p u).1.root v = p.root v := ihroot v hv
      have hpv : p.root v = p.root u := root_parent hp hr hv hpar
      have hpr2 : (findAux f p u).2 = (findAux f p u).1.root v := by
        rw [ih2, hrootv, hpv]
      have hredir : (findAux (f + 1) p v).1 = redirect (findAux f p u).1 v := by
        rw [heq]
        simp only [redirect]
        rw [hpr2]
      have hnrq : ¬ isRep (findAux f p u).1 v := by
        unfold isRep
        rw [hvun, hpar]
        simp
      have hvq : v < (findAux f p u).1.size := by rw [ihsz]; exact hv
      obtain ⟨cp, cr, croot⟩ := compress_spec ihp ihr hvq hnrq
      refine ⟨?_, ?_, ?_, ?_, ?_, ?_⟩
      · rw [heq]
        simp only
        rw [ih2, hpv]
      · rw [hredir]
        have h1 : (redirect (findAux f p u).1 v).size = (findAux f p u).1.size := rfl
        rw [h1, ihsz]
      · rw [hredir]; exact cp
      · rw [hredir]; exact cr
      · intro w hw
        rw [hredir]
        have hwq : w < (findAux f p u).1.size := by rw [ihsz]; exact hw
        rw [croot w hwq, ihroot w hw]
      · intro w
        rw [hredir]
        by_cases hwv : w = v
        · subst hwv
          right
          refine ⟨by unfold isRep; rw [hpar]; simp, le_refl _, ?_⟩
          rw [redirect, Pool.set_vars_self, hvun, hrootv]
        · rw [redirect, Pool.set_vars_ne _ _ _ hwv]
          rcases ihvars w with h | ⟨h1, h2, h3⟩
          · exact Or.inl h
          · exact Or.inr ⟨h1, by omega, h3⟩

theorem find_spec {p : Pool} (hp : parentWF p) (hr : rankWF p) {v : Nat} (hv : v < p.size) :
    (p.find v).2 = p.root v ∧
    (p.find v).1.size = p.size ∧
    parentWF (p.find v).1 ∧ rankWF (p.find v).1 ∧
    (∀ w, w < p.size → (p.find v).1.root w = p.root w) ∧
    (∀ w, isRep (p.find v).1 w ↔ isRep p w) ∧
    (∀ w, isRep p w → (p.find v).1.vars w = p.vars w) ∧
    (∀ w, ((p.find v).1.vars w).rank = (p.vars w).rank) ∧
    (∀ w, ((p.find v).1.vars w).isBound = (p.vars w).isBound) ∧
    (∀ w, ((p.find v).1.vars w).bound = (p.vars w).bound) := by
  obtain ⟨h1, h2, h3, h4, h5, h6⟩ := findAux_spec hp hr p.size v hv (by omega)
  rw [show p.find v = findAux p.size p v from rfl]
  refine ⟨h1, h2, h3, h4, h5, ?_, ?_, ?_, ?_, ?_⟩
  · intro w
    rcases h6 w with h | ⟨hnr, _, hset⟩
    · unfold isRep; rw [h]
    · constructor
      · intro hrep
        unfold isRep at hrep
        rw [hset] at hrep
        simp at hrep
      · intro hrep; exact absurd hrep hnr
  · intro w hrep
    rcases h6 w with h | ⟨hnr, _, _⟩
    · exact h
    · exact absurd hrep hnr
  · intro w
    rcases h6 w with h | ⟨_, _, hset⟩
    · rw [h]
    · rw [hset]
  · intro w
    rcases h6 w with h | ⟨_, _, hset⟩
    · rw [h]
    · rw [hset]
  · intro w
    rcases h6 w with h | ⟨_, _, hset⟩
    · rw [h]
    · rw [hset]

theorem classOf_congr {p q : Pool} (hsz : q.size = p.size)
    (hroot : ∀ w, w < p.size → q.root w = p.root w) (r : Nat) : classOf q r = classOf p r := by
  unfold classOf
  rw [hsz]
  apply Finset.filter_congr
  intro w hw
  rw [Finset.mem_range] at hw
  simp [hroot w hw]

theorem find_sizeInv {p : Pool} (hp : parentWF p) (hr : rankWF p) (hs : sizeInv p)
    {v : Nat} (hv : v < p.size) : sizeInv (p.find v).1 := by
  obtain ⟨_, h2, _, _, h5, h6, _, h8, _, _⟩ := find_spec hp hr hv
  intro r hrlt hrep
  have hrlt2 : r < p.size := by rw [← h2]; exact hrlt
  have hrep2 : isRep p r := (h6 r).1 hrep
  rw [classOf_congr h2 h5 r, h8]
  exact hs r hrlt2 hrep2

theorem attach_rootAux {p : Pool} (hp : parentWF p) (hr : rankWF p) {a b : Nat}
    (hrepa : isRep p a) (hrepb : isRep p b) (hab : a ≠ b) :
    ∀ fuel v, v < p.size → p.size ≤ fuel + (p.vars v).rank →
      rootAux (p.set b { p.vars b with parent := some a }) fuel v
        = if p.root v = b then a else p.root v := by
  intro fuel
  induction fuel with
  | zero => intro v hv hle; exact absurd hle (by have := hr v hv; omega)
  | succ f ih =>
    intro v hv hle
    by_cases hvb : v = b
    · subst hvb
      have hpar : ((p.set v { p.vars v with parent := some a }).vars v).parent = some a := by
        rw [Pool.set_vars_self]
      rw [rootAux_parent_some hpar]
      have hpa : ((p.set v { p.vars v with parent := some a }).vars a).parent = none := by
        rw [Pool.set_vars_ne _ _ _ hab]
        exact hrepa
      rw [rootAux_parent_none hpa, root_of_isRep hrepb]
      simp
    · cases hpar : (p.vars v).parent with
      | none =>
        have hpar2 : ((p.set b { p.vars b with parent := some a }).vars v).parent = none := by
          rw [Pool.set_vars_ne _ _ _ hvb]; exact hpar
        rw [rootAux_parent_none hpar2, root_of_isRep hpar]
        simp [hvb]
      | some u =>
        obtain ⟨hu, hrank2⟩ := hp v hv u hpar
        have hpar2 : ((p.set b { p.vars b with parent := some a }).vars v).parent = some u := by
          rw [Pool.set_vars_ne _ _ _ hvb]; exact hpar
        rw [rootAux_parent_some hpar2, ih u hu (by omega), root_parent hp hr hv hpar]

theorem attach_spec {p : Pool} (hp : parentWF p) (hr : rankWF p) {a b : Nat}
    (ha : a < p.size) (hb : b < p.size) (hrepa : isRep p a) (hrepb : isRep p b)
    (hab : a ≠ b) (hrank : (p.vars b).rank < (p.vars a).rank) :
    parentWF (p.set b { p.vars b with parent := some a }) ∧
    rankWF (p.set b { p.vars b with parent := some a }) ∧
    (∀ w, w < p.size → (p.set b { p.vars b with parent := some a }).root w
      = if p.root w = b then a else p.root w) ∧
    (∀ w, isRep (p.set b { p.vars b with parent := some a }) w ↔ (isRep p w ∧ w ≠ b)) ∧
    classOf (p.set b { p.vars b with parent := some a }) a = classOf p a ∪ classOf p b ∧
    (∀ r, r ≠ a → r ≠ b → classOf (p.set b { p.vars b with parent := some a }) r
      = classOf p r) := by
  have hranks : ∀ w, ((p.set b { p.vars b with parent := some a }).vars w).rank
      = (p.vars w).rank := by
    intro w
    by_cases hwb : w = b
    · subst hwb; rw [Pool.set_vars_self]
    · rw [Pool.set_vars_ne _ _ _ hwb]
  have hroot : ∀ w, w < p.size → (p.set b { p.vars b with parent := some a }).root w
      = if p.root w = b then a else p.root w := by
    intro w hw
    exact attach_rootAux hp hr hrepa hrepb hab p.size w hw (by omega)
  have hrep : ∀ w, isRep (p.set b { p.vars b with parent := some a }) w
      ↔ (isRep p w ∧ w ≠ b) := by
    intro w
    by_cases hwb : w = b
    · subst hwb
      unfold isRep
      rw [Pool.set_vars_self]
      simp
    · unfold isRep
      rw [Pool.set_vars_ne _ _ _ hwb]
      simp [hwb]
  refine ⟨?_, ?_, hroot, hrep, ?_, ?_⟩
  · intro v hv u hpar
    have hv2 : v < p.size := hv
    rw [hranks, hranks]
    by_cases hvb : v = b
    · subst hvb
      rw [Pool.set_vars_self] at hpar
      simp only at hpar
      cases hpar
      exact ⟨ha, hrank⟩
    · rw [Pool.set_vars_ne _ _ _ hvb] at hpar
      exact hp v hv2 u hpar
  · intro v hv
    rw [hranks]
    exact hr v hv
  · unfold classOf
    have hsz : (p.set b { p.vars b with parent := some a }).size = p.size := rfl
    rw [hsz]
    have hiff : ∀ w, w ∈ Finset.range p.size →
        ((p.set b { p.vars b with parent := some a }).root w = a
          ↔ (p.root w = a ∨ p.root w = b)) := by
      intro w hw
      rw [Finset.mem_range] at hw
      rw [hroot w hw]
      by_cases hcase : p.root w = b
      · simp [hcase]
      · simp [hcase]
    rw [Finset.filter_congr (fun w hw => by rw [hiff w hw])]
    rw [Finset.filter_or]
  · intro r hra hrb
    unfold classOf
    have hsz : (p.set b { p.vars b with parent := some a }).size = p.size := rfl
    rw [hsz]
    apply Finset.filter_congr
    intro w hw
    rw [Finset.mem_range] at hw
    rw [hroot w hw]
    by_cases hcase : p.root w = b
    · simp [hcase, Ne.symm hra, Ne.symm hrb]
    · simp [hcase]

theorem bump_spec {p : Pool} (hp : parentWF p) (hr : rankWF p) {a : Nat}
    (hrepa : isRep p a) {rk : Nat} (hge : (p.vars a).rank ≤ rk) (hlt : rk < p.size) :
    parentWF (p.set a { p.vars a with rank := rk }) ∧
    rankWF (p.set a { p.vars a with rank := rk }) ∧
    (∀ w, (p.set a { p.vars a with rank := rk }).root w = p.root w) ∧
    (∀ w, isRep (p.set a { p.vars a with rank := rk }) w ↔ isRep p w) ∧
    (∀ r, classOf (p.set a { p.vars a with rank := rk }) r = classOf p r) := by
  have hpars : ∀ w, ((p.set a { p.vars a with rank := rk }).vars w).parent
      = (p.vars w).parent := by
    intro w
    by_cases hwa : w = a
    · subst hwa; rw [Pool.set_vars_self]
    · rw [Pool.set_vars_ne _ _ _ hwa]
  have hroot : ∀ w, (p.set a { p.vars a with rank := rk }).root w = p.root w :=
    root_congr rfl hpars
  refine ⟨?_, ?_, hroot, ?_, ?_⟩
  · intro v hv u hpar
    have hv2 : v < p.size := hv
    rw [hpars] at hpar
    obtain ⟨hu, hrank2⟩ := hp v hv2 u hpar
    refine ⟨hu, ?_⟩
    by_cases hva : v = a
    · subst hva
      rw [hrepa] at hpar
      cases hpar
    · rw [Pool.set_vars_ne _ _ _ hva]
      by_cases hua : u = a
      · subst hua
        rw [Pool.set_vars_self]
        simp only
        omega
      · rw [Pool.set_vars_ne _ _ _ hua]
        exact hrank2
  · intro v hv
    have hv2 : v < p.size := hv
    by_cases hva : v = a
    · subst hva
      rw [Pool.set_vars_self]
      exact hlt
    · rw [Pool.set_vars_ne _ _ _ hva]
      exact hr v hv2
  · intro w
    unfold isRep
    rw [hpars]
  · intro r
    apply classOf_congr
    · rfl
    · intro w _
      exact hroot w

theorem self_mem_classOf {p : Pool} {r : Nat} (hlt : r < p.size) (hrep : isRep p r) :
    r ∈ classOf p r := by
  unfold classOf
  rw [Finset.mem_filter, Finset.mem_range]
  exact ⟨hlt, root_of_isRep hrep⟩

theorem classOf_disjoint {p : Pool} {r s : Nat} (hne : r ≠ s) :
    Disjoint (classOf p r) (classOf p s) := by
  rw [Finset.disjoint_left]
  intro w hw1 hw2
  unfold classOf at hw1 hw2
  rw [Finset.mem_filter] at hw1 hw2
  exact hne (hw1.2.symm.trans hw2.2)

theorem classOf_pair_card_le {p : Pool} {r s : Nat} (hne : r ≠ s) :
    (classOf p r).card + (classOf p s).card ≤ p.size := by
  rw [← Finset.card_union_of_disjoint (classOf_disjoint hne)]
  calc (classOf p r ∪ classOf p s).card ≤ (Finset.range p.size).card := by
        apply Finset.card_le_card
        apply Finset.union_subset
        · exact Finset.filter_subset _ _
        · exact Finset.filter_subset _ _
  _ = p.size := Finset.card_range _

theorem link_spec {p : Pool} (hp : parentWF p) (hr : rankWF p) (hs : sizeInv p) {ra rb : Nat}
    (hra : ra < p.size) (hrb : rb < p.size) (hrepa : isRep p ra) (hrepb : isRep p rb)
    (hne : ra ≠ rb) :
    parentWF (link p ra rb).1 ∧ rankWF (link p ra rb).1 ∧ sizeInv (link p ra rb).1 ∧
    (link p ra rb).1.size = p.size ∧
    ((link p ra rb).2 = ra ∨ (link p ra rb).2 = rb) ∧
    isRep (link p ra rb).1 (link p ra rb).2 ∧
    (∀ w, w < p.size → (link p ra rb).1.root w =
      if p.root w = ra ∨ p.root w = rb then (link p ra rb).2 else p.root w) ∧
    (∃ l, (l = ra ∨ l = rb) ∧ l ≠ (link p ra rb).2 ∧ l < p.size ∧ isRep p l ∧
      (∀ w, isRep (link p ra rb).1 w ↔ (isRep p w ∧ w ≠ l))) ∧
    (∀ w, ((link p ra rb).1.vars w).isBound = (p.vars w).isBound ∧
      ((link p ra rb).1.vars w).bound = (p.vars w).bound) := by
  by_cases h1 : (p.vars ra).rank < (p.vars rb).rank
  · have hdef : link p ra rb = (p.set ra { p.vars ra with parent := some rb }, rb) := by
      simp [link, h1]
    obtain ⟨a1, a2, a3, a4, a5, a6⟩ :=
      attach_spec hp hr hrb hra hrepb hrepa (Ne.symm hne) h1
    rw [hdef]
    simp only
    have hvars : ∀ w, w ≠ ra →
        (p.set ra { p.vars ra with parent := some rb }).vars w = p.vars w := by
      intro w hw
      exact Pool.set_vars_ne _ _ _ hw
    refine ⟨a1, a2, ?_, rfl, ?_, ?_, ?_, ?_, ?_⟩
    · intro r hrlt hrep
      have hr2 : r < p.size := hrlt
      have hrep2 := (a4 r).1 hrep
      by_cases hrrb : r = rb
      · subst hrrb
        rw [a5, Finset.card_union_of_disjoint (classOf_disjoint (Ne.symm hne))]
        rw [hvars r (Ne.symm hne)]
        calc 2 ^ (p.vars r).rank ≤ (classOf p r).card := hs r hr2 hrep2.1
        _ ≤ (classOf p r).card + (classOf p ra).card := Nat.le_add_right _ _
      · rw [a6 r hrrb hrep2.2, hvars r hrep2.2]
        exact hs r hr2 hrep2.1
    · simp
    · exact (a4 rb).2 ⟨hrepb, Ne.symm hne⟩
    · intro w hw
      have h3 := a3 w hw
      by_cases hca : p.root w = ra
      · rw [h3, if_pos hca, if_pos (Or.inl hca)]
      · by_cases hcb : p.root w = rb
        · rw [h3, if_neg hca, if_pos (Or.inr hcb), hcb]
        · rw [h3, if_neg hca, if_neg (by tauto)]
    · exact ⟨ra, Or.inl rfl, hne, hra, hrepa, a4⟩
    · intro w
      by_cases hw : w = ra
      · subst hw
        rw [Pool.set_vars_self]
        exact ⟨rfl, rfl⟩
      · rw [hvars w hw]
        exact ⟨rfl, rfl⟩
  · by_cases h2 : (p.vars rb).rank < (p.vars ra).rank
    · have hdef : link p ra rb = (p.set rb { p.vars rb with parent := some ra }, ra) := by
        simp [link, h1, h2]
      obtain ⟨a1, a2, a3, a4, a5, a6⟩ :=
        attach_spec hp hr hra hrb hrepa hrepb hne h2
      rw [hdef]
      simp only
      have hvars : ∀ w, w ≠ rb →
          (p.set rb { p.vars rb with parent := some ra }).vars w = p.vars w := by
        intro w hw
        exact Pool.set_vars_ne _ _ _ hw
      refine ⟨a1, a2, ?_, rfl, ?_, ?_, ?_, ?_, ?_⟩
      · intro r hrlt hrep
        have hr2 : r < p.size := hrlt
        have hrep2 := (a4 r).1 hrep
        by_cases hrra : r = ra
        · subst hrra
          rw [a5, Finset.card_union_of_disjoint (classOf_disjoint hne)]
          rw [hvars r hne]
          calc 2 ^ (p.vars r).rank ≤ (classOf p r).card := hs r hr2 hrep2.1
          _ ≤ (classOf p r).card + (classOf p rb).card := Nat.le_add_right _ _
        · rw [a6 r hrra hrep2.2, hvars r hrep2.2]
          exact hs r hr2 hrep2.1
      · simp
      · exact (a4 ra).2 ⟨hrepa, hne⟩
      · intro w hw
        have h3 := a3 w hw
        by_cases hcb : p.root w = rb
        · rw [h3, if_pos hcb, if_pos (Or.inr hcb)]
        · by_cases hca : p.root w = ra
          · rw [h3, if_neg hcb, if_pos (Or.inl hca), hca]
          · rw [h3, if_neg hcb, if_neg (by tauto)]
      · exact ⟨rb, Or.inr rfl, Ne.symm hne, hrb, hrepb, a4⟩
      · intro w
        by_cases hw : w = rb
        · subst hw
          rw [Pool.set_vars_self]
          exact ⟨rfl, rfl⟩
        · rw [hvars w hw]
          exact ⟨rfl, rfl⟩
    · have heq : (p.vars ra).rank = (p.vars rb).rank := by omega
      have hbd : (p.vars ra).rank + 1 < p.size := by
        have hcard1 : 2 ^ (p.vars ra).rank ≤ (classOf p ra).card := hs ra hra hrepa
        have hcard2 : 1 ≤ (classOf p rb).card :=
          Finset.card_pos.2 ⟨rb, self_mem_classOf hrb hrepb⟩
        have hcard3 := classOf_pair_card_le (p := p) hne
        have hpow := Nat.lt_two_pow ((p.vars ra).rank)
        omega
      obtain ⟨b1, b2, b3, b4, b5⟩ :=
        bump_spec hp hr hrepa (Nat.le_succ _) hbd
      have hq0 : ∀ w, w ≠ ra →
          (p.set ra { p.vars ra with rank := (p.vars ra).rank + 1 }).vars w = p.vars w := by
        intro w hw
        exact Pool.set_vars_ne _ _ _ hw
      have hq0ra : (p.set ra { p.vars ra with rank := (p.vars ra).rank + 1 }).vars ra
          = { p.vars ra with rank := (p.vars ra).rank + 1 } := Pool.set_vars_self _ _ _
      have hrepa0 : isRep (p.set ra { p.vars ra with rank := (p.vars ra).rank + 1 }) ra :=
        (b4 ra).2 hrepa
      have hrepb0 : isRep (p.set ra { p.vars ra with rank := (p.vars ra).rank + 1 }) rb :=
        (b4 rb).2 hrepb
      have hrk0 : ((p.set ra { p.vars ra with rank := (p.vars ra).rank + 1 }).vars rb).rank
          < ((p.set ra { p.vars ra with rank := (p.vars ra).rank + 1 }).vars ra).rank := by
        rw [hq0 rb (Ne.symm hne), hq0ra]
        have hrk1 : ({ p.vars ra with rank := (p.vars ra).rank + 1 } : unification_var).rank
            = (p.vars ra).rank + 1 := rfl
        rw [hrk1]
        omega
      obtain ⟨a1, a2, a3, a4, a5, a6⟩ := attach_spec b1 b2 hra hrb hrepa0 hrepb0 hne hrk0
      have hdef : link p ra rb =
          ((p.set ra { p.vars ra with rank := (p.vars ra).rank + 1 }).set rb
            { (p.set ra { p.vars ra with rank := (p.vars ra).rank + 1 }).vars rb with
              parent := some ra }, ra) := by
        simp only [link, if_neg h1, if_neg h2]
        rw [hq0 rb (Ne.symm hne)]
      rw [hdef]
      simp only
      have hvars : ∀ w, w ≠ rb → w ≠ ra →
          ((p.set ra { p.vars ra with rank := (p.vars ra).rank + 1 }).set rb
            { (p.set ra { p.vars ra with rank := (p.vars ra).rank + 1 }).vars rb with
              parent := some ra }).vars w = p.vars w := by
        intro w hwb hwa
        rw [Pool.set_vars_ne _ _ _ hwb, hq0 w hwa]
      refine ⟨a1, a2, ?_, rfl, ?_, ?_, ?_, ?_, ?_⟩
      · intro r hrlt hrep
        have hr2 : r < p.size := hrlt
        have hrep2 := (a4 r).1 hrep
        have hrep3 : isRep p r := (b4 r).1 hrep2.1
        by_cases hrra : r = ra
        · subst hrra
          rw [a5, b5, b5, Finset.card_union_of_disjoint (classOf_disjoint hne)]
          rw [Pool.set_vars_ne _ _ _ hne, hq0ra]
          have hrk1 : ({ p.vars r with rank := (p.vars r).rank + 1 } : unification_var).rank
              = (p.vars r).rank + 1 := rfl
          rw [hrk1]
          have hA := hs r hr2 hrepa
          have hB := hs rb hrb hrepb
          rw [← heq] at hB
          have hp2 : 2 ^ ((p.vars r).rank + 1) = 2 ^ (p.vars r).rank + 2 ^ (p.vars r).rank := by
            rw [pow_succ]
            omega
          omega
        · rw [a6 r hrra hrep2.2, b5, hvars r hrep2.2 hrra]
          exact hs r hr2 hrep3
      · simp
      · exact (a4 ra).2 ⟨hrepa0, hne⟩
      · intro w hw
        have h3 := a3 w hw
        rw [b3 w] at h3
        by_cases hcb : p.root w = rb
        · rw [h3, if_pos hcb, if_pos (Or.inr hcb)]
        · by_cases hca : p.root w = ra
          · rw [h3, if_neg hcb, if_pos (Or.inl hca), hca]
          · rw [h3, if_neg hcb, if_neg (by tauto)]
      · refine ⟨rb, Or.inr rfl, Ne.symm hne, hrb, hrepb, ?_⟩
        intro w
        rw [a4 w, b4 w]
      · intro w
        by_cases hwb : w = rb
        · subst hwb
          rw [Pool.set_vars_self, hq0 w (Ne.symm hne)]
          exact ⟨rfl, rfl⟩
        · by_cases hwa : w = ra
          · subst hwa
            rw [Pool.set_vars_ne _ _ _ hwb, hq0ra]
            exact ⟨rfl, rfl⟩
          · rw [hvars w hwb hwa]
            exact ⟨rfl, rfl⟩

theorem repCount_congr {q p : Pool} (hsz : q.size = p.size)
    (hiff : ∀ w, isRep q w ↔ isRep p w) : repCount q = repCount p := by
  unfold repCount
  rw [hsz]
  congr 1
  apply Finset.filter_congr
  intro w _
  simp [hiff w]

theorem repCount_erase {q p : Pool} {l : Nat} (hsz : q.size = p.size) (hl : l < p.size)
    (hlrep : isRep p l) (hiff : ∀ w, isRep q w ↔ (isRep p w ∧ w ≠ l)) :
    repCount q + 1 = repCount p := by
  unfold repCount
  rw [hsz]
  have h1 : (Finset.range p.size).filter (fun w => isRep q w)
      = ((Finset.range p.size).filter (fun w => isRep p w)).erase l := by
    rw [← Finset.filter_ne']
    rw [Finset.filter_filter]
    apply Finset.filter_congr
    intro w _
    simp [hiff w]
  rw [h1]
  have hmem : l ∈ (Finset.range p.size).filter (fun w => isRep p w) := by
    rw [Finset.mem_filter, Finset.mem_range]
    exact ⟨hl, hlrep⟩
  rw [Finset.card_erase_of_mem hmem]
  have hpos : 0 < ((Finset.range p.size).filter (fun w => isRep p w)).card :=
    Finset.card_pos.2 ⟨l, hmem⟩
  omega

theorem union_spec {p : Pool} (hp : parentWF p) (hr : rankWF p) (hs : sizeInv p)
    {x y : Nat} (hx : x < p.size) (hy : y < p.size) :
    parentWF (p.union x y).1 ∧ rankWF (p.union x y).1 ∧ sizeInv (p.union x y).1 ∧
    (p.union x y).1.size = p.size ∧
    ((p.union x y).2 = p.root x ∨ (p.union x y).2 = p.root y) ∧
    isRep (p.union x y).1 (p.union x y).2 ∧
    (∀ w, w < p.size → (p.union x y).1.root w =
      if p.root w = p.root x ∨ p.root w = p.root y then (p.union x y).2 else p.root w) ∧
    (p.root x = p.root y → repCount (p.union x y).1 = repCount p) ∧
    (p.root x ≠ p.root y → repCount (p.union x y).1 + 1 = repCount p) ∧
    (∀ w, ((p.union x y).1.vars w).isBound = (p.vars w).isBound ∧
      ((p.union x y).1.vars w).bound = (p.vars w).bound) ∧
    (∀ w, isRep (p.union x y).1 w → isRep p w) := by
  obtain ⟨f1, f2, f3, f4, f5, f6, f7, f8, f9, f10⟩ := find_spec hp hr hx
  have hy1 : y < (p.find x).1.size := by rw [f2]; exact hy
  obtain ⟨g1, g2, g3, g4, g5, g6, g7, g8, g9, g10⟩ := find_spec f3 f4 hy1
  have hs1 : sizeInv (p.find x).1 := find_sizeInv hp hr hs hx
  have hs2 : sizeInv ((p.find x).1.find y).1 := find_sizeInv f3 f4 hs1 hy1
  have hsz2 : ((p.find x).1.find y).1.size = p.size := by rw [g2, f2]
  have hrootsx : ∀ w, w < p.size → ((p.find x).1.find y).1.root w = p.root w := by
    intro w hw
    rw [g5 w (by rw [f2]; exact hw), f5 w hw]
  have hrepsx : ∀ w, isRep ((p.find x).1.find y).1 w ↔ isRep p w := by
    intro w
    rw [g6 w, f6 w]
  have hvarsx : ∀ w, (((p.find x).1.find y).1.vars w).isBound = (p.vars w).isBound ∧
      (((p.find x).1.find y).1.vars w).bound = (p.vars w).bound := by
    intro w
    rw [g9 w, g10 w, f9 w, f10 w]
    exact ⟨rfl, rfl⟩
  have hf12 : (p.find x).2 = p.root x := f1
  have hf22 : ((p.find x).1.find y).2 = p.root y := by
    rw [g1, f5 y hy]
  have hrx : p.root x < p.size := (root_isRep hp hr hx).2.1
  have hry : p.root y < p.size := (root_isRep hp hr hy).2.1
  have hrepx2 : isRep ((p.find x).1.find y).1 (p.root x) :=
    (hrepsx _).2 (root_isRep hp hr hx).1
  have hrepy2 : isRep ((p.find x).1.find y).1 (p.root y) :=
    (hrepsx _).2 (root_isRep hp hr hy).1
  by_cases hxy : p.root x = p.root y
  · have hdef : p.union x y = (((p.find x).1.find y).1, p.root x) := by
      unfold Pool.union
      simp only
      rw [hf12, hf22, if_pos hxy]
    rw [hdef]
    simp only
    refine ⟨g3, g4, hs2, hsz2, ?_, hrepx2, ?_, ?_, ?_, hvarsx, ?_⟩
    · exact Or.inl trivial
    · intro w hw
      rw [hrootsx w hw]
      by_cases hc : p.root w = p.root x ∨ p.root w = p.root y
      · rcases hc with hc | hc
        · rw [if_pos (Or.inl hc), hc]
        · rw [if_pos (Or.inr hc), hc, hxy]
      · rw [if_neg hc]
    · intro _
      exact repCount_congr hsz2 hrepsx
    · intro hne
      exact absurd hxy hne
    · intro w hw
      exact (hrepsx w).1 hw
  · have hdef : p.union x y = link ((p.find x).1.find y).1 (p.root x) (p.root y) := by
      unfold Pool.union
      simp only
      rw [hf12, hf22, if_neg hxy]
    have hrx2 : p.root x < ((p.find x).1.find y).1.size := by rw [hsz2]; exact hrx
    have hry2 : p.root y < ((p.find x).1.find y).1.size := by rw [hsz2]; exact hry
    obtain ⟨l1, l2, l3, l4, l5, l6, l7, l8, l9⟩ :=
      link_spec g3 g4 hs2 hrx2 hry2 hrepx2 hrepy2 hxy
    rw [hdef]
    refine ⟨l1, l2, l3, by rw [l4, hsz2], ?_, l6, ?_, ?_, ?_, ?_, ?_⟩
    · exact l5
    · intro w hw
      have hw2 : w < ((p.find x).1.find y).1.size := by rw [hsz2]; exact hw
      rw [l7 w hw2, hrootsx w hw]
    · intro heq
      exact absurd heq hxy
    · intro _
      obtain ⟨l, hl1, hl2, hl3, hl4, hl5⟩ := l8
      have hstep := repCount_erase (p := ((p.find x).1.find y).1)
        (q := (link ((p.find x).1.find y).1 (p.root x) (p.root y)).1) l4 hl3 hl4 hl5
      rw [hstep]
      exact repCount_congr hsz2 hrepsx
    · intro w
      obtain ⟨hb1, hb2⟩ := l9 w
      obtain ⟨hb3, hb4⟩ := hvarsx w
      rw [hb1, hb2, hb3, hb4]
      exact ⟨rfl, rfl⟩
    · intro w hw
      obtain ⟨l, hl1, hl2, hl3, hl4, hl5⟩ := l8
      exact (hrepsx w).1 ((hl5 w).1 hw).1

theorem freshPool_inv (n : Nat) :
    parentWF (freshPool n) ∧ rankWF (freshPool n) ∧ sizeInv (freshPool n) := by
  refine ⟨?_, ?_, ?_⟩
  · intro v hv u hpar
    cases hpar
  · intro v hv
    have : (freshPool n).vars v = zeroVar := rfl
    rw [this]
    exact Nat.lt_of_lt_of_le (by norm_num [zeroVar]) hv
  · intro r hrlt hrep
    have hcls : r ∈ classOf (freshPool n) r := self_mem_classOf hrlt hrep
    have : (freshPool n).vars r = zeroVar := rfl
    rw [this]
    have h0 : zeroVar.rank = 0 := rfl
    rw [h0, pow_zero]
    exact Finset.card_pos.2 ⟨r, hcls⟩

theorem reach_inv {n : Nat} {p : Pool} (h : Reach n p) :
    parentWF p ∧ rankWF p ∧ sizeInv p ∧ p.size = n := by
  induction h with
  | init =>
    obtain ⟨h1, h2, h3⟩ := freshPool_inv n
    exact ⟨h1, h2, h3, rfl⟩
  | @find p v hrch hv ih =>
    obtain ⟨h1, h2, h3, h4⟩ := ih
    have hv2 : v < p.size := by rw [h4]; exact hv
    obtain ⟨_, f2, f3, f4, _, _, _, _, _, _⟩ := find_spec h1 h2 hv2
    exact ⟨f3, f4, find_sizeInv h1 h2 h3 hv2, by rw [f2, h4]⟩
  | @union p x y hrch hx hy ih =>
    obtain ⟨h1, h2, h3, h4⟩ := ih
    have hx2 : x < p.size := by rw [h4]; exact hx
    have hy2 : y < p.size := by rw [h4]; exact hy
    obtain ⟨u1, u2, u3, u4, _⟩ := union_spec h1 h2 h3 hx2 hy2
    exact ⟨u1, u2, u3, by rw [u4, h4]⟩

/-- C8: at every pool state reachable by a sequence of find and union
operations from a zero-filled pool, every representative r (NULL parent,
rank active) has at least 2 ^ r.rank unification variables in the
equivalence class rooted at r; preservation by each find and union is
the induction step of the proof (find_sizeInv, union_spec). -/
theorem c8_class_size_bound {n : Nat} {p : Pool} (h : Reach n p) :
    ∀ r, r < n → isRep p r → 2 ^ ((p.vars r).rank) ≤ (classOf p r).card := by
  obtain ⟨_, _, h3, h4⟩ := reach_inv h
  intro r hr hrep
  exact h3 r (by rw [h4]; exact hr) hrep

/-- Witness for C8 at a concrete reachable state: the pool obtained from
two fresh variables by union 0 1, whose representative 0 has rank 1 and
a class of two members. -/
theorem c8_class_size_bound_witness :
    isRep ((freshPool 2).union 0 1).1 0 ∧
      2 ^ ((((freshPool 2).union 0 1).1.vars 0).rank)
        ≤ (classOf ((freshPool 2).union 0 1).1 0).card :=
  ⟨by decide,
    c8_class_size_bound (Reach.union 0 1 Reach.init (by decide) (by decide))
      0 (by decide) (by decide)⟩

/-- C9: a unification_var whose storage is all zero is a fresh free
unification variable: NULL parent (its own representative), not bound,
rank 0; a zero-filled pool therefore consists of fresh free variables,
each the representative of its own singleton class. -/
theorem c9_zero_var_fresh :
    zeroVar.parent = none ∧ zeroVar.isBound = false ∧ zeroVar.rank = 0 ∧
    ∀ n v, v < n →
      (freshPool n).vars v = zeroVar ∧ isRep (freshPool n) v ∧
        classOf (freshPool n) v = {v} := by
  refine ⟨rfl, rfl, rfl, ?_⟩
  intro n v hv
  refine ⟨rfl, rfl, ?_⟩
  unfold classOf
  have hroot : ∀ w, (freshPool n).root w = w := by
    intro w
    exact root_of_isRep rfl
  have h1 : ((Finset.range (freshPool n).size).filter (fun w => (freshPool n).root w = v))
      = (Finset.range n).filter (fun w => w = v) := by
    apply Finset.filter_congr
    intro w _
    simp [hroot w]
  rw [h1, Finset.filter_eq']
  rw [if_pos (Finset.mem_range.2 hv)]

/-- Witness for C9 on a concrete zero-filled pool of three variables. -/
theorem c9_zero_var_fresh_witness :
    (freshPool 3).vars 1 = zeroVar ∧ isRep (freshPool 3) 1 ∧
      classOf (freshPool 3) 1 = {1} :=
  c9_zero_var_fresh.2.2.2 3 1 (by decide)

theorem bindingWF_transfer {p q : Pool} (hsz : q.size = p.size)
    (hrep : ∀ w, isRep q w → isRep p w)
    (hbv : ∀ w, (q.vars w).isBound = (p.vars w).isBound ∧ (q.vars w).bound = (p.vars w).bound)
    (hb : bindingWF p) : bindingWF q := by
  intro v hv hvrep hvb hvk
  have hv2 : v < p.size := by rw [← hsz]; exact hv
  obtain ⟨h1, h2⟩ := hbv v
  rw [h2] at hvk ⊢
  rw [hsz]
  exact hb v hv2 (hrep v hvrep) (by rw [← h1]; exact hvb) hvk

theorem copyBind_spec (p : Pool) (r : Nat) (b : binding) :
    (copyBind p r b).size = p.size ∧
    (∀ w, ((copyBind p r b).vars w).parent = (p.vars w).parent) ∧
    (∀ w, (copyBind p r b).root w = p.root w) ∧
    (∀ w, isRep (copyBind p r b) w ↔ isRep p w) ∧
    (∀ w, ((copyBind p r b).vars w).rank = (p.vars w).rank) ∧
    ((copyBind p r b).vars r).isBound = true ∧
    ((copyBind p r b).vars r).bound = b ∧
    (∀ w, w ≠ r → (copyBind p r b).vars w = p.vars w) := by
  have hvars : ∀ w, w ≠ r → (copyBind p r b).vars w = p.vars w := by
    intro w hw
    exact Pool.set_vars_ne _ _ _ hw
  have hself : (copyBind p r b).vars r = { p.vars r with isBound := true, bound := b } :=
    Pool.set_vars_self _ _ _
  have hpars : ∀ w, ((copyBind p r b).vars w).parent = (p.vars w).parent := by
    intro w
    by_cases hw : w = r
    · subst hw; rw [hself]
    · rw [hvars w hw]
  refine ⟨rfl, hpars, root_congr rfl hpars, ?_, ?_, ?_, ?_, hvars⟩
  · intro w
    unfold isRep
    rw [hpars]
  · intro w
    by_cases hw : w = r
    · subst hw; rw [hself]
    · rw [hvars w hw]
  · rw [hself]
  · rw [hself]

theorem copyBind_inv {p : Pool} {r : Nat} {b : binding} (hp : parentWF p) (hr : rankWF p)
    (hs : sizeInv p) :
    parentWF (copyBind p r b) ∧ rankWF (copyBind p r b) ∧ sizeInv (copyBind p r b) ∧
    repCount (copyBind p r b) = repCount p := by
  obtain ⟨c1, c2, c3, c4, c5, _, _, _⟩ := copyBind_spec p r b
  refine ⟨?_, ?_, ?_, repCount_congr c1 c4⟩
  · intro v hv u hpar
    have hv2 : v < p.size := hv
    rw [c2] at hpar
    obtain ⟨hu, hrank⟩ := hp v hv2 u hpar
    rw [c5, c5]
    exact ⟨hu, hrank⟩
  · intro v hv
    rw [c5]
    exact hr v hv
  · intro s hslt hsrep
    have hs2 : s < p.size := hslt
    rw [c5, classOf_congr c1 (fun w _ => c3 w) s]
    exact hs s hs2 ((c4 s).1 hsrep)

theorem find2_spec {p : Pool} (hp : parentWF p) (hr : rankWF p) (hs : sizeInv p)
    {a b : Nat} (ha : a < p.size) (hb : b < p.size) :
    (p.find a).2 = p.root a ∧ ((p.find a).1.find b).2 = p.root b ∧
    parentWF ((p.find a).1.find b).1 ∧ rankWF ((p.find a).1.find b).1 ∧
    sizeInv ((p.find a).1.find b).1 ∧ ((p.find a).1.find b).1.size = p.size ∧
    (∀ w, w < p.size → ((p.find a).1.find b).1.root w = p.root w) ∧
    (∀ w, isRep ((p.find a).1.find b).1 w ↔ isRep p w) ∧
    (∀ w, isRep p w → ((p.find a).1.find b).1.vars w = p.vars w) ∧
    (∀ w, (((p.find a).1.find b).1.vars w).rank = (p.vars w).rank ∧
      (((p.find a).1.find b).1.vars w).isBound = (p.vars w).isBound ∧
      (((p.find a).1.find b).1.vars w).bound = (p.vars w).bound) ∧
    repCount ((p.find a).1.find b).1 = repCount p := by
  obtain ⟨f1, f2, f3, f4, f5, f6, f7, f8, f9, f10⟩ := find_spec hp hr ha
  have hb1 : b < (p.find a).1.size := by rw [f2]; exact hb
  obtain ⟨g1, g2, g3, g4, g5, g6, g7, g8, g9, g10⟩ := find_spec f3 f4 hb1
  have hs1 : sizeInv (p.find a).1 := find_sizeInv hp hr hs ha
  have hs2 : sizeInv ((p.find a).1.find b).1 := find_sizeInv f3 f4 hs1 hb1
  have hsz : ((p.find a).1.find b).1.size = p.size := by rw [g2, f2]
  have hroots : ∀ w, w < p.size → ((p.find a).1.find b).1.root w = p.root w := by
    intro w hw
    rw [g5 w (by rw [f2]; exact hw), f5 w hw]
  have hreps : ∀ w, isRep ((p.find a).1.find b).1 w ↔ isRep p w := by
    intro w
    rw [g6 w, f6 w]
  refine ⟨f1, by rw [g1, f5 b hb], g3, g4, hs2, hsz, hroots, hreps, ?_, ?_, ?_⟩
  · intro w hw
    rw [g7 w ((f6 w).2 hw), f7 w hw]
  · intro w
    rw [g8 w, g9 w, g10 w, f8 w, f9 w, f10 w]
    exact ⟨rfl, rfl, rfl⟩
  · rw [repCount_congr g2 g6, repCount_congr f2 f6]

theorem coarsen_of_map {p q : Pool} {ra rb res : Nat}
    (hmap : ∀ w, w < p.size →
      q.root w = if p.root w = ra ∨ p.root w = rb then res else p.root w) :
    ∀ v w, v < p.size → w < p.size → p.root v = p.root w → q.root v = q.root w := by
  intro v w hv hw heq
  rw [hmap v hv, hmap w hw, heq]

theorem stackWF_of_size {p q : Pool} (hsz : q.size = p.size) {s : List (Nat × Nat)}
    (h : stackWF p s) : stackWF q s := by
  intro fr hfr
  rw [hsz]
  exact h fr hfr

theorem unifyPop_ok_spec {p : Pool} {ra rb : Nat} {rest s2 : List (Nat × Nat)} {q : Pool}
    (hinv : uInv p) (hra : ra < p.size) (hrb : rb < p.size)
    (hrepa : isRep p ra) (hrepb : isRep p rb) (hrest : stackWF p rest)
    (hstep : unifyPop p ra rb rest = .ok q s2) :
    uInv q ∧ q.size = p.size ∧ stackWF q s2 ∧
    s2.length + 3 * repCount q < (rest.length + 1) + 3 * repCount p ∧
    (∀ v w, v < p.size → w < p.size → p.root v = p.root w → q.root v = q.root w) ∧
    q.root ra = q.root rb ∧
    (∀ fr, fr ∈ rest → fr ∈ s2) ∧
    (∀ v k, v < p.size → classKind p v = some k → classKind q v = some k) ∧
    (∀ r, r < p.size → isRep p r → (p.vars r).isBound →
      (p.vars r).bound.kind ≠ typeName.one →
      (q.vars (q.root r)).isBound ∧
      (q.vars (q.root r)).bound.kind = (p.vars r).bound.kind ∧
      argRel q s2 ((p.vars r).bound.arg0) ((q.vars (q.root r)).bound.arg0) ∧
      argRel q s2 ((p.vars r).bound.arg1) ((q.vars (q.root r)).bound.arg1)) ∧
    (clean p → clean q) := by
  obtain ⟨hp, hr, hs, hbwf⟩ := hinv
  simp only [unifyPop] at hstep
  by_cases hab : ra = rb
  · rw [if_pos hab] at hstep
    injection hstep with hq hsl
    subst hq
    subst hsl
    refine ⟨⟨hp, hr, hs, hbwf⟩, rfl, hrest, by omega, fun v w _ _ h => h, by rw [hab],
      fun fr h => h, fun v k _ h => h, ?_, fun h => h⟩
    intro r hrlt hrep hbnd hknd
    rw [root_of_isRep hrep]
    exact ⟨hbnd, rfl, Or.inl rfl, Or.inl rfl⟩
  · rw [if_neg hab] at hstep
    obtain ⟨l1, l2, l3, l4, l5, l6, l7, l8, l9⟩ := link_spec hp hr hs hra hrb hrepa hrepb hab
    obtain ⟨lw, hlw1, hlw2, hlw3, hlw4, hlw5⟩ := l8
    have hbwfpl : bindingWF (link p ra rb).1 := by
      apply bindingWF_transfer l4 ?_ l9 hbwf
      intro w hw
      exact ((hlw5 w).1 hw).1
    have hclpl : clean p → clean (link p ra rb).1 := by
      intro hc v
      rw [(l9 v).2]
      exact hc v
    have hrc : repCount (link p ra rb).1 + 1 = repCount p := repCount_erase l4 hlw3 hlw4 hlw5
    have hresa : p.root ra = ra := root_of_isRep hrepa
    have hresb : p.root rb = rb := root_of_isRep hrepb
    have hqra : (link p ra rb).1.root ra = (link p ra rb).2 := by
      rw [l7 ra hra, hresa]
      simp
    have hqrb : (link p ra rb).1.root rb = (link p ra rb).2 := by
      rw [l7 rb hrb, hresb]
      simp
    have hres_lt : (link p ra rb).2 < p.size := by
      rcases l5 with h | h <;> rw [h] <;> assumption
    have hcoars : ∀ v w, v < p.size → w < p.size → p.root v = p.root w →
        (link p ra rb).1.root v = (link p ra rb).1.root w := coarsen_of_map l7
    have hroot_noab : ∀ v, v < p.size → p.root v ≠ ra → p.root v ≠ rb →
        (link p ra rb).1.root v = p.root v := by
      intro v hv h1 h2
      rw [l7 v hv, if_neg (by tauto)]
    have hroot_a : ∀ v, v < p.size → p.root v = ra →
        (link p ra rb).1.root v = (link p ra rb).2 := by
      intro v hv h1
      rw [l7 v hv, if_pos (Or.inl h1)]
    have hroot_b : ∀ v, v < p.size → p.root v = rb →
        (link p ra rb).1.root v = (link p ra rb).2 := by
      intro v hv h1
      rw [l7 v hv, if_pos (Or.inr h1)]
    by_cases h2 : (p.vars ra).isBound = true
    · rw [if_pos h2] at hstep
      by_cases h3 : (p.vars rb).isBound = true
      · rw [if_pos h3] at hstep
        by_cases h4 : (p.vars ra).bound.kind = (p.vars rb).bound.kind
        · rw [if_pos h4] at hstep
          by_cases h5 : (p.vars ra).bound.kind = typeName.one
          · -- both bound with kind ONE: plain union
            rw [if_pos h5] at hstep
            injection hstep with hq hsl
            subst hq
            subst hsl
            refine ⟨⟨l1, l2, l3, hbwfpl⟩, l4, stackWF_of_size l4 hrest, by omega, hcoars,
              by rw [hqra, hqrb], fun fr h => h, ?_, ?_, hclpl⟩
            · intro v k hv hck
              unfold classKind at hck ⊢
              by_cases hbv : (p.vars (p.root v)).isBound = true
              · rw [if_pos hbv] at hck
                by_cases hva2 : p.root v = ra
                · rw [hroot_a v hv hva2, if_pos (by rw [(l9 _).1]; rcases l5 with h | h <;>
                    rw [h] <;> assumption)]
                  rw [(l9 _).2]
                  rcases l5 with h | h <;> rw [h]
                  · rw [← hva2]
                    exact hck
                  · rw [← h4, ← hva2]
                    exact hck
                · by_cases hvb2 : p.root v = rb
                  · rw [hroot_b v hv hvb2, if_pos (by rw [(l9 _).1]; rcases l5 with h | h <;>
                      rw [h] <;> assumption)]
                    rw [(l9 _).2]
                    rcases l5 with h | h <;> rw [h]
                    · rw [h4, ← hvb2]
                      exact hck
                    · rw [← hvb2]
                      exact hck
                  · rw [hroot_noab v hv hva2 hvb2, if_pos (by rw [(l9 _).1]; exact hbv)]
                    rw [(l9 _).2]
                    exact hck
              · rw [if_neg hbv] at hck
                cases hck
            · intro r hrlt hrep hbnd hknd
              by_cases hrva : r = ra
              · rw [hrva] at hknd
                exact absurd h5 hknd
              · by_cases hrvb : r = rb
                · rw [hrvb, ← h4] at hknd
                  exact absurd h5 hknd
                · have hrr : p.root r = r := root_of_isRep hrep
                  have hq : (link p ra rb).1.root r = r := by
                    rw [hroot_noab r hrlt (by rw [hrr]; exact hrva) (by rw [hrr]; exact hrvb)]
                    exact hrr
                  rw [hq, (l9 r).2]
                  exact ⟨by rw [(l9 r).1]; exact hbnd, rfl, Or.inl rfl, Or.inl rfl⟩
          · -- both bound, same non-trivial kind: union and push both argument pairs
            rw [if_neg h5] at hstep
            injection hstep with hq hsl
            subst hq
            subst hsl
            have hargs_a := hbwf ra hra hrepa h2 h5
            have hargs_b := hbwf rb hrb hrepb h3 (by rw [← h4]; exact h5)
            refine ⟨⟨l1, l2, l3, hbwfpl⟩, l4, ?_, by simp only [List.length_cons]; omega,
              hcoars, by rw [hqra, hqrb], ?_, ?_, ?_, hclpl⟩
            · intro fr hfr
              rcases List.mem_cons.1 hfr with hfr | hfr
              · subst hfr
                rw [l4]
                exact ⟨hargs_a.1, hargs_b.1⟩
              · rcases List.mem_cons.1 hfr with hfr | hfr
                · subst hfr
                  rw [l4]
                  exact ⟨hargs_a.2, hargs_b.2⟩
                · exact stackWF_of_size l4 hrest fr hfr
            · intro fr h
              exact List.mem_cons_of_mem _ (List.mem_cons_of_mem _ h)
            · intro v k hv hck
              unfold classKind at hck ⊢
              by_cases hbv : (p.vars (p.root v)).isBound = true
              · rw [if_pos hbv] at hck
                by_cases hva2 : p.root v = ra
                · rw [hroot_a v hv hva2, if_pos (by rw [(l9 _).1]; rcases l5 with h | h <;>
                    rw [h] <;> assumption)]
                  rw [(l9 _).2]
                  rcases l5 with h | h <;> rw [h]
                  · rw [← hva2]
                    exact hck
                  · rw [← h4, ← hva2]
                    exact hck
                · by_cases hvb2 : p.root v = rb
                  · rw [hroot_b v hv hvb2, if_pos (by rw [(l9 _).1]; rcases l5 with h | h <;>
                      rw [h] <;> assumption)]
                    rw [(l9 _).2]
                    rcases l5 with h | h <;> rw [h]
                    · rw [h4, ← hvb2]
                      exact hck
                    · rw [← hvb2]
                      exact hck
                  · rw [hroot_noab v hv hva2 hvb2, if_pos (by rw [(l9 _).1]; exact hbv)]
                    rw [(l9 _).2]
                    exact hck
              · rw [if_neg hbv] at hck
                cases hck
            · intro r hrlt hrep hbnd hknd
              by_cases hrva : r = ra
              · subst hrva
                rw [hroot_a r hrlt (root_of_isRep hrep), (l9 _).2]
                rcases l5 with h | h <;> rw [h]
                · exact ⟨by rw [(l9 r).1]; exact h2, rfl, Or.inl rfl, Or.inl rfl⟩
                · refine ⟨by rw [(l9 rb).1]; exact h3, h4.symm, ?_, ?_⟩
                  · exact Or.inr (Or.inl (List.mem_cons_self _ _))
                  · exact Or.inr (Or.inl (List.mem_cons_of_mem _ (List.mem_cons_self _ _)))
              · by_cases hrvb : r = rb
                · subst hrvb
                  rw [hroot_b r hrlt (root_of_isRep hrep), (l9 _).2]
                  rcases l5 with h | h <;> rw [h]
                  · refine ⟨by rw [(l9 ra).1]; exact h2, h4, ?_, ?_⟩
                    · exact Or.inr (Or.inr (List.mem_cons_self _ _))
                    · exact Or.inr (Or.inr (List.mem_cons_of_mem _ (List.mem_cons_self _ _)))
                  · exact ⟨by rw [(l9 r).1]; exact h3, rfl, Or.inl rfl, Or.inl rfl⟩
                · have hrr : p.root r = r := root_of_isRep hrep
                  have hq : (link p ra rb).1.root r = r := by
                    rw [hroot_noab r hrlt (by rw [hrr]; exact hrva) (by rw [hrr]; exact hrvb)]
                    exact hrr
                  rw [hq, (l9 r).2]
                  exact ⟨by rw [(l9 r).1]; exact hbnd, rfl, Or.inl rfl, Or.inl rfl⟩
        · -- both bound with different kinds: clash, not an ok step
          rw [if_neg h4] at hstep
          cases hstep
      · -- ra bound, rb free: union, binding moves to the survivor if needed
        rw [if_neg h3] at hstep
        by_cases h6 : (link p ra rb).2 = ra
        · rw [if_pos h6] at hstep
          injection hstep with hq hsl
          subst hq
          subst hsl
          refine ⟨⟨l1, l2, l3, hbwfpl⟩, l4, stackWF_of_size l4 hrest, by omega, hcoars,
            by rw [hqra, hqrb], fun fr h => h, ?_, ?_, hclpl⟩
          · intro v k hv hck
            unfold classKind at hck ⊢
            by_cases hbv : (p.vars (p.root v)).isBound = true
            · rw [if_pos hbv] at hck
              by_cases hva2 : p.root v = ra
              · rw [hroot_a v hv hva2, h6, if_pos (by rw [(l9 _).1, ← hva2]; exact hbv)]
                rw [(l9 _).2, ← hva2]
                exact hck
              · by_cases hvb2 : p.root v = rb
                · rw [hvb2] at hbv
                  rw [hbv] at h3
                  cases h3 rfl
                · rw [hroot_noab v hv hva2 hvb2, if_pos (by rw [(l9 _).1]; exact hbv)]
                  rw [(l9 _).2]
                  exact hck
            · rw [if_neg hbv] at hck
              cases hck
          · intro r hrlt hrep hbnd hknd
            by_cases hrva : r = ra
            · subst hrva
              rw [hroot_a r hrlt (root_of_isRep hrep), h6, (l9 _).2]
              exact ⟨by rw [(l9 _).1]; exact h2, rfl, Or.inl rfl, Or.inl rfl⟩
            · by_cases hrvb : r = rb
              · subst hrvb
                rw [hbnd] at h3
                cases h3 rfl
              · have hrr : p.root r = r := root_of_isRep hrep
                have hq : (link p ra rb).1.root r = r := by
                  rw [hroot_noab r hrlt (by rw [hrr]; exact hrva) (by rw [hrr]; exact hrvb)]
                  exact hrr
                rw [hq, (l9 r).2]
                exact ⟨by rw [(l9 r).1]; exact hbnd, rfl, Or.inl rfl, Or.inl rfl⟩
        · rw [if_neg h6] at hstep
          injection hstep with hq hsl
          subst hq
          subst hsl
          have hres_b : (link p ra rb).2 = rb := by
            rcases l5 with h | h
            · exact absurd h h6
            · exact h
          obtain ⟨c1, c2, c3, c4, c5, c6, c7, c8⟩ :=
            copyBind_spec (link p ra rb).1 (link p ra rb).2 ((p.vars ra).bound)
          have hqsz : (copyBind (link p ra rb).1 (link p ra rb).2 ((p.vars ra).bound)).size
              = p.size := by rw [c1, l4]
          obtain ⟨d1, d2, d3, d4⟩ := copyBind_inv l1 l2 l3
          have hqroots : ∀ w, w < p.size →
              (copyBind (link p ra rb).1 (link p ra rb).2 ((p.vars ra).bound)).root w
                = (link p ra rb).1.root w := fun w _ => c3 w
          have hqbwf : bindingWF
              (copyBind (link p ra rb).1 (link p ra rb).2 ((p.vars ra).bound)) := by
            intro v hv hvrep hvb hvk
            by_cases hvres : v = (link p ra rb).2
            · subst hvres
              rw [c7] at hvk ⊢
              have hargs := hbwf ra hra hrepa h2 hvk
              rw [hqsz]
              exact hargs
            · rw [c8 v hvres] at hvb hvk ⊢
              have hv2 : v < (link p ra rb).1.size := by rw [l4, ← hqsz]; exact hv
              have hvrep2 : isRep (link p ra rb).1 v := by
                unfold isRep at hvrep ⊢
                rw [← c8 v hvres]
                exact hvrep
              have := hbwfpl v hv2 hvrep2 hvb hvk
              rw [hqsz]
              rw [l4] at this
              exact this
          refine ⟨⟨d1, d2, d3, hqbwf⟩, hqsz, stackWF_of_size hqsz hrest, ?_, ?_, ?_,
            fun fr h => h, ?_, ?_, ?_⟩
          · rw [d4]
            omega
          · intro v w hv hw heq
            rw [c3, c3]
            exact hcoars v w hv hw heq
          · rw [c3, c3, hqra, hqrb]
          · intro v k hv hck
            unfold classKind at hck ⊢
            by_cases hbv : (p.vars (p.root v)).isBound = true
            · rw [if_pos hbv] at hck
              by_cases hva2 : p.root v = ra
              · rw [c3, hroot_a v hv hva2, if_pos (by rw [c6])]
                rw [c7, ← hva2]
                exact hck
              · by_cases hvb2 : p.root v = rb
                · rw [hvb2] at hbv
                  rw [hbv] at h3
                  cases h3 rfl
                · have hvres : p.root v ≠ (link p ra rb).2 := by
                    rw [hres_b]
                    exact hvb2
                  rw [c3, hroot_noab v hv hva2 hvb2, if_pos (by
                    rw [c8 _ hvres, (l9 _).1]; exact hbv)]
                  rw [c8 _ hvres, (l9 _).2]
                  exact hck
            · rw [if_neg hbv] at hck
              cases hck
          · intro r hrlt hrep hbnd hknd
            by_cases hrva : r = ra
            · subst hrva
              rw [c3, hroot_a r hrlt (root_of_isRep hrep), c7]
              exact ⟨by rw [c6], rfl, Or.inl rfl, Or.inl rfl⟩
            · by_cases hrvb : r = rb
              · subst hrvb
                rw [hbnd] at h3
                cases h3 rfl
              · have hrr : p.root r = r := root_of_isRep hrep
                have hqr : (link p ra rb).1.root r = r := by
                  rw [hroot_noab r hrlt (by rw [hrr]; exact hrva) (by rw [hrr]; exact hrvb)]
                  exact hrr
                have hrres : r ≠ (link p ra rb).2 := by
                  rw [hres_b]
                  exact hrvb
                rw [c3, hqr, c8 r hrres, (l9 r).2]
                exact ⟨by rw [(l9 r).1]; exact hbnd, rfl, Or.inl rfl, Or.inl rfl⟩
          · intro hc v
            by_cases hvres : v = (link p ra rb).2
            · subst hvres
              rw [c7]
              exact hc ra
            · rw [c8 v hvres, (l9 v).2]
              exact hc v
    · -- ra free
      rw [if_neg h2] at hstep
      by_cases h3 : (p.vars rb).isBound = true
      · rw [if_pos h3] at hstep
        by_cases h6 : (link p ra rb).2 = rb
        · rw [if_pos h6] at hstep
          injection hstep with hq hsl
          subst hq
          subst hsl
          refine ⟨⟨l1, l2, l3, hbwfpl⟩, l4, stackWF_of_size l4 hrest, by omega, hcoars,
            by rw [hqra, hqrb], fun fr h => h, ?_, ?_, hclpl⟩
          · intro v k hv hck
            unfold classKind at hck ⊢
            by_cases hbv : (p.vars (p.root v)).isBound = true
            · rw [if_pos hbv] at hck
              by_cases hva2 : p.root v = ra
              · rw [hva2] at hbv
                rw [hbv] at h2
                cases h2 rfl
              · by_cases hvb2 : p.root v = rb
                · rw [hroot_b v hv hvb2, h6, if_pos (by rw [(l9 _).1, ← hvb2]; exact hbv)]
                  rw [(l9 _).2, ← hvb2]
                  exact hck
                · rw [hroot_noab v hv hva2 hvb2, if_pos (by rw [(l9 _).1]; exact hbv)]
                  rw [(l9 _).2]
                  exact hck
            · rw [if_neg hbv] at hck
              cases hck
          · intro r hrlt hrep hbnd hknd
            by_cases hrva : r = ra
            · subst hrva
              rw [hbnd] at h2
              cases h2 rfl
            · by_cases hrvb : r = rb
              · subst hrvb
                rw [hroot_b r hrlt (root_of_isRep hrep), h6, (l9 _).2]
                exact ⟨by rw [(l9 _).1]; exact h3, rfl, Or.inl rfl, Or.inl rfl⟩
              · have hrr : p.root r = r := root_of_isRep hrep
                have hq : (link p ra rb).1.root r = r := by
                  rw [hroot_noab r hrlt (by rw [hrr]; exact hrva) (by rw [hrr]; exact hrvb)]
                  exact hrr
                rw [hq, (l9 r).2]
                exact ⟨by rw [(l9 r).1]; exact hbnd, rfl, Or.inl rfl, Or.inl rfl⟩
        · rw [if_neg h6] at hstep
          injection hstep with hq hsl
          subst hq
          subst hsl
          have hres_a : (link p ra rb).2 = ra := by
            rcases l5 with h | h
            · exact h
            · exact absurd h h6
          obtain ⟨c1, c2, c3, c4, c5, c6, c7, c8⟩ :=
            copyBind_spec (link p ra rb).1 (link p ra rb).2 ((p.vars rb).bound)
          have hqsz : (copyBind (link p ra rb).1 (link p ra rb).2 ((p.vars rb).bound)).size
              = p.size := by rw [c1, l4]
          obtain ⟨d1, d2, d3, d4⟩ := copyBind_inv l1 l2 l3
          have hqbwf : bindingWF
              (copyBind (link p ra rb).1 (link p ra rb).2 ((p.vars rb).bound)) := by
            intro v hv hvrep hvb hvk
            by_cases hvres : v = (link p ra rb).2
            · subst hvres
              rw [c7] at hvk ⊢
              have hargs := hbwf rb hrb hrepb h3 hvk
              rw [hqsz]
              exact hargs
            · rw [c8 v hvres] at hvb hvk ⊢
              have hv2 : v < (link p ra rb).1.size := by rw [l4, ← hqsz]; exact hv
              have hvrep2 : isRep (link p ra rb).1 v := by
                unfold isRep at hvrep ⊢
                rw [← c8 v hvres]
                exact hvrep
              have := hbwfpl v hv2 hvrep2 hvb hvk
              rw [hqsz]
              rw [l4] at this
              exact this
          refine ⟨⟨d1, d2, d3, hqbwf⟩, hqsz, stackWF_of_size hqsz hrest, ?_, ?_, ?_,
            fun fr h => h, ?_, ?_, ?_⟩
          · rw [d4]
            omega
          · intro v w hv hw heq
            rw [c3, c3]
            exact hcoars v w hv hw heq
          · rw [c3, c3, hqra, hqrb]
          · intro v k hv hck
            unfold classKind at hck ⊢
            by_cases hbv : (p.vars (p.root v)).isBound = true
            · rw [if_pos hbv] at hck
              by_cases hva2 : p.root v = ra
              · rw [hva2] at hbv
                rw [hbv] at h2
                cases h2 rfl
              · by_cases hvb2 : p.root v = rb
                · rw [c3, hroot_b v hv hvb2, if_pos (by rw [c6])]
                  rw [c7, ← hvb2]
                  exact hck
                · have hvres : p.root v ≠ (link p ra rb).2 := by
                    rw [hres_a]
                    exact hva2
                  rw [c3, hroot_noab v hv hva2 hvb2, if_pos (by
                    rw [c8 _ hvres, (l9 _).1]; exact hbv)]
                  rw [c8 _ hvres, (l9 _).2]
                  exact hck
            · rw [if_neg hbv] at hck
              cases hck
          · intro r hrlt hrep hbnd hknd
            by_cases hrva : r = ra
            · subst hrva
              rw [hbnd] at h2
              cases h2 rfl
            · by_cases hrvb : r = rb
              · subst hrvb
                rw [c3, hroot_b r hrlt (root_of_isRep hrep), c7]
                exact ⟨by rw [c6], rfl, Or.inl rfl, Or.inl rfl⟩
              · have hrr : p.root r = r := root_of_isRep hrep
                have hqr : (link p ra rb).1.root r = r := by
                  rw [hroot_noab r hrlt (by rw [hrr]; exact hrva) (by rw [hrr]; exact hrvb)]
                  exact hrr
                have hrres : r ≠ (link p ra rb).2 := by
                  rw [hres_a]
                  exact hrva
                rw [c3, hqr, c8 r hrres, (l9 r).2]
                exact ⟨by rw [(l9 r).1]; exact hbnd, rfl, Or.inl rfl, Or.inl rfl⟩
          · intro hc v
            by_cases hvres : v = (link p ra rb).2
            · subst hvres
              rw [c7]
              exact hc rb
            · rw [c8 v hvres, (l9 v).2]
              exact hc v
      · -- neither bound: plain union, merged class stays free
        rw [if_neg h3] at hstep
        injection hstep with hq hsl
        subst hq
        subst hsl
        refine ⟨⟨l1, l2, l3, hbwfpl⟩, l4, stackWF_of_size l4 hrest, by omega, hcoars,
          by rw [hqra, hqrb], fun fr h => h, ?_, ?_, hclpl⟩
        · intro v k hv hck
          unfold classKind at hck ⊢
          by_cases hbv : (p.vars (p.root v)).isBound = true
          · rw [if_pos hbv] at hck
            by_cases hva2 : p.root v = ra
            · rw [hva2] at hbv
              rw [hbv] at h2
              cases h2 rfl
            · by_cases hvb2 : p.root v = rb
              · rw [hvb2] at hbv
                rw [hbv] at h3
                cases h3 rfl
              · rw [hroot_noab v hv hva2 hvb2, if_pos (by rw [(l9 _).1]; exact hbv)]
                rw [(l9 _).2]
                exact hck
          · rw [if_neg hbv] at hck
            cases hck
        · intro r hrlt hrep hbnd hknd
          by_cases hrva : r = ra
          · subst hrva
            rw [hbnd] at h2
            cases h2 rfl
          · by_cases hrvb : r = rb
            · subst hrvb
              rw [hbnd] at h3
              cases h3 rfl
            · have hrr : p.root r = r := root_of_isRep hrep
              have hq : (link p ra rb).1.root r = r := by
                rw [hroot_noab r hrlt (by rw [hrr]; exact hrva) (by rw [hrr]; exact hrvb)]
                exact hrr
              rw [hq, (l9 r).2]
              exact ⟨by rw [(l9 r).1]; exact hbnd, rfl, Or.inl rfl, Or.inl rfl⟩

theorem unifyStep_done {p : Pool} {s : List (Nat × Nat)} {q : Pool}
    (h : unifyStep p s = .done q) : s = [] ∧ q = p := by
  cases s with
  | nil =>
    simp only [unifyStep] at h
    injection h with h1
    exact ⟨rfl, h1.symm⟩
  | cons fr rest =>
    obtain ⟨a, b⟩ := fr
    simp only [unifyStep, unifyPop] at h
    split_ifs at h <;> simp at h

theorem unifyStep_ok_spec {p : Pool} {s s2 : List (Nat × Nat)} {q : Pool}
    (hinv : uInv p) (hstk : stackWF p s) (hstep : unifyStep p s = .ok q s2) :
    uInv q ∧ q.size = p.size ∧ stackWF q s2 ∧
    uPhi q s2 < uPhi p s ∧
    (∀ v w, v < p.size → w < p.size → p.root v = p.root w → q.root v = q.root w) ∧
    (∃ a b rest, s = (a, b) :: rest ∧ q.root a = q.root b ∧
      (∀ fr, fr ∈ rest → fr ∈ s2)) ∧
    (∀ v k, v < p.size → classKind p v = some k → classKind q v = some k) ∧
    (∀ r, r < p.size → isRep p r → (p.vars r).isBound →
      (p.vars r).bound.kind ≠ typeName.one →
      (q.vars (q.root r)).isBound ∧
      (q.vars (q.root r)).bound.kind = (p.vars r).bound.kind ∧
      argRel q s2 ((p.vars r).bound.arg0) ((q.vars (q.root r)).bound.arg0) ∧
      argRel q s2 ((p.vars r).bound.arg1) ((q.vars (q.root r)).bound.arg1)) ∧
    (clean p → clean q) := by
  obtain ⟨hp, hr, hs, hbwf⟩ := hinv
  cases s with
  | nil => simp only [unifyStep] at hstep; cases hstep
  | cons fr rest =>
    obtain ⟨a, b⟩ := fr
    have ha : a < p.size := (hstk (a, b) (List.mem_cons_self _ _)).1
    have hb : b < p.size := (hstk (a, b) (List.mem_cons_self _ _)).2
    obtain ⟨F1, F2, F3, F4, F5, F6, F7, F8, F9, F10, F11⟩ := find2_spec hp hr hs ha hb
    simp only [unifyStep] at hstep
    rw [F1, F2] at hstep
    have hbwf2 : bindingWF ((p.find a).1.find b).1 := by
      apply bindingWF_transfer F6 ?_ (fun w => ⟨(F10 w).2.1, (F10 w).2.2⟩) hbwf
      intro w hw
      exact (F8 w).1 hw
    have hralt : p.root a < ((p.find a).1.find b).1.size := by
      rw [F6]
      exact (root_isRep hp hr ha).2.1
    have hrblt : p.root b < ((p.find a).1.find b).1.size := by
      rw [F6]
      exact (root_isRep hp hr hb).2.1
    have hrepa2 : isRep ((p.find a).1.find b).1 (p.root a) :=
      (F8 _).2 (root_isRep hp hr ha).1
    have hrepb2 : isRep ((p.find a).1.find b).1 (p.root b) :=
      (F8 _).2 (root_isRep hp hr hb).1
    have hrest2 : stackWF ((p.find a).1.find b).1 rest :=
      stackWF_of_size F6 (fun fr hfr => hstk fr (List.mem_cons_of_mem _ hfr))
    have hralt2 : p.root a < p.size := (root_isRep hp hr ha).2.1
    have hrblt2 : p.root b < p.size := (root_isRep hp hr hb).2.1
    obtain ⟨A1, A2, A3, A4, A5, A6, A7, A8, A9, A10⟩ :=
      unifyPop_ok_spec ⟨F3, F4, F5, hbwf2⟩
        (by rw [← F6] at hralt2; exact hralt2) (by rw [← F6] at hrblt2; exact hrblt2)
        hrepa2 hrepb2 hrest2 hstep
    have hsz : q.size = p.size := by rw [A2, F6]
    have hcoars : ∀ v w, v < p.size → w < p.size → p.root v = p.root w →
        q.root v = q.root w := by
      intro v w hv hw heq
      have hv2 : v < ((p.find a).1.find b).1.size := by rw [F6]; exact hv
      have hw2 : w < ((p.find a).1.find b).1.size := by rw [F6]; exact hw
      apply A5 v w hv2 hw2
      rw [F7 v hv, F7 w hw]
      exact heq
    have hckeq : ∀ v, v < p.size → classKind ((p.find a).1.find b).1 v = classKind p v := by
      intro v hv
      unfold classKind
      rw [F7 v hv, (F10 (p.root v)).2.1, (F10 (p.root v)).2.2]
    refine ⟨A1, hsz, A3, ?_, hcoars, ?_, ?_, ?_, ?_⟩
    · have hphi : uPhi p ((a, b) :: rest) = rest.length + 1 + 3 * repCount p := by
        unfold uPhi
        rw [List.length_cons]
      rw [hphi]
      unfold uPhi
      rw [F11] at A4
      omega
    · refine ⟨a, b, rest, rfl, ?_, A7⟩
      have hqa : q.root a = q.root (p.root a) := by
        have hv2 : a < ((p.find a).1.find b).1.size := by rw [F6]; exact ha
        apply A5 a (p.root a) hv2 (by rw [F6]; exact hralt2)
        rw [F7 a ha, F7 (p.root a) hralt2]
        exact (root_of_isRep (root_isRep hp hr ha).1).symm
      have hqb : q.root b = q.root (p.root b) := by
        have hv2 : b < ((p.find a).1.find b).1.size := by rw [F6]; exact hb
        apply A5 b (p.root b) hv2 (by rw [F6]; exact hrblt2)
        rw [F7 b hb, F7 (p.root b) hrblt2]
        exact (root_of_isRep (root_isRep hp hr hb).1).symm
      rw [hqa, hqb]
      exact A6
    · intro v k hv hck
      have hv2 : v < ((p.find a).1.find b).1.size := by rw [F6]; exact hv
      apply A8 v k hv2
      rw [hckeq v hv]
      exact hck
    · intro r hrlt hrep hbnd hknd
      have hr2 : r < ((p.find a).1.find b).1.size := by rw [F6]; exact hrlt
      have hrep2 : isRep ((p.find a).1.find b).1 r := (F8 r).2 hrep
      have hbnd2 : (((p.find a).1.find b).1.vars r).isBound = true := by
        rw [(F10 r).2.1]
        exact hbnd
      have hknd2 : (((p.find a).1.find b).1.vars r).bound.kind ≠ typeName.one := by
        rw [(F10 r).2.2]
        exact hknd
      obtain ⟨B1, B2, B3, B4⟩ := A9 r hr2 hrep2 hbnd2 hknd2
      rw [(F10 r).2.2] at B2 B3 B4
      exact ⟨B1, B2, B3, B4⟩
    · intro hc
      apply A10
      intro v
      rw [(F10 v).2.2]
      exact hc v

theorem unifyLoop_sound : ∀ fuel (p : Pool) (s : List (Nat × Nat)) (pf : Pool),
    uInv p → stackWF p s → unifyLoop fuel p s = some (some pf) →
    uInv pf ∧ pf.size = p.size ∧ (clean p → clean pf) ∧
    (∀ v w, v < p.size → w < p.size → p.root v = p.root w → pf.root v = pf.root w) ∧
    (∀ fr, fr ∈ s → pf.root fr.1 = pf.root fr.2) ∧
    (∀ v k, v < p.size → classKind p v = some k → classKind pf v = some k) ∧
    (∀ r, r < p.size → isRep p r → (p.vars r).isBound →
      (p.vars r).bound.kind ≠ typeName.one →
      (pf.vars (pf.root r)).isBound ∧
      (pf.vars (pf.root r)).bound.kind = (p.vars r).bound.kind ∧
      pf.root ((pf.vars (pf.root r)).bound.arg0) = pf.root ((p.vars r).bound.arg0) ∧
      pf.root ((pf.vars (pf.root r)).bound.arg1) = pf.root ((p.vars r).bound.arg1)) := by
  intro fuel
  induction fuel with
  | zero => intro p s pf _ _ h; cases h
  | succ f ih =>
    intro p s pf hinv hstk hloop
    cases hstep : unifyStep p s with
    | done q =>
      simp only [unifyLoop, hstep] at hloop
      obtain ⟨hsnil, hqp⟩ := unifyStep_done hstep
      injection hloop with hloop2
      injection hloop2 with hloop3
      subst hqp
      subst hloop3
      subst hsnil
      refine ⟨hinv, rfl, fun h => h, fun v w _ _ h => h, ?_, fun v k _ h => h, ?_⟩
      · intro fr hfr
        cases hfr
      · intro r hrlt hrep hbnd hknd
        rw [root_of_isRep hrep]
        exact ⟨hbnd, rfl, rfl, rfl⟩
    | clash =>
      simp only [unifyLoop, hstep] at hloop
      simp at hloop
    | ok q s2 =>
      simp only [unifyLoop, hstep] at hloop
      obtain ⟨A1, A2, A3, A4, A5, A6, A7, A8, A9⟩ := unifyStep_ok_spec hinv hstk hstep
      obtain ⟨I1, I2, I3, I4, I5, I6, I7⟩ := ih q s2 pf A1 A3 hloop
      have hszf : pf.size = p.size := by rw [I2, A2]
      have hcoars : ∀ v w, v < p.size → w < p.size → p.root v = p.root w →
          pf.root v = pf.root w := by
        intro v w hv hw heq
        exact I4 v w (by rw [A2]; exact hv) (by rw [A2]; exact hw) (A5 v w hv hw heq)
      refine ⟨I1, hszf, fun hc => I3 (A9 hc), hcoars, ?_, ?_, ?_⟩
      · intro fr hfr
        obtain ⟨a, b, rest, hseq, hab, hsub⟩ := A6
        rw [hseq] at hfr
        rcases List.mem_cons.1 hfr with hfr | hfr
        · subst hfr
          have ha : a < p.size := (hstk (a, b) (by rw [hseq]; exact List.mem_cons_self _ _)).1
          have hb : b < p.size := (hstk (a, b) (by rw [hseq]; exact List.mem_cons_self _ _)).2
          exact I4 a b (by rw [A2]; exact ha) (by rw [A2]; exact hb) hab
        · exact I5 fr (hsub fr hfr)
      · intro v k hv hck
        exact I6 v k (by rw [A2]; exact hv) (A7 v k hv hck)
      · intro r hrlt hrep hbnd hknd
        obtain ⟨B1, B2, B3, B4⟩ := A8 r hrlt hrep hbnd hknd
        obtain ⟨qp, qr, qs, qb⟩ := A1
        have hrq : r < q.size := by rw [A2]; exact hrlt
        have hrootr := root_isRep qp qr hrq
        have hknd2 : (q.vars (q.root r)).bound.kind ≠ typeName.one := by
          rw [B2]
          exact hknd
        obtain ⟨C1, C2, C3, C4⟩ := I7 (q.root r) hrootr.2.1 hrootr.1 B1 hknd2
        have hprr : pf.root r = pf.root (q.root r) := by
          apply I4 r (q.root r) hrq hrootr.2.1
          exact (root_of_isRep hrootr.1).symm
        have hargsq := qb (q.root r) hrootr.2.1 hrootr.1 B1 hknd2
        obtain ⟨hp0, hr0, hs0, hb0⟩ := hinv
        have hargsp := hb0 r hrlt hrep hbnd hknd
        have harg0 : pf.root ((q.vars (q.root r)).bound.arg0)
            = pf.root ((p.vars r).bound.arg0) := by
          rcases B3 with h | h | h
          · exact I4 _ _ hargsq.1 (by rw [A2]; exact hargsp.1) h
          · exact (I5 _ h).symm
          · exact I5 _ h
        have harg1 : pf.root ((q.vars (q.root r)).bound.arg1)
            = pf.root ((p.vars r).bound.arg1) := by
          rcases B4 with h | h | h
          · exact I4 _ _ hargsq.2 (by rw [A2]; exact hargsp.2) h
          · exact (I5 _ h).symm
          · exact I5 _ h
        refine ⟨?_, ?_, ?_, ?_⟩
        · rw [hprr]
          exact C1
        · rw [hprr, C2, B2]
        · rw [hprr]
          exact C3.trans harg0
        · rw [hprr]
          exact C4.trans harg1

theorem unifyLoop_total : ∀ fuel (p : Pool) (s : List (Nat × Nat)),
    uInv p → stackWF p s → uPhi p s < fuel → unifyLoop fuel p s ≠ none := by
  intro fuel
  induction fuel with
  | zero => intro p s _ _ h; omega
  | succ f ih =>
    intro p s hinv hstk hphi
    cases hstep : unifyStep p s with
    | done q => simp [unifyLoop, hstep]
    | clash => simp [unifyLoop, hstep]
    | ok q s2 =>
      simp only [unifyLoop, hstep]
      obtain ⟨A1, _, A3, A4, _⟩ := unifyStep_ok_spec hinv hstk hstep
      exact ih q s2 A1 A3 (by omega)

theorem unifyIter_inv : ∀ k (p : Pool) (s : List (Nat × Nat)) p2 s2,
    uInv p → stackWF p s → unifyIter k p s = some (p2, s2) →
    uInv p2 ∧ stackWF p2 s2 ∧ p2.size = p.size ∧ uPhi p2 s2 + k ≤ uPhi p s := by
  intro k
  induction k with
  | zero =>
    intro p s p2 s2 hinv hstk hit
    injection hit with hit2
    have h1 : p2 = p := congrArg Prod.fst hit2.symm
    have h2 : s2 = s := congrArg Prod.snd hit2.symm
    subst h1
    subst h2
    exact ⟨hinv, hstk, rfl, by omega⟩
  | succ k ih =>
    intro p s p2 s2 hinv hstk hit
    cases hstep : unifyStep p s with
    | done q => rw [unifyIter, hstep] at hit; cases hit
    | clash => rw [unifyIter, hstep] at hit; cases hit
    | ok q sq =>
      rw [unifyIter, hstep] at hit
      obtain ⟨A1, A2, A3, A4, _⟩ := unifyStep_ok_spec hinv hstk hstep
      obtain ⟨I1, I2, I3, I4⟩ := ih q sq p2 s2 A1 A3 hit
      exact ⟨I1, I2, by rw [I3, A2], by omega⟩

theorem unifyIter_clash : ∀ k (p : Pool) (s : List (Nat × Nat)) p2 s2,
    unifyIter k p s = some (p2, s2) → unifyStep p2 s2 = .clash →
    ∀ fuel, k < fuel → unifyLoop fuel p s = some none := by
  intro k
  induction k with
  | zero =>
    intro p s p2 s2 hit hclash fuel hfuel
    injection hit with hit2
    have h1 : p2 = p := congrArg Prod.fst hit2.symm
    have h2 : s2 = s := congrArg Prod.snd hit2.symm
    subst h1
    subst h2
    cases fuel with
    | zero => omega
    | succ f => rw [unifyLoop, hclash]
  | succ k ih =>
    intro p s p2 s2 hit hclash fuel hfuel
    cases hstep : unifyStep p s with
    | done q => rw [unifyIter, hstep] at hit; cases hit
    | clash => rw [unifyIter, hstep] at hit; cases hit
    | ok q sq =>
      rw [unifyIter, hstep] at hit
      cases fuel with
      | zero => omega
      | succ f =>
        rw [unifyLoop, hstep]
        exact ih q sq p2 s2 hit hclash f (by omega)

theorem mkBoundVar_fields (k : typeName) (a0 a1 : Nat) :
    (mkBoundVar k a0 a1).isBound = true ∧ (mkBoundVar k a0 a1).bound.kind = k ∧
    (mkBoundVar k a0 a1).bound.arg0 = a0 ∧ (mkBoundVar k a0 a1).bound.arg1 = a1 :=
  ⟨rfl, rfl, rfl, rfl⟩

theorem boundExtra_clean (dag : List dag_node) (i : Nat) :
    (boundExtra dag i).parent = none ∧ (boundExtra dag i).rank = 0 ∧
    (boundExtra dag i).bound.frozen_ix = none ∧
    (boundExtra dag i).bound.occursCheck = false := by
  unfold boundExtra
  cases (nodeAt dag i).tag <;> exact ⟨rfl, rfl, rfl, rfl⟩

theorem initVar_clean (dag : List dag_node) (v : Nat) :
    (initVar dag v).parent = none ∧ (initVar dag v).rank = 0 ∧
    (initVar dag v).bound.frozen_ix = none ∧ (initVar dag v).bound.occursCheck = false := by
  unfold initVar
  split_ifs
  · exact ⟨rfl, rfl, rfl, rfl⟩
  · exact ⟨rfl, rfl, rfl, rfl⟩
  · exact ⟨rfl, rfl, rfl, rfl⟩
  · exact boundExtra_clean dag _

theorem initPool_base {dag : List dag_node} :
    parentWF (initPool dag) ∧ rankWF (initPool dag) ∧ sizeInv (initPool dag) ∧
    clean (initPool dag) ∧ (initPool dag).size = poolSize dag.length := by
  have hvars : ∀ v, (initPool dag).vars v = initVar dag v := fun _ => rfl
  have hroot : ∀ v, (initPool dag).root v = v := by
    intro v
    exact root_of_isRep ((initVar_clean dag v).1)
  refine ⟨?_, ?_, ?_, ?_, rfl⟩
  · intro v hv u hpar
    rw [hvars, (initVar_clean dag v).1] at hpar
    cases hpar
  · intro v hv
    rw [hvars, (initVar_clean dag v).2.1]
    have hsz : (initPool dag).size = poolSize dag.length := rfl
    rw [hsz]
    unfold poolSize
    omega
  · intro r hrlt hrep
    rw [hvars, (initVar_clean dag r).2.1, pow_zero]
    apply Finset.card_pos.2
    exact ⟨r, self_mem_classOf hrlt hrep⟩
  · intro v
    rw [hvars]
    exact ⟨(initVar_clean dag v).2.2.1, (initVar_clean dag v).2.2.2⟩

theorem initPool_bindingWF {dag : List dag_node} (hdag : dagWF dag) :
    bindingWF (initPool dag) := by
  intro v hv hrep hbnd hknd
  have hvv : (initPool dag).vars v = initVar dag v := rfl
  have hsz : (initPool dag).size = poolSize dag.length := rfl
  rw [hsz] at hv ⊢
  rw [hvv] at hbnd hknd ⊢
  unfold poolSize at hv ⊢
  unfold initVar at hbnd hknd ⊢
  by_cases h1 : v < 2 * dag.length
  · rw [if_pos h1] at hbnd
    simp [zeroVar] at hbnd
  · rw [if_neg h1] at hbnd hknd ⊢
    by_cases h2 : v = 2 * dag.length
    · rw [if_pos h2] at hknd
      simp [mkBoundVar] at hknd
    · rw [if_neg h2] at hbnd hknd ⊢
      have hlen1 : 2 * dag.length + 1 ≤ v := by omega
      have hile : extraIx dag.length v < dag.length := by
        unfold extraIx
        omega
      by_cases h3 : (v - (2 * dag.length + 1)) % 2 = 0
      · rw [if_pos h3] at hbnd
        simp [zeroVar] at hbnd
      · rw [if_neg h3] at hbnd hknd ⊢
        obtain ⟨hc0, hc1⟩ := hdag.2 (extraIx dag.length v) hile
        unfold boundExtra at hbnd hknd ⊢
        cases htag : (nodeAt dag (extraIx dag.length v)).tag <;>
          rw [htag] at hbnd hknd
        · simp [zeroVar] at hbnd
        · simp [zeroVar] at hbnd
        · have hch := hc0 (by rw [htag]; decide)
          simp only [mkBoundVar, tgtVar, extraVar0]
          omega
        · have hch := hc0 (by rw [htag]; decide)
          simp only [mkBoundVar, tgtVar, extraVar0]
          omega
        · have hch := hc0 (by rw [htag]; decide)
          simp only [mkBoundVar, srcVar, extraVar0]
          omega
        · have hch := hc0 (by rw [htag]; decide)
          simp only [mkBoundVar, srcVar, extraVar0]
          omega
        · simp [zeroVar] at hbnd
        · have hch0 := hc0 (by rw [htag]; decide)
          have hch1 := hc1 (by rw [htag]; decide)
          simp only [mkBoundVar, tgtVar]
          omega

theorem initPool_uInv {dag : List dag_node} (hdag : dagWF dag) : uInv (initPool dag) := by
  obtain ⟨h1, h2, h3, _, _⟩ := @initPool_base dag
  exact ⟨h1, h2, h3, initPool_bindingWF hdag⟩

theorem nodeConstraints_wf {dag : List dag_node} (hdag : dagWF dag) {i : Nat}
    (hi : i < dag.length) {fr : Nat × Nat}
    (hfr : fr ∈ nodeConstraints dag.length i (nodeAt dag i)) :
    fr.1 < poolSize dag.length ∧ fr.2 < poolSize dag.length := by
  obtain ⟨hc0, hc1⟩ := hdag.2 i hi
  unfold nodeConstraints at hfr
  cases htag : (nodeAt dag i).tag <;> rw [htag] at hfr hc0 hc1 <;>
    simp only [List.mem_cons, List.not_mem_nil, or_false] at hfr
  · rcases hfr with rfl
    simp only [poolSize, srcVar, tgtVar]
    omega
  · rcases hfr with rfl
    simp only [poolSize, tgtVar, oneVar]
    omega
  · have hch := hc0 (by decide)
    rcases hfr with rfl | rfl <;> simp only [poolSize, srcVar, tgtVar, extraVar1] <;> omega
  · have hch := hc0 (by decide)
    rcases hfr with rfl | rfl <;> simp only [poolSize, srcVar, tgtVar, extraVar1] <;> omega
  · have hch := hc0 (by decide)
    rcases hfr with rfl | rfl <;> simp only [poolSize, srcVar, tgtVar, extraVar1] <;> omega
  · have hch := hc0 (by decide)
    rcases hfr with rfl | rfl <;> simp only [poolSize, srcVar, tgtVar, extraVar1] <;> omega
  · have hch0 := hc0 (by decide)
    have hch1 := hc1 (by decide)
    rcases hfr with rfl | rfl | rfl <;> simp only [poolSize, srcVar, tgtVar] <;> omega
  · have hch0 := hc0 (by decide)
    have hch1 := hc1 (by decide)
    rcases hfr with rfl | rfl | rfl <;>
      simp only [poolSize, srcVar, tgtVar, extraVar1] <;> omega

theorem emitStack_wf {dag : List dag_node} (hdag : dagWF dag) (ip : Bool) :
    stackWF (initPool dag) (emitStack ip dag) := by
  intro fr hfr
  have hsz : (initPool dag).size = poolSize dag.length := rfl
  rw [hsz]
  unfold emitStack at hfr
  rcases List.mem_append.1 hfr with hfr | hfr
  · rw [List.mem_flatMap] at hfr
    obtain ⟨i, hi, hfr2⟩ := hfr
    rw [List.mem_range] at hi
    exact nodeConstraints_wf hdag hi hfr2
  · have hlen : 0 < dag.length := List.length_pos.2 hdag.1
    by_cases hip : ip = true
    · rw [if_pos hip] at hfr
      simp only [List.mem_cons, List.not_mem_nil, or_false] at hfr
      rcases hfr with rfl | rfl <;> simp only [poolSize, srcVar, tgtVar, oneVar] <;> omega
    · rw [if_neg hip] at hfr
      cases hfr

theorem iterState_eq {isProgram : Bool} {dag : List dag_node} {k : Nat}
    {pr : Pool × List (Nat × Nat)}
    (hpr : unifyIter k (initPool dag) (emitStack isProgram dag) = some pr) :
    iterState k isProgram dag = pr := by
  unfold iterState
  rw [hpr]
  rfl

/-- C10: every unification worklist value the engine manipulates is a
well-formed stack: either empty (the NULL end of the chain of
unification_cont frames) or a frame whose alpha and beta fields name
existing unification variables, with the rest itself a stack; since
this holds of the state after any number k of unifier steps, every push
and every pop performed during unification preserves the shape. -/
theorem c10_stack_well_formed {isProgram : Bool} {dag : List dag_node} (hdag : dagWF dag)
    (k : Nat) (hk : (unifyIter k (initPool dag) (emitStack isProgram dag)).isSome = true) :
    stackWF (iterState k isProgram dag).1 (iterState k isProgram dag).2 := by
  obtain ⟨pr, hpr⟩ := Option.isSome_iff_exists.1 hk
  have h1 := unifyIter_inv k (initPool dag) (emitStack isProgram dag) pr.1 pr.2
    (initPool_uInv hdag) (emitStack_wf hdag isProgram) (by rw [hpr])
  rw [iterState_eq hpr]
  exact h1.2.1

/-- Witness for C10 at a concrete reachable state of the unifier on the
shared pair-of-identities DAG. -/
theorem c10_stack_well_formed_witness :
    dagWF dagPairIden ∧
      stackWF (iterState 2 false dagPairIden).1 (iterState 2 false dagPairIden).2 :=
  ⟨by decide, c10_stack_well_formed (by decide) 2 (by decide)⟩

/-- C5: whenever the unifier, at a reachable state, pops a pair whose
two representatives both carry bindings and the kinds of those bindings
differ, that step detects a clash and mallocTypeInference returns true
with *type_dag set to NULL (assuming the pool allocation itself
succeeded). -/
theorem c5_clash_rejected {isProgram : Bool} {dag : List dag_node}
    (hdag : dagWF dag) (census : combinator_counters) (alloc : List Bool)
    (halloc : alloc.getD 0 true = true) (k : Nat)
    (hk : (unifyIter k (initPool dag) (emitStack isProgram dag)).isSome = true)
    (hcl : popsClash (iterState k isProgram dag).1 (iterState k isProgram dag).2 = true) :
    (mallocTypeInference alloc isProgram dag census).ok = true ∧
    (mallocTypeInference alloc isProgram dag census).type_dag = none := by
  obtain ⟨pr, hpr⟩ := Option.isSome_iff_exists.1 hk
  rw [iterState_eq hpr] at hcl
  cases hs2 : pr.2 with
  | nil =>
    rw [hs2] at hcl
    simp [popsClash] at hcl
  | cons fr rest =>
    obtain ⟨a, b⟩ := fr
    rw [hs2] at hcl
    simp only [popsClash, Bool.and_eq_true, decide_eq_true_eq] at hcl
    obtain ⟨⟨hba, hbb⟩, hknd⟩ := hcl
    have hrane : ¬ (pr.1.find a).2 = ((pr.1.find a).1.find b).2 := by
      intro he
      exact hknd (by rw [he])
    have hstep : unifyStep pr.1 ((a, b) :: rest) = .clash := by
      simp only [unifyStep, unifyPop]
      rw [if_neg hrane, if_pos hba, if_pos hbb, if_neg hknd]
    have hiter : unifyIter k (initPool dag) (emitStack isProgram dag)
        = some (pr.1, (a, b) :: rest) := by
      rw [hpr, ← hs2]
    have hphi := unifyIter_inv k (initPool dag) (emitStack isProgram dag) pr.1 pr.2
      (initPool_uInv hdag) (emitStack_wf hdag isProgram) (by rw [hpr])
    have hrun : runUnify isProgram dag = some none := by
      unfold runUnify unifyFuel
      apply unifyIter_clash k (initPool dag) (emitStack isProgram dag) pr.1
        ((a, b) :: rest) hiter hstep
      have := hphi.2.2.2
      omega
    have hinf : runInfer alloc isProgram dag = .error .clash := by
      unfold runInfer
      rw [if_neg (by rw [halloc]; simp), hrun]
    unfold mallocTypeInference
    rw [hinf]
    exact ⟨rfl, rfl⟩

/-- Witness for C5: on comp (injl iden) (take iden) the unifier reaches
(after seven steps) a state popping a SUM-bound against a PRODUCT-bound
representative, and the call surfaces ok = true with a NULL type DAG. -/
theorem c5_clash_rejected_witness :
    popsClash (iterState 7 false dagClash).1 (iterState 7 false dagClash).2 = true ∧
    (mallocTypeInference [] false dagClash (censusOf dagClash)).ok = true ∧
    (mallocTypeInference [] false dagClash (censusOf dagClash)).type_dag = none := by
  refine ⟨by decide, ?_⟩
  exact c5_clash_rejected (by decide) (censusOf dagClash) [] rfl 7 (by decide) (by decide)

theorem getD_append_left {α : Type} (l l2 : List α) (d : α) :
    ∀ i, i < l.length → (l ++ l2).getD i d = l.getD i d := by
  induction l with
  | nil => intro i h; cases h
  | cons a l ih =>
    intro i h
    cases i with
    | zero => rfl
    | succ i =>
      rw [List.length_cons] at h
      exact ih i (by omega)

theorem getD_append_self {α : Type} (l : List α) (x : α) (d : α) :
    (l ++ [x]).getD l.length d = x := by
  induction l with
  | nil => rfl
  | cons a l ih => exact ih

theorem getD_cons_succ {α : Type} (a : α) (l : List α) (d : α) (i : Nat) :
    (a :: l).getD (i + 1) d = l.getD i d := rfl

theorem setBind_struct (p : Pool) (x : Nat) (b2 : binding) :
    ((p.set x { p.vars x with bound := b2 }).size = p.size) ∧
    (∀ w, ((p.set x { p.vars x with bound := b2 }).vars w).parent = (p.vars w).parent) ∧
    (∀ w, ((p.set x { p.vars x with bound := b2 }).vars w).rank = (p.vars w).rank) ∧
    (∀ w, ((p.set x { p.vars x with bound := b2 }).vars w).isBound = (p.vars w).isBound) ∧
    (∀ w, w ≠ x → (p.set x { p.vars x with bound := b2 }).vars w = p.vars w) ∧
    (((p.set x { p.vars x with bound := b2 }).vars x).bound = b2) ∧
    (∀ w, (p.set x { p.vars x with bound := b2 }).root w = p.root w) ∧
    (∀ w, isRep (p.set x { p.vars x with bound := b2 }) w ↔ isRep p w) := by
  have hne : ∀ w, w ≠ x → (p.set x { p.vars x with bound := b2 }).vars w = p.vars w := by
    intro w hw
    exact Pool.set_vars_ne _ _ _ hw
  have hself : (p.set x { p.vars x with bound := b2 }).vars x
      = { p.vars x with bound := b2 } := Pool.set_vars_self _ _ _
  have hpar : ∀ w, ((p.set x { p.vars x with bound := b2 }).vars w).parent
      = (p.vars w).parent := by
    intro w
    by_cases hw : w = x
    · subst hw; rw [hself]
    · rw [hne w hw]
  refine ⟨rfl, hpar, ?_, ?_, hne, by rw [hself], root_congr rfl hpar, ?_⟩
  · intro w
    by_cases hw : w = x
    · subst hw; rw [hself]
    · rw [hne w hw]
  · intro w
    by_cases hw : w = x
    · subst hw; rw [hself]
    · rw [hne w hw]
  · intro w
    unfold isRep
    rw [hpar]

theorem unseenCount_erase {p q : Pool} {x : Nat} (hsz : q.size = p.size) (hx : x < p.size)
    (hux : isRep p x ∧ (p.vars x).bound.frozen_ix = none ∧
      (p.vars x).bound.occursCheck = false)
    (hnux : ¬ (isRep q x ∧ (q.vars x).bound.frozen_ix = none ∧
      (q.vars x).bound.occursCheck = false))
    (hsame : ∀ w, w ≠ x →
      ((isRep q w ∧ (q.vars w).bound.frozen_ix = none ∧ (q.vars w).bound.occursCheck = false)
        ↔ (isRep p w ∧ (p.vars w).bound.frozen_ix = none ∧
          (p.vars w).bound.occursCheck = false))) :
    unseenCount q + 1 = unseenCount p := by
  unfold unseenCount
  rw [hsz]
  have h1 : (Finset.range p.size).filter (fun v => isRep q v ∧
      (q.vars v).bound.frozen_ix = none ∧ (q.vars v).bound.occursCheck = false)
      = ((Finset.range p.size).filter (fun v => isRep p v ∧
        (p.vars v).bound.frozen_ix = none ∧ (p.vars v).bound.occursCheck = false)).erase x := by
    rw [← Finset.filter_ne']
    rw [Finset.filter_filter]
    apply Finset.filter_congr
    intro w _
    by_cases hw : w = x
    · subst hw
      simp [hnux]
    · simp [hw, hsame w hw]
  rw [h1]
  have hmem : x ∈ (Finset.range p.size).filter (fun v => isRep p v ∧
      (p.vars v).bound.frozen_ix = none ∧ (p.vars v).bound.occursCheck = false) := by
    rw [Finset.mem_filter, Finset.mem_range]
    exact ⟨hx, hux⟩
  rw [Finset.card_erase_of_mem hmem]
  have hpos : 0 < ((Finset.range p.size).filter (fun v => isRep p v ∧
      (p.vars v).bound.frozen_ix = none ∧ (p.vars v).bound.occursCheck = false)).card :=
    Finset.card_pos.2 ⟨x, hmem⟩
  omega

theorem unseenCount_congr {p q : Pool} (hsz : q.size = p.size)
    (hsame : ∀ w, (isRep q w ∧ (q.vars w).bound.frozen_ix = none ∧
      (q.vars w).bound.occursCheck = false)
        ↔ (isRep p w ∧ (p.vars w).bound.frozen_ix = none ∧
          (p.vars w).bound.occursCheck = false)) :
    unseenCount q = unseenCount p := by
  unfold unseenCount
  rw [hsz]
  congr 1
  apply Finset.filter_congr
  intro w _
  simp [hsame w]

theorem freezeExitPool_struct (p : Pool) (x n : Nat) :
    ((freezeExitPool p x n).size = p.size) ∧
    (∀ w, ((freezeExitPool p x n).vars w).parent = (p.vars w).parent) ∧
    (∀ w, ((freezeExitPool p x n).vars w).rank = (p.vars w).rank) ∧
    (∀ w, ((freezeExitPool p x n).vars w).isBound = (p.vars w).isBound) ∧
    (∀ w, w ≠ x → (freezeExitPool p x n).vars w = p.vars w) ∧
    (((freezeExitPool p x n).vars x).bound.frozen_ix = some n) ∧
    (((freezeExitPool p x n).vars x).bound.occursCheck = false) ∧
    (((freezeExitPool p x n).vars x).bound.kind = (p.vars x).bound.kind) ∧
    (((freezeExitPool p x n).vars x).bound.arg0 = (p.vars x).bound.arg0) ∧
    (((freezeExitPool p x n).vars x).bound.arg1 = (p.vars x).bound.arg1) ∧
    (∀ w, (freezeExitPool p x n).root w = p.root w) ∧
    (∀ w, isRep (freezeExitPool p x n) w ↔ isRep p w) := by
  obtain ⟨S1, S2, S3, S4, S5, S6, S7, S8⟩ := setBind_struct p x
    { (p.vars x).bound with frozen_ix := some n, occursCheck := false }
  have hb : ((freezeExitPool p x n).vars x).bound
      = { (p.vars x).bound with frozen_ix := some n, occursCheck := false } := S6
  refine ⟨S1, S2, S3, S4, S5, ?_, ?_, ?_, ?_, ?_, S7, S8⟩ <;> rw [hb]

theorem freezeAssign_struct (p : Pool) (x n : Nat) :
    ((freezeAssign p x n).size = p.size) ∧
    (∀ w, ((freezeAssign p x n).vars w).parent = (p.vars w).parent) ∧
    (∀ w, ((freezeAssign p x n).vars w).rank = (p.vars w).rank) ∧
    (∀ w, ((freezeAssign p x n).vars w).isBound = (p.vars w).isBound) ∧
    (∀ w, w ≠ x → (freezeAssign p x n).vars w = p.vars w) ∧
    (((freezeAssign p x n).vars x).bound.frozen_ix = some n) ∧
    (((freezeAssign p x n).vars x).bound.occursCheck = (p.vars x).bound.occursCheck) ∧
    (((freezeAssign p x n).vars x).bound.kind = (p.vars x).bound.kind) ∧
    (((freezeAssign p x n).vars x).bound.arg0 = (p.vars x).bound.arg0) ∧
    (((freezeAssign p x n).vars x).bound.arg1 = (p.vars x).bound.arg1) ∧
    (∀ w, (freezeAssign p x n).root w = p.root w) ∧
    (∀ w, isRep (freezeAssign p x n) w ↔ isRep p w) := by
  obtain ⟨S1, S2, S3, S4, S5, S6, S7, S8⟩ := setBind_struct p x
    { (p.vars x).bound with frozen_ix := some n }
  have hb : ((freezeAssign p x n).vars x).bound
      = { (p.vars x).bound with frozen_ix := some n } := S6
  refine ⟨S1, S2, S3, S4, S5, ?_, ?_, ?_, ?_, ?_, S7, S8⟩ <;> rw [hb]

theorem freezeMark_struct (p : Pool) (x : Nat) :
    ((freezeMark p x).size = p.size) ∧
    (∀ w, ((freezeMark p x).vars w).parent = (p.vars w).parent) ∧
    (∀ w, ((freezeMark p x).vars w).rank = (p.vars w).rank) ∧
    (∀ w, ((freezeMark p x).vars w).isBound = (p.vars w).isBound) ∧
    (∀ w, w ≠ x → (freezeMark p x).vars w = p.vars w) ∧
    (((freezeMark p x).vars x).bound.frozen_ix = (p.vars x).bound.frozen_ix) ∧
    (((freezeMark p x).vars x).bound.occursCheck = true) ∧
    (((freezeMark p x).vars x).bound.kind = (p.vars x).bound.kind) ∧
    (((freezeMark p x).vars x).bound.arg0 = (p.vars x).bound.arg0) ∧
    (((freezeMark p x).vars x).bound.arg1 = (p.vars x).bound.arg1) ∧
    (∀ w, (freezeMark p x).root w = p.root w) ∧
    (∀ w, isRep (freezeMark p x) w ↔ isRep p w) := by
  obtain ⟨S1, S2, S3, S4, S5, S6, S7, S8⟩ := setBind_struct p x
    { (p.vars x).bound with occursCheck := true }
  have hb : ((freezeMark p x).vars x).bound
      = { (p.vars x).bound with occursCheck := true } := S6
  refine ⟨S1, S2, S3, S4, S5, ?_, ?_, ?_, ?_, ?_, S7, S8⟩ <;> rw [hb]

theorem freezeStep_done {p : Pool} {td : List typeSkel} {st : List (Nat × Bool)}
    {q : Pool} {tdq : List typeSkel} (h : freezeStep p td st = .done q tdq) :
    st = [] ∧ q = p ∧ tdq = td := by
  cases st with
  | nil =>
    simp only [freezeStep] at h
    injection h with h1 h2
    exact ⟨rfl, h1.symm, h2.symm⟩
  | cons fr rest =>
    obtain ⟨v, phase⟩ := fr
    simp only [freezeStep] at h
    cases phase with
    | true => simp at h
    | false =>
      simp only [Bool.false_eq_true, if_false] at h
      cases hfz : ((p.vars (p.root v)).bound.frozen_ix) with
      | some j =>
        rw [hfz] at h
        simp at h
      | none =>
        rw [hfz] at h
        split_ifs at h <;> simp at h

theorem blackV_mono {p q : Pool} (hroot : ∀ w, q.root w = p.root w)
    (hfz : ∀ v i, (p.vars v).bound.frozen_ix = some i → (q.vars v).bound.frozen_ix = some i)
    {c : Nat} (h : blackV p c) : blackV q c := by
  unfold blackV at h ⊢
  rw [hroot]
  cases hx : (p.vars (p.root c)).bound.frozen_ix with
  | none => exact absurd hx h
  | some j =>
    rw [hfz _ j hx]
    simp

theorem coversVar_congr {p q : Pool} (hroot : ∀ w, q.root w = p.root w)
    {fr : Nat × Bool} {c : Nat} (h : coversVar p fr c) : coversVar q fr c := by
  unfold coversVar at h ⊢
  rw [hroot, hroot]
  exact h

theorem coversVar_cases {p : Pool} {fr : Nat × Bool} {c : Nat} (h : coversVar p fr c) :
    (fr.2 = false ∧ p.root fr.1 = p.root c) ∨ (fr.2 = true ∧ fr.1 = p.root c) := h

theorem pwf_transfer {p q : Pool} (hsz : q.size = p.size)
    (hpar : ∀ w, (q.vars w).parent = (p.vars w).parent)
    (hrk : ∀ w, (q.vars w).rank = (p.vars w).rank)
    (hp : parentWF p) : parentWF q := by
  intro v hv u hu
  rw [hpar] at hu
  rw [hsz] at hv
  obtain ⟨h1, h2⟩ := hp v hv u hu
  rw [hrk, hrk, hsz]
  exact ⟨h1, h2⟩

theorem rwf_transfer {p q : Pool} (hsz : q.size = p.size)
    (hrk : ∀ w, (q.vars w).rank = (p.vars w).rank)
    (hr : rankWF p) : rankWF q := by
  intro v hv
  rw [hsz] at hv ⊢
  rw [hrk]
  exact hr v hv

theorem bwf_transfer2 {p q : Pool} (hsz : q.size = p.size)
    (hrep : ∀ w, isRep q w ↔ isRep p w)
    (hib : ∀ w, (q.vars w).isBound = (p.vars w).isBound)
    (hknd : ∀ w, (q.vars w).bound.kind = (p.vars w).bound.kind)
    (ha0 : ∀ w, (q.vars w).bound.arg0 = (p.vars w).bound.arg0)
    (ha1 : ∀ w, (q.vars w).bound.arg1 = (p.vars w).bound.arg1)
    (hb : bindingWF p) : bindingWF q := by
  intro v hv hvrep hvb hvk
  rw [hsz] at hv
  rw [hib] at hvb
  rw [hknd] at hvk
  rw [ha0, ha1, hsz]
  exact hb v hv ((hrep v).1 hvrep) hvb hvk

theorem freezeStep_exit_spec {p : Pool} {td : List typeSkel} {v : Nat}
    {rest : List (Nat × Bool)} (hinv : FInv p td ((v, true) :: rest)) :
    freezeStepOkConc p td ((v, true) :: rest)
      (freezeExitPool p v td.length) (td ++ [freezeNode p v]) rest := by
  obtain ⟨hvsz, hvrep, hocc, hfzn, hbnd, hknd, hchild⟩ :=
    hinv.exits 0 (by simp only [List.length_cons]; omega) v rfl
  have hblk : ∀ c, c = (p.vars v).bound.arg0 ∨ c = (p.vars v).bound.arg1 →
      blackV p c := by
    intro c hc
    rcases hchild c hc with h | ⟨j2, hj2, _⟩
    · exact h
    · omega
  obtain ⟨j0, hj0⟩ : ∃ j, (p.vars (p.root (p.vars v).bound.arg0)).bound.frozen_ix
      = some j := by
    have hb0 := hblk _ (Or.inl rfl)
    unfold blackV at hb0
    cases hx : (p.vars (p.root (p.vars v).bound.arg0)).bound.frozen_ix with
    | none => exact absurd hx hb0
    | some j => exact ⟨j, rfl⟩
  obtain ⟨j1, hj1⟩ : ∃ j, (p.vars (p.root (p.vars v).bound.arg1)).bound.frozen_ix
      = some j := by
    have hb1 := hblk _ (Or.inr rfl)
    unfold blackV at hb1
    cases hx : (p.vars (p.root (p.vars v).bound.arg1)).bound.frozen_ix with
    | none => exact absurd hx hb1
    | some j => exact ⟨j, rfl⟩
  obtain ⟨S1, S2, S3, S4, S5, S6, S7, S8, S9, S10, S11, S12⟩ :=
    freezeExitPool_struct p v td.length
  have hfzs : ∀ u i, (p.vars u).bound.frozen_ix = some i →
      ((freezeExitPool p v td.length).vars u).bound.frozen_ix = some i := by
    intro u i hu
    by_cases huv : u = v
    · subst huv
      rw [hfzn] at hu
      cases hu
    · rw [S5 u huv]
      exact hu
  have hfields : ∀ w,
      ((freezeExitPool p v td.length).vars w).isBound = (p.vars w).isBound ∧
      ((freezeExitPool p v td.length).vars w).bound.kind = (p.vars w).bound.kind ∧
      ((freezeExitPool p v td.length).vars w).bound.arg0 = (p.vars w).bound.arg0 ∧
      ((freezeExitPool p v td.length).vars w).bound.arg1 = (p.vars w).bound.arg1 := by
    intro w
    by_cases hw : w = v
    · subst hw
      exact ⟨S4 w, S8, S9, S10⟩
    · rw [S5 w hw]
      exact ⟨rfl, rfl, rfl, rfl⟩
  have hbmono : ∀ c, blackV p c → blackV (freezeExitPool p v td.length) c :=
    fun c hc => blackV_mono S11 hfzs hc
  have hvblack : ∀ c, v = p.root c → blackV (freezeExitPool p v td.length) c := by
    intro c hc
    unfold blackV
    rw [S11, ← hc, S6]
    simp
  have hnode : freezeNode p v = (if (p.vars v).bound.kind = typeName.sum
      then typeSkel.sum j0 j1 else typeSkel.prod j0 j1) := by
    unfold freezeNode
    rw [hj0, hj1]
    cases hk : (p.vars v).bound.kind with
    | one => exact absurd hk hknd
    | sum => simp
    | prod => simp
  have hj0lt : j0 < td.length := hinv.alt _ j0 hj0
  have hj1lt : j1 < td.length := hinv.alt _ j1 hj1
  have huc : unseenCount (freezeExitPool p v td.length) = unseenCount p := by
    apply unseenCount_congr S1
    intro w
    by_cases hw : w = v
    · subst hw
      constructor
      · rintro ⟨_, hfz2, _⟩
        rw [S6] at hfz2
        cases hfz2
      · rintro ⟨_, _, hoc2⟩
        rw [hocc] at hoc2
        cases hoc2
    · simp only [isRep]
      rw [S5 w hw]
  have hphi : fPhi (freezeExitPool p v td.length) rest < fPhi p ((v, true) :: rest) := by
    unfold fPhi
    rw [huc, List.length_cons]
    omega
  have hcov : ∀ c, coveredV p ((v, true) :: rest) c →
      coveredV (freezeExitPool p v td.length) rest c := by
    intro c hc
    rcases hc with hb | ⟨fr, hfr, hcv⟩
    · exact Or.inl (hbmono c hb)
    · rcases List.mem_cons.1 hfr with rfl | hfr2
      · rcases coversVar_cases hcv with ⟨h1, _⟩ | ⟨_, h2⟩
        · cases h1
        · exact Or.inl (hvblack c h2)
      · exact Or.inr ⟨fr, hfr2, coversVar_congr S11 hcv⟩
  unfold freezeStepOkConc
  refine ⟨⟨pwf_transfer S1 S2 S3 hinv.pwf, rwf_transfer S1 S3 hinv.rwf,
      bwf_transfer2 S1 S12 (fun w => (hfields w).1) (fun w => (hfields w).2.1)
        (fun w => (hfields w).2.2.1) (fun w => (hfields w).2.2.2) hinv.bwf,
      ?_, ?_, ?_, ?_, ?_, ?_, ?_, ?_⟩,
    S1, hphi, hfields, S11, hfzs,
    by simp only [List.length_append, List.length_singleton]; omega, ?_, hcov⟩
  · intro fr hfr
    rw [S1]
    exact hinv.stv fr (List.mem_cons_of_mem _ hfr)
  · simp
  · have h0 : 0 < td.length := List.length_pos.2 hinv.tdne
    rw [getD_append_left _ _ _ 0 h0]
    exact hinv.td0
  · intro i hi
    simp only [List.length_append, List.length_singleton] at hi
    rcases Nat.lt_or_ge i td.length with hlt | hge
    · rw [getD_append_left _ _ _ i hlt]
      exact hinv.topo i hlt
    · have hieq : i = td.length := by omega
      subst hieq
      rw [getD_append_self, hnode]
      by_cases hk : (p.vars v).bound.kind = typeName.sum
      · rw [if_pos hk]
        simp only [nodeTopo, decide_eq_true_eq]
        exact ⟨hj0lt, hj1lt⟩
      · rw [if_neg hk]
        simp only [nodeTopo, decide_eq_true_eq]
        exact ⟨hj0lt, hj1lt⟩
  · intro u i hf
    simp only [List.length_append, List.length_singleton]
    by_cases hu : u = v
    · subst hu
      rw [S6] at hf
      cases hf
      omega
    · rw [S5 u hu] at hf
      have := hinv.alt u i hf
      omega
  · intro r hrsz hrrep i hfi
    by_cases hr : r = v
    · subst hr
      rw [S6] at hfi
      cases hfi
      constructor
      · intro hfree
        exfalso
        rcases hfree with h | h
        · rw [S4] at h
          exact h hbnd
        · rw [S8] at h
          exact hknd h
      · intro _ _
        refine ⟨j0, j1, ?_, ?_, ?_, ?_⟩
        · rw [S9, S11]
          have hne : p.root (p.vars r).bound.arg0 ≠ r := by
            intro he
            rw [he, hfzn] at hj0
            cases hj0
          rw [S5 _ hne]
          exact hj0
        · rw [S10, S11]
          have hne : p.root (p.vars r).bound.arg1 ≠ r := by
            intro he
            rw [he, hfzn] at hj1
            cases hj1
          rw [S5 _ hne]
          exact hj1
        · simp only [List.length_append, List.length_singleton]
          omega
        · rw [getD_append_self, hnode, S8]
    · have hfi2 : (p.vars r).bound.frozen_ix = some i := by
        rw [S5 r hr] at hfi
        exact hfi
      have hrsz2 : r < p.size := by
        rw [S1] at hrsz
        exact hrsz
      obtain ⟨C1, C2⟩ := hinv.sem r hrsz2 ((S12 r).1 hrrep) i hfi2
      constructor
      · intro hfree
        apply C1
        rcases hfree with h | h
        · left
          rw [(hfields r).1] at h
          exact h
        · right
          rw [(hfields r).2.1] at h
          exact h
      · intro hb hk
        rw [(hfields r).1] at hb
        rw [(hfields r).2.1] at hk
        obtain ⟨k0, k1, hk0, hk1, hilt, heq⟩ := C2 hb hk
        refine ⟨k0, k1, ?_, ?_, ?_, ?_⟩
        · rw [(hfields r).2.2.1, S11]
          have hne : p.root (p.vars r).bound.arg0 ≠ v := by
            intro he
            rw [he, hfzn] at hk0
            cases hk0
          rw [S5 _ hne]
          exact hk0
        · rw [(hfields r).2.2.2, S11]
          have hne : p.root (p.vars r).bound.arg1 ≠ v := by
            intro he
            rw [he, hfzn] at hk1
            cases hk1
          rw [S5 _ hne]
          exact hk1
        · simp only [List.length_append, List.length_singleton]
          omega
        · rw [getD_append_left _ _ _ i hilt, (hfields r).2.1]
          exact heq
  · intro j hj r' hr'
    have hne : v ≠ r' := hinv.exdis 0 (j + 1) (by omega)
      (by simp only [List.length_cons]; omega) v r' rfl hr'
    obtain ⟨h1, h2, h3, h4, h5, h6, h7⟩ := hinv.exits (j + 1)
      (by simp only [List.length_cons]; omega) r' hr'
    have hner : r' ≠ v := Ne.symm hne
    refine ⟨by rw [S1]; exact h1, (S12 r').2 h2, ?_, ?_, ?_, ?_, ?_⟩
    · rw [S5 r' hner]
      exact h3
    · rw [S5 r' hner]
      exact h4
    · rw [S5 r' hner]
      exact h5
    · rw [S5 r' hner]
      exact h6
    · intro c hc
      have hc2 : c = (p.vars r').bound.arg0 ∨ c = (p.vars r').bound.arg1 := by
        rw [S5 r' hner] at hc
        exact hc
      rcases h7 c hc2 with hb | ⟨j2, hj2, hcv⟩
      · exact Or.inl (hbmono c hb)
      · cases j2 with
        | zero =>
          rcases coversVar_cases hcv with ⟨h8, _⟩ | ⟨_, h9⟩
          · cases h8
          · exact Or.inl (hvblack c h9)
        | succ k =>
          exact Or.inr ⟨k, by omega, coversVar_congr S11 hcv⟩
  · intro j1 j2 hlt hlen r1 r2 hq1 hq2
    exact hinv.exdis (j1 + 1) (j2 + 1) (by omega)
      (by simp only [List.length_cons]; omega) r1 r2 hq1 hq2
  · intro i hi
    exact getD_append_left _ _ _ i hi

theorem freezeStep_skip_spec {p : Pool} {td : List typeSkel} {v j : Nat}
    {rest : List (Nat × Bool)} (hinv : FInv p td ((v, false) :: rest))
    (hfz : (p.vars (p.root v)).bound.frozen_ix = some j) :
    freezeStepOkConc p td ((v, false) :: rest) p td rest := by
  have hvb : ∀ c, p.root v = p.root c → blackV p c := by
    intro c hc
    unfold blackV
    rw [← hc, hfz]
    simp
  have hcov : ∀ c, coveredV p ((v, false) :: rest) c → coveredV p rest c := by
    intro c hc
    rcases hc with hb | ⟨fr, hfr, hcv⟩
    · exact Or.inl hb
    · rcases List.mem_cons.1 hfr with rfl | hfr2
      · rcases coversVar_cases hcv with ⟨_, h2⟩ | ⟨h1, _⟩
        · exact Or.inl (hvb c h2)
        · cases h1
      · exact Or.inr ⟨fr, hfr2, hcv⟩
  unfold freezeStepOkConc
  refine ⟨⟨hinv.pwf, hinv.rwf, hinv.bwf, ?_, hinv.tdne, hinv.td0, hinv.topo,
      hinv.alt, hinv.sem, ?_, ?_⟩,
    rfl, ?_, fun w => ⟨rfl, rfl, rfl, rfl⟩, fun w => rfl, fun u i h => h,
    le_refl _, fun i _ => rfl, hcov⟩
  · intro fr hfr
    exact hinv.stv fr (List.mem_cons_of_mem _ hfr)
  · intro j2 hj2 r' hr'
    obtain ⟨h1, h2, h3, h4, h5, h6, h7⟩ := hinv.exits (j2 + 1)
      (by simp only [List.length_cons]; omega) r' hr'
    refine ⟨h1, h2, h3, h4, h5, h6, ?_⟩
    intro c hc
    rcases h7 c hc with hb | ⟨j3, hj3, hcv⟩
    · exact Or.inl hb
    · cases j3 with
      | zero =>
        rcases coversVar_cases hcv with ⟨_, h8⟩ | ⟨h9, _⟩
        · exact Or.inl (hvb c h8)
        · cases h9
      | succ k => exact Or.inr ⟨k, by omega, hcv⟩
  · intro j1 j2 hlt hlen r1 r2 h1 h2
    exact hinv.exdis (j1 + 1) (j2 + 1) (by omega)
      (by simp only [List.length_cons]; omega) r1 r2 h1 h2
  · unfold fPhi
    rw [List.length_cons]
    omega

theorem freezeStep_assign_spec {p : Pool} {td : List typeSkel} {v : Nat}
    {rest : List (Nat × Bool)} (hinv : FInv p td ((v, false) :: rest))
    (hfz : (p.vars (p.root v)).bound.frozen_ix = none)
    (hocc : (p.vars (p.root v)).bound.occursCheck = false)
    (hfree : (p.vars (p.root v)).isBound = false ∨
      (p.vars (p.root v)).bound.kind = typeName.one) :
    freezeStepOkConc p td ((v, false) :: rest) (freezeAssign p (p.root v) 0) td rest := by
  have hvsz : v < p.size := hinv.stv (v, false) (List.mem_cons_self _ _)
  obtain ⟨hrrep, hrsz, _⟩ := root_isRep hinv.pwf hinv.rwf hvsz
  obtain ⟨S1, S2, S3, S4, S5, S6, S7, S8, S9, S10, S11, S12⟩ :=
    freezeAssign_struct p (p.root v) 0
  have hfzs : ∀ u i, (p.vars u).bound.frozen_ix = some i →
      ((freezeAssign p (p.root v) 0).vars u).bound.frozen_ix = some i := by
    intro u i hu
    by_cases huv : u = p.root v
    · subst huv
      rw [hfz] at hu
      cases hu
    · rw [S5 u huv]
      exact hu
  have hfields : ∀ w,
      ((freezeAssign p (p.root v) 0).vars w).isBound = (p.vars w).isBound ∧
      ((freezeAssign p (p.root v) 0).vars w).bound.kind = (p.vars w).bound.kind ∧
      ((freezeAssign p (p.root v) 0).vars w).bound.arg0 = (p.vars w).bound.arg0 ∧
      ((freezeAssign p (p.root v) 0).vars w).bound.arg1 = (p.vars w).bound.arg1 := by
    intro w
    by_cases hw : w = p.root v
    · subst hw
      exact ⟨S4 (p.root v), S8, S9, S10⟩
    · rw [S5 w hw]
      exact ⟨rfl, rfl, rfl, rfl⟩
  have hbmono : ∀ c, blackV p c → blackV (freezeAssign p (p.root v) 0) c :=
    fun c hc => blackV_mono S11 hfzs hc
  have hvblack : ∀ c, p.root v = p.root c → blackV (freezeAssign p (p.root v) 0) c := by
    intro c hc
    unfold blackV
    rw [S11, ← hc, S6]
    simp
  have herase : unseenCount (freezeAssign p (p.root v) 0) + 1 = unseenCount p := by
    refine unseenCount_erase S1 hrsz ⟨hrrep, hfz, hocc⟩ ?_ ?_
    · intro hcontra
      obtain ⟨_, hf2, _⟩ := hcontra
      rw [S6] at hf2
      cases hf2
    · intro w hw
      simp only [isRep]
      rw [S5 w hw]
  have hphi : fPhi (freezeAssign p (p.root v) 0) rest < fPhi p ((v, false) :: rest) := by
    unfold fPhi
    rw [List.length_cons]
    omega
  have hcov : ∀ c, coveredV p ((v, false) :: rest) c →
      coveredV (freezeAssign p (p.root v) 0) rest c := by
    intro c hc
    rcases hc with hb | ⟨fr, hfr, hcv⟩
    · exact Or.inl (hbmono c hb)
    · rcases List.mem_cons.1 hfr with rfl | hfr2
      · rcases coversVar_cases hcv with ⟨_, h2⟩ | ⟨h1, _⟩
        · exact Or.inl (hvblack c h2)
        · cases h1
      · exact Or.inr ⟨fr, hfr2, coversVar_congr S11 hcv⟩
  unfold freezeStepOkConc
  refine ⟨⟨pwf_transfer S1 S2 S3 hinv.pwf, rwf_transfer S1 S3 hinv.rwf,
      bwf_transfer2 S1 S12 (fun w => (hfields w).1) (fun w => (hfields w).2.1)
        (fun w => (hfields w).2.2.1) (fun w => (hfields w).2.2.2) hinv.bwf,
      ?_, hinv.tdne, hinv.td0, hinv.topo, ?_, ?_, ?_, ?_⟩,
    S1, hphi, hfields, S11, hfzs, le_refl _, fun i _ => rfl, hcov⟩
  · intro fr hfr
    rw [S1]
    exact hinv.stv fr (List.mem_cons_of_mem _ hfr)
  · intro u i hf
    by_cases hu : u = p.root v
    · subst hu
      rw [S6] at hf
      cases hf
      exact List.length_pos.2 hinv.tdne
    · rw [S5 u hu] at hf
      exact hinv.alt u i hf
  · intro r hrsz2 hrrep2 i hfi
    by_cases hr : r = p.root v
    · subst hr
      rw [S6] at hfi
      cases hfi
      constructor
      · intro _
        rfl
      · intro hb hk
        exfalso
        rw [S4] at hb
        rw [S8] at hk
        rcases hfree with h | h
        · rw [h] at hb
          cases hb
        · exact hk h
    · have hfi2 : (p.vars r).bound.frozen_ix = some i := by
        rw [S5 r hr] at hfi
        exact hfi
      have hrsz3 : r < p.size := by
        rw [S1] at hrsz2
        exact hrsz2
      obtain ⟨C1, C2⟩ := hinv.sem r hrsz3 ((S12 r).1 hrrep2) i hfi2
      constructor
      · intro hfree2
        apply C1
        rcases hfree2 with h | h
        · left
          rw [(hfields r).1] at h
          exact h
        · right
          rw [(hfields r).2.1] at h
          exact h
      · intro hb hk
        rw [(hfields r).1] at hb
        rw [(hfields r).2.1] at hk
        obtain ⟨k0, k1, hk0, hk1, hilt, heq⟩ := C2 hb hk
        refine ⟨k0, k1, ?_, ?_, hilt, ?_⟩
        · rw [(hfields r).2.2.1, S11]
          have hne : p.root (p.vars r).bound.arg0 ≠ p.root v := by
            intro he
            rw [he, hfz] at hk0
            cases hk0
          rw [S5 _ hne]
          exact hk0
        · rw [(hfields r).2.2.2, S11]
          have hne : p.root (p.vars r).bound.arg1 ≠ p.root v := by
            intro he
            rw [he, hfz] at hk1
            cases hk1
          rw [S5 _ hne]
          exact hk1
        · rw [(hfields r).2.1]
          exact heq
  · intro j2 hj2 r' hr'
    obtain ⟨h1, h2, h3, h4, h5, h6, h7⟩ := hinv.exits (j2 + 1)
      (by simp only [List.length_cons]; omega) r' hr'
    have hner : r' ≠ p.root v := by
      intro he
      rw [he, hocc] at h3
      cases h3
    refine ⟨by rw [S1]; exact h1, (S12 r').2 h2, ?_, ?_, ?_, ?_, ?_⟩
    · rw [S5 r' hner]
      exact h3
    · rw [S5 r' hner]
      exact h4
    · rw [S5 r' hner]
      exact h5
    · rw [S5 r' hner]
      exact h6
    · intro c hc
      have hc2 : c = (p.vars r').bound.arg0 ∨ c = (p.vars r').bound.arg1 := by
        rw [S5 r' hner] at hc
        exact hc
      rcases h7 c hc2 with hb | ⟨j3, hj3, hcv⟩
      · exact Or.inl (hbmono c hb)
      · cases j3 with
        | zero =>
          rcases coversVar_cases hcv with ⟨_, h8⟩ | ⟨h9, _⟩
          · exact Or.inl (hvblack c h8)
          · cases h9
        | succ k => exact Or.inr ⟨k, by omega, coversVar_congr S11 hcv⟩
  · intro j1 j2 hlt hlen r1 r2 h1 h2
    exact hinv.exdis (j1 + 1) (j2 + 1) (by omega)
      (by simp only [List.length_cons]; omega) r1 r2 h1 h2

theorem freezeStep_expand_spec {p : Pool} {td : List typeSkel} {v : Nat}
    {rest : List (Nat × Bool)} (hinv : FInv p td ((v, false) :: rest))
    (hfz : (p.vars (p.root v)).bound.frozen_ix = none)
    (hocc : (p.vars (p.root v)).bound.occursCheck = false)
    (hbind : ¬ ((p.vars (p.root v)).isBound = false ∨
      (p.vars (p.root v)).bound.kind = typeName.one)) :
    freezeStepOkConc p td ((v, false) :: rest) (freezeMark p (p.root v)) td
      (((p.vars (p.root v)).bound.arg0, false) ::
        ((p.vars (p.root v)).bound.arg1, false) :: (p.root v, true) :: rest) := by
  obtain ⟨hbnd0, hknd⟩ := not_or.1 hbind
  have hbnd : (p.vars (p.root v)).isBound = true := by
    cases hx : (p.vars (p.root v)).isBound with
    | false => exact absurd hx hbnd0
    | true => rfl
  have hvsz : v < p.size := hinv.stv (v, false) (List.mem_cons_self _ _)
  obtain ⟨hrrep, hrsz, _⟩ := root_isRep hinv.pwf hinv.rwf hvsz
  obtain ⟨ha0, ha1⟩ := hinv.bwf (p.root v) hrsz hrrep hbnd hknd
  obtain ⟨S1, S2, S3, S4, S5, S6, S7, S8, S9, S10, S11, S12⟩ :=
    freezeMark_struct p (p.root v)
  have hqfz : ((freezeMark p (p.root v)).vars (p.root v)).bound.frozen_ix = none := by
    rw [S6]
    exact hfz
  have hfzs : ∀ u i, (p.vars u).bound.frozen_ix = some i →
      ((freezeMark p (p.root v)).vars u).bound.frozen_ix = some i := by
    intro u i hu
    by_cases huv : u = p.root v
    · subst huv
      rw [hfz] at hu
      cases hu
    · rw [S5 u huv]
      exact hu
  have hfields : ∀ w,
      ((freezeMark p (p.root v)).vars w).isBound = (p.vars w).isBound ∧
      ((freezeMark p (p.root v)).vars w).bound.kind = (p.vars w).bound.kind ∧
      ((freezeMark p (p.root v)).vars w).bound.arg0 = (p.vars w).bound.arg0 ∧
      ((freezeMark p (p.root v)).vars w).bound.arg1 = (p.vars w).bound.arg1 := by
    intro w
    by_cases hw : w = p.root v
    · subst hw
      exact ⟨S4 (p.root v), S8, S9, S10⟩
    · rw [S5 w hw]
      exact ⟨rfl, rfl, rfl, rfl⟩
  have hbmono : ∀ c, blackV p c → blackV (freezeMark p (p.root v)) c :=
    fun c hc => blackV_mono S11 hfzs hc
  have herase : unseenCount (freezeMark p (p.root v)) + 1 = unseenCount p := by
    refine unseenCount_erase S1 hrsz ⟨hrrep, hfz, hocc⟩ ?_ ?_
    · intro hcontra
      obtain ⟨_, _, ho⟩ := hcontra
      rw [S7] at ho
      cases ho
    · intro w hw
      simp only [isRep]
      rw [S5 w hw]
  have hphi : fPhi (freezeMark p (p.root v))
      (((p.vars (p.root v)).bound.arg0, false) ::
        ((p.vars (p.root v)).bound.arg1, false) :: (p.root v, true) :: rest)
      < fPhi p ((v, false) :: rest) := by
    unfold fPhi
    simp only [List.length_cons]
    omega
  have hrootcover : ∀ c, p.root v = p.root c →
      coveredV (freezeMark p (p.root v))
        (((p.vars (p.root v)).bound.arg0, false) ::
          ((p.vars (p.root v)).bound.arg1, false) :: (p.root v, true) :: rest) c := by
    intro c hc
    refine Or.inr ⟨(p.root v, true),
      List.mem_cons_of_mem _ (List.mem_cons_of_mem _ (List.mem_cons_self _ _)),
      Or.inr ⟨rfl, ?_⟩⟩
    rw [S11]
    exact hc
  have hcov : ∀ c, coveredV p ((v, false) :: rest) c →
      coveredV (freezeMark p (p.root v))
        (((p.vars (p.root v)).bound.arg0, false) ::
          ((p.vars (p.root v)).bound.arg1, false) :: (p.root v, true) :: rest) c := by
    intro c hc
    rcases hc with hb | ⟨fr, hfr, hcv⟩
    · exact Or.inl (hbmono c hb)
    · rcases List.mem_cons.1 hfr with rfl | hfr2
      · rcases coversVar_cases hcv with ⟨_, h2⟩ | ⟨h1, _⟩
        · exact hrootcover c h2
        · cases h1
      · exact Or.inr ⟨fr,
          List.mem_cons_of_mem _ (List.mem_cons_of_mem _ (List.mem_cons_of_mem _ hfr2)),
          coversVar_congr S11 hcv⟩
  unfold freezeStepOkConc
  refine ⟨⟨pwf_transfer S1 S2 S3 hinv.pwf, rwf_transfer S1 S3 hinv.rwf,
      bwf_transfer2 S1 S12 (fun w => (hfields w).1) (fun w => (hfields w).2.1)
        (fun w => (hfields w).2.2.1) (fun w => (hfields w).2.2.2) hinv.bwf,
      ?_, hinv.tdne, hinv.td0, hinv.topo, ?_, ?_, ?_, ?_⟩,
    S1, hphi, hfields, S11, hfzs, le_refl _, fun i _ => rfl, hcov⟩
  · intro fr hfr
    rw [S1]
    rcases List.mem_cons.1 hfr with rfl | hfr
    · exact ha0
    · rcases List.mem_cons.1 hfr with rfl | hfr
      · exact ha1
      · rcases List.mem_cons.1 hfr with rfl | hfr
        · exact hrsz
        · exact hinv.stv fr (List.mem_cons_of_mem _ hfr)
  · intro u i hf
    by_cases hu : u = p.root v
    · subst hu
      rw [S6, hfz] at hf
      cases hf
    · rw [S5 u hu] at hf
      exact hinv.alt u i hf
  · intro r hrsz2 hrrep2 i hfi
    by_cases hr : r = p.root v
    · subst hr
      rw [S6, hfz] at hfi
      cases hfi
    · have hfi2 : (p.vars r).bound.frozen_ix = some i := by
        rw [S5 r hr] at hfi
        exact hfi
      have hrsz3 : r < p.size := by
        rw [S1] at hrsz2
        exact hrsz2
      obtain ⟨C1, C2⟩ := hinv.sem r hrsz3 ((S12 r).1 hrrep2) i hfi2
      constructor
      · intro hfree2
        apply C1
        rcases hfree2 with h | h
        · left
          rw [(hfields r).1] at h
          exact h
        · right
          rw [(hfields r).2.1] at h
          exact h
      · intro hb hk
        rw [(hfields r).1] at hb
        rw [(hfields r).2.1] at hk
        obtain ⟨k0, k1, hk0, hk1, hilt, heq⟩ := C2 hb hk
        refine ⟨k0, k1, ?_, ?_, hilt, ?_⟩
        · rw [(hfields r).2.2.1, S11]
          have hne : p.root (p.vars r).bound.arg0 ≠ p.root v := by
            intro he
            rw [he, hfz] at hk0
            cases hk0
          rw [S5 _ hne]
          exact hk0
        · rw [(hfields r).2.2.2, S11]
          have hne : p.root (p.vars r).bound.arg1 ≠ p.root v := by
            intro he
            rw [he, hfz] at hk1
            cases hk1
          rw [S5 _ hne]
          exact hk1
        · rw [(hfields r).2.1]
          exact heq
  · intro j hj r' hr'
    rcases Nat.lt_or_ge j 3 with hj3 | hj3
    · interval_cases j
      · injection hr' with hA hB
        cases hB
      · injection hr' with hA hB
        cases hB
      · injection hr' with hA hB
        subst hA
        refine ⟨by rw [S1]; exact hrsz, (S12 _).2 hrrep, S7, hqfz,
          by rw [S4]; exact hbnd, by rw [S8]; exact hknd, ?_⟩
        intro c hc
        rw [S9, S10] at hc
        rcases hc with rfl | rfl
        · exact Or.inr ⟨0, by omega, Or.inl ⟨rfl, rfl⟩⟩
        · exact Or.inr ⟨1, by omega, Or.inl ⟨rfl, rfl⟩⟩
    · obtain ⟨k, rfl⟩ : ∃ k, j = k + 3 := ⟨j - 3, by omega⟩
      simp only [List.length_cons] at hj
      obtain ⟨h1, h2, h3, h4, h5, h6, h7⟩ := hinv.exits (k + 1)
        (by simp only [List.length_cons]; omega) r' hr'
      have hner : r' ≠ p.root v := by
        intro he
        rw [he, hocc] at h3
        cases h3
      refine ⟨by rw [S1]; exact h1, (S12 r').2 h2, ?_, ?_, ?_, ?_, ?_⟩
      · rw [S5 r' hner]
        exact h3
      · rw [S5 r' hner]
        exact h4
      · rw [S5 r' hner]
        exact h5
      · rw [S5 r' hner]
        exact h6
      · intro c hc
        have hc2 : c = (p.vars r').bound.arg0 ∨ c = (p.vars r').bound.arg1 := by
          rw [S5 r' hner] at hc
          exact hc
        rcases h7 c hc2 with hb | ⟨j3, hj4, hcv⟩
        · exact Or.inl (hbmono c hb)
        · cases j3 with
          | zero =>
            rcases coversVar_cases hcv with ⟨_, h8⟩ | ⟨h9, _⟩
            · refine Or.inr ⟨2, by omega, Or.inr ⟨rfl, ?_⟩⟩
              rw [S11]
              exact h8
            · cases h9
          | succ m =>
            exact Or.inr ⟨m + 3, by omega, coversVar_congr S11 hcv⟩
  · intro j1 j2 hlt hlen r1 r2 h1 h2
    simp only [List.length_cons] at hlen
    rcases Nat.lt_or_ge j1 3 with hj1 | hj1
    · interval_cases j1
      · injection h1 with hA hB
        cases hB
      · injection h1 with hA hB
        cases hB
      · injection h1 with hA hB
        obtain ⟨k, rfl⟩ : ∃ k, j2 = k + 3 := ⟨j2 - 3, by omega⟩
        obtain ⟨g1, g2, g3, g4, g5, g6, g7⟩ := hinv.exits (k + 1)
          (by simp only [List.length_cons]; omega) r2 h2
        intro he
        rw [← he, ← hA, hocc] at g3
        cases g3
    · obtain ⟨m1, rfl⟩ : ∃ m, j1 = m + 3 := ⟨j1 - 3, by omega⟩
      obtain ⟨m2, rfl⟩ : ∃ m, j2 = m + 3 := ⟨j2 - 3, by omega⟩
      exact hinv.exdis (m1 + 1) (m2 + 1) (by omega)
        (by simp only [List.length_cons]; omega) r1 r2 h1 h2

theorem freezeStep_ok_spec {p : Pool} {td : List typeSkel} {st : List (Nat × Bool)}
    {q : Pool} {td2 : List typeSkel} {st2 : List (Nat × Bool)}
    (hinv : FInv p td st) (hstep : freezeStep p td st = .ok q td2 st2) :
    freezeStepOkConc p td st q td2 st2 := by
  cases st with
  | nil =>
    have hstep2 : FreezeRes.done p td = FreezeRes.ok q td2 st2 := hstep
    cases hstep2
  | cons fr rest =>
    obtain ⟨v, phase⟩ := fr
    cases phase with
    | true =>
      have hstep2 : FreezeRes.ok (freezeExitPool p (p.root v) td.length)
          (td ++ [freezeNode p (p.root v)]) rest = FreezeRes.ok q td2 st2 := hstep
      injection hstep2 with hq htd hst
      subst hq
      subst htd
      subst hst
      have hex := hinv.exits 0 (by simp only [List.length_cons]; omega) v rfl
      have hrv : p.root v = v := root_of_isRep hex.2.1
      rw [hrv]
      exact freezeStep_exit_spec hinv
    | false =>
      simp only [freezeStep] at hstep
      cases hfz : (p.vars (p.root v)).bound.frozen_ix with
      | some j =>
        rw [hfz] at hstep
        have hstep2 : FreezeRes.ok p td rest = FreezeRes.ok q td2 st2 := hstep
        injection hstep2 with hq htd hst
        subst hq
        subst htd
        subst hst
        exact freezeStep_skip_spec hinv hfz
      | none =>
        rw [hfz] at hstep
        by_cases ho : (p.vars (p.root v)).bound.occursCheck = true
        · rw [if_pos ho] at hstep
          have hstep2 : FreezeRes.fail = FreezeRes.ok q td2 st2 := hstep
          cases hstep2
        · have hocc : (p.vars (p.root v)).bound.occursCheck = false := by
            cases hx : (p.vars (p.root v)).bound.occursCheck with
            | false => rfl
            | true => exact absurd hx ho
          rw [if_neg ho] at hstep
          by_cases hfree : (p.vars (p.root v)).isBound = false ∨
              (p.vars (p.root v)).bound.kind = typeName.one
          · rw [if_pos hfree] at hstep
            have hstep2 : FreezeRes.ok (freezeAssign p (p.root v) 0) td rest
                = FreezeRes.ok q td2 st2 := hstep
            injection hstep2 with hq htd hst
            subst hq
            subst htd
            subst hst
            exact freezeStep_assign_spec hinv hfz hocc hfree
          · rw [if_neg hfree] at hstep
            have hstep2 : FreezeRes.ok (freezeMark p (p.root v)) td
                (((p.vars (p.root v)).bound.arg0, false) ::
                  ((p.vars (p.root v)).bound.arg1, false) :: (p.root v, true) :: rest)
                = FreezeRes.ok q td2 st2 := hstep
            injection hstep2 with hq htd hst
            subst hq
            subst htd
            subst hst
            exact freezeStep_expand_spec hinv hfz hocc hfree

theorem freezeLoop_sound : ∀ fuel p td st q tdq,
    FInv p td st → freezeLoop fuel p td st = some (some (q, tdq)) →
    FInv q tdq [] ∧ q.size = p.size ∧
    (∀ w, (q.vars w).isBound = (p.vars w).isBound ∧
      (q.vars w).bound.kind = (p.vars w).bound.kind ∧
      (q.vars w).bound.arg0 = (p.vars w).bound.arg0 ∧
      (q.vars w).bound.arg1 = (p.vars w).bound.arg1) ∧
    (∀ w, q.root w = p.root w) ∧
    (∀ u i, (p.vars u).bound.frozen_ix = some i → (q.vars u).bound.frozen_ix = some i) ∧
    td.length ≤ tdq.length ∧
    (∀ i, i < td.length → tdq.getD i typeSkel.one = td.getD i typeSkel.one) ∧
    (∀ c, coveredV p st c → blackV q c) := by
  intro fuel
  induction fuel with
  | zero =>
    intro p td st q tdq hinv hloop
    simp [freezeLoop] at hloop
  | succ f ih =>
    intro p td st q tdq hinv hloop
    simp only [freezeLoop] at hloop
    cases hstep : freezeStep p td st with
    | done q2 td2 =>
      rw [hstep] at hloop
      have hloop2 : (some (some (q2, td2)) : Option (Option (Pool × List typeSkel)))
          = some (some (q, tdq)) := hloop
      obtain ⟨hst, hq2, htd2⟩ := freezeStep_done hstep
      have hq : q2 = q := by
        injection hloop2 with h1
        injection h1 with h2
        exact congrArg Prod.fst h2
      have htd : td2 = tdq := by
        injection hloop2 with h1
        injection h1 with h2
        exact congrArg Prod.snd h2
      subst hst
      rw [hq2] at hq
      rw [htd2] at htd
      subst hq
      subst htd
      refine ⟨hinv, rfl, fun w => ⟨rfl, rfl, rfl, rfl⟩, fun w => rfl, fun u i h => h,
        le_refl _, fun i _ => rfl, ?_⟩
      intro c hc
      rcases hc with hb | ⟨fr, hfr, _⟩
      · exact hb
      · cases hfr
    | fail =>
      rw [hstep] at hloop
      have hloop2 : (some none : Option (Option (Pool × List typeSkel)))
          = some (some (q, tdq)) := hloop
      simp at hloop2
    | ok q2 td2 st2 =>
      rw [hstep] at hloop
      have hloop2 : freezeLoop f q2 td2 st2 = some (some (q, tdq)) := hloop
      have conc := freezeStep_ok_spec hinv hstep
      unfold freezeStepOkConc at conc
      obtain ⟨hinv2, hsz2, _, hfld2, hroot2, hfzs2, hlen2, hpre2, hcov2⟩ := conc
      obtain ⟨H1, H2, H3, H4, H5, H6, H7, H8⟩ := ih q2 td2 st2 q tdq hinv2 hloop2
      refine ⟨H1, by rw [H2, hsz2], ?_, ?_, ?_, by omega, ?_, ?_⟩
      · intro w
        obtain ⟨a1, a2, a3, a4⟩ := H3 w
        obtain ⟨b1, b2, b3, b4⟩ := hfld2 w
        exact ⟨a1.trans b1, a2.trans b2, a3.trans b3, a4.trans b4⟩
      · intro w
        rw [H4 w, hroot2 w]
      · intro u i hu
        exact H5 u i (hfzs2 u i hu)
      · intro i hi
        rw [H7 i (by omega), hpre2 i hi]
      · intro c hc
        exact H8 c (hcov2 c hc)

theorem freezeLoop_total : ∀ fuel p td st, FInv p td st → fPhi p st < fuel →
    freezeLoop fuel p td st ≠ none := by
  intro fuel
  induction fuel with
  | zero =>
    intro p td st _ h
    omega
  | succ f ih =>
    intro p td st hinv hlt
    simp only [freezeLoop]
    cases hstep : freezeStep p td st with
    | done q2 td2 => simp
    | fail => simp
    | ok q2 td2 st2 =>
      have conc := freezeStep_ok_spec hinv hstep
      unfold freezeStepOkConc at conc
      exact ih q2 td2 st2 conc.1 (by have := conc.2.2.1; omega)

theorem freezeInit_mem {len : Nat} {fr : Nat × Bool} (h : fr ∈ freezeInit len) :
    ∃ i, i < len ∧ (fr = (srcVar i, false) ∨ fr = (tgtVar i, false)) := by
  unfold freezeInit at h
  rw [List.mem_flatMap] at h
  obtain ⟨i, hi, h2⟩ := h
  rw [List.mem_range] at hi
  simp only [List.mem_cons, List.not_mem_nil, or_false] at h2
  exact ⟨i, hi, h2⟩

theorem freezeInit_mem_src {len i : Nat} (hi : i < len) :
    (srcVar i, false) ∈ freezeInit len := by
  unfold freezeInit
  rw [List.mem_flatMap]
  exact ⟨i, List.mem_range.2 hi, by simp⟩

theorem freezeInit_mem_tgt {len i : Nat} (hi : i < len) :
    (tgtVar i, false) ∈ freezeInit len := by
  unfold freezeInit
  rw [List.mem_flatMap]
  exact ⟨i, List.mem_range.2 hi, by simp⟩

theorem freeze_FInv_init {pf : Pool} {len : Nat} (hinv : uInv pf) (hcl : clean pf)
    (hsz : pf.size = poolSize len) : FInv pf [typeSkel.one] (freezeInit len) := by
  obtain ⟨hp, hr, _, hb⟩ := hinv
  have hnoexit : ∀ j, j < (freezeInit len).length → ∀ r,
      (freezeInit len).getD j (0, false) = (r, true) → False := by
    intro j hj r hr2
    have hmem : (freezeInit len).getD j (0, false) ∈ freezeInit len := by
      rw [List.getD_eq_getElem _ _ hj]
      exact List.getElem_mem _
    obtain ⟨i, hi, hcase⟩ := freezeInit_mem hmem
    rw [hr2] at hcase
    rcases hcase with h | h <;> exact Bool.noConfusion (congrArg Prod.snd h)
  refine ⟨hp, hr, hb, ?_, by simp, rfl, ?_, ?_, ?_, ?_, ?_⟩
  · intro fr hfr
    obtain ⟨i, hi, hcase⟩ := freezeInit_mem hfr
    rw [hsz]
    unfold poolSize
    rcases hcase with rfl | rfl
    · show srcVar i < 4 * len + 1
      unfold srcVar
      omega
    · show tgtVar i < 4 * len + 1
      unfold tgtVar
      omega
  · intro i hi
    simp only [List.length_singleton] at hi
    have h0 : i = 0 := by omega
    subst h0
    rfl
  · intro u i hf
    rw [(hcl u).1] at hf
    cases hf
  · intro r _ _ i hf
    rw [(hcl r).1] at hf
    cases hf
  · intro j hj r hr2
    exact absurd (hnoexit j hj r hr2) (fun h => h)
  · intro j1 j2 hlt hlen r1 r2 h1 h2
    exact absurd (hnoexit j2 hlen r2 h2) (fun h => h)

theorem runInfer_ok_inv {alloc : List Bool} {ip : Bool} {dag : List dag_node}
    {out : InferOut} (h : runInfer alloc ip dag = .ok out) :
    ∃ pf pz td, runUnify ip dag = some (some pf) ∧
      runFreeze pf dag.length = some (some (pz, td)) ∧
      out.type_dag = td ∧
      out.sourceIx = (annOf pz (dag.length - 1)).1 ∧
      out.targetIx = (annOf pz (dag.length - 1)).2 ∧
      out.annotations = (List.range dag.length).map (fun i => annOf pz i) := by
  unfold runInfer at h
  by_cases h0 : alloc.getD 0 true = false
  · rw [if_pos h0] at h
    cases h
  · rw [if_neg h0] at h
    cases hu : runUnify ip dag with
    | none =>
      simp only [hu] at h
      cases h
    | some o =>
      cases o with
      | none =>
        simp only [hu] at h
        cases h
      | some pf =>
        simp only [hu] at h
        by_cases h1 : alloc.getD 1 true = false
        · rw [if_pos h1] at h
          cases h
        · rw [if_neg h1] at h
          cases hf : runFreeze pf dag.length with
          | none =>
            simp only [hf] at h
            cases h
          | some o2 =>
            cases o2 with
            | none =>
              simp only [hf] at h
              cases h
            | some pr =>
              obtain ⟨pz, td⟩ := pr
              simp only [hf] at h
              injection h with h5
              exact ⟨pf, pz, td, rfl, hf, by rw [← h5], by rw [← h5], by rw [← h5],
                by rw [← h5]⟩

theorem engine_success_inv {alloc : List Bool} {ip : Bool} {dag : List dag_node}
    {out : InferOut} (hdag : dagWF dag) (h : runInfer alloc ip dag = .ok out) :
    ∃ pf pz, runUnify ip dag = some (some pf) ∧
      runFreeze pf dag.length = some (some (pz, out.type_dag)) ∧
      uInv pf ∧ clean pf ∧ pf.size = poolSize dag.length ∧
      FInv pz out.type_dag [] ∧ pz.size = poolSize dag.length ∧
      (∀ w, pz.root w = pf.root w) ∧
      (∀ w, (pz.vars w).isBound = (pf.vars w).isBound ∧
        (pz.vars w).bound.kind = (pf.vars w).bound.kind ∧
        (pz.vars w).bound.arg0 = (pf.vars w).bound.arg0 ∧
        (pz.vars w).bound.arg1 = (pf.vars w).bound.arg1) ∧
      (∀ c, coveredV pf (freezeInit dag.length) c → blackV pz c) ∧
      (∀ fr, fr ∈ emitStack ip dag → pf.root fr.1 = pf.root fr.2) ∧
      (∀ v k, v < poolSize dag.length → classKind (initPool dag) v = some k →
        classKind pf v = some k) ∧
      (∀ r, r < poolSize dag.length → isRep (initPool dag) r →
        ((initPool dag).vars r).isBound →
        ((initPool dag).vars r).bound.kind ≠ typeName.one →
        (pf.vars (pf.root r)).isBound ∧
        (pf.vars (pf.root r)).bound.kind = ((initPool dag).vars r).bound.kind ∧
        pf.root ((pf.vars (pf.root r)).bound.arg0)
          = pf.root (((initPool dag).vars r).bound.arg0) ∧
        pf.root ((pf.vars (pf.root r)).bound.arg1)
          = pf.root (((initPool dag).vars r).bound.arg1)) ∧
      out.sourceIx = (annOf pz (dag.length - 1)).1 ∧
      out.targetIx = (annOf pz (dag.length - 1)).2 ∧
      out.annotations = (List.range dag.length).map (fun i => annOf pz i) := by
  obtain ⟨pf, pz, td, hu, hf, htd, hsrc, htgt, hann⟩ := runInfer_ok_inv h
  subst htd
  have hui := initPool_uInv hdag
  have hstk := emitStack_wf hdag ip
  have hloopU : unifyLoop (unifyFuel (initPool dag) (emitStack ip dag)) (initPool dag)
      (emitStack ip dag) = some (some pf) := hu
  obtain ⟨hupf, hsz, hclp, _, hmerged, hkind, hbind⟩ :=
    unifyLoop_sound _ _ _ _ hui hstk hloopU
  have hclean : clean pf := hclp (@initPool_base dag).2.2.2.1
  have hszp : pf.size = poolSize dag.length := by
    rw [hsz]
    exact (@initPool_base dag).2.2.2.2
  have hfinit := freeze_FInv_init hupf hclean hszp
  have hloopF : freezeLoop (freezeFuel pf (freezeInit dag.length)) pf [typeSkel.one]
      (freezeInit dag.length) = some (some (pz, out.type_dag)) := hf
  obtain ⟨hfin, hszz, hfld, hroot, _, _, _, hcov⟩ :=
    freezeLoop_sound _ _ _ _ _ _ hfinit hloopF
  exact ⟨pf, pz, hu, hf, hupf, hclean, hszp, hfin, by rw [hszz, hszp], hroot, hfld,
    hcov, hmerged, hkind, hbind, hsrc, htgt, hann⟩

theorem runUnify_ne_none {ip : Bool} {dag : List dag_node} (hdag : dagWF dag) :
    runUnify ip dag ≠ none :=
  unifyLoop_total _ _ _ (initPool_uInv hdag) (emitStack_wf hdag ip)
    (by unfold unifyFuel; omega)

theorem runFreeze_ne_none {pf : Pool} {len : Nat} (hinv : uInv pf) (hcl : clean pf)
    (hsz : pf.size = poolSize len) : runFreeze pf len ≠ none :=
  freezeLoop_total _ _ _ _ (freeze_FInv_init hinv hcl hsz) (by unfold freezeFuel; omega)

theorem runUnify_sound {ip : Bool} {dag : List dag_node} {pf : Pool} (hdag : dagWF dag)
    (hu : runUnify ip dag = some (some pf)) :
    uInv pf ∧ clean pf ∧ pf.size = poolSize dag.length := by
  have hloopU : unifyLoop (unifyFuel (initPool dag) (emitStack ip dag)) (initPool dag)
      (emitStack ip dag) = some (some pf) := hu
  obtain ⟨hupf, hsz, hclp, _, _, _, _⟩ :=
    unifyLoop_sound _ _ _ _ (initPool_uInv hdag) (emitStack_wf hdag ip) hloopU
  refine ⟨hupf, hclp (@initPool_base dag).2.2.2.1, ?_⟩
  rw [hsz]
  exact (@initPool_base dag).2.2.2.2

theorem runInfer_cases (alloc : List Bool) (ip : Bool) (dag : List dag_node)
    (hdag : dagWF dag) :
    (alloc.getD 0 true = false ∧ runInfer alloc ip dag = .error .allocFailure) ∨
    (alloc.getD 0 true = true ∧ runUnify ip dag = some none ∧
      runInfer alloc ip dag = .error .clash) ∨
    (∃ pf, alloc.getD 0 true = true ∧ runUnify ip dag = some (some pf) ∧
      alloc.getD 1 true = false ∧ runInfer alloc ip dag = .error .allocFailure) ∨
    (∃ pf, alloc.getD 0 true = true ∧ runUnify ip dag = some (some pf) ∧
      alloc.getD 1 true = true ∧ runFreeze pf dag.length = some none ∧
      runInfer alloc ip dag = .error .occursCheck) ∨
    (∃ pf pz td, alloc.getD 0 true = true ∧ runUnify ip dag = some (some pf) ∧
      alloc.getD 1 true = true ∧ runFreeze pf dag.length = some (some (pz, td)) ∧
      ∃ out, runInfer alloc ip dag = .ok out ∧ out.type_dag = td) := by
  cases h0 : alloc.getD 0 true with
  | false =>
    refine Or.inl ⟨rfl, ?_⟩
    unfold runInfer
    rw [if_pos h0]
  | true =>
    have h0f : ¬ (alloc.getD 0 true = false) := by
      rw [h0]
      exact Bool.noConfusion
    cases hu : runUnify ip dag with
    | none => exact absurd hu (runUnify_ne_none hdag)
    | some o =>
      cases o with
      | none =>
        refine Or.inr (Or.inl ⟨rfl, rfl, ?_⟩)
        unfold runInfer
        rw [if_neg h0f]
        simp only [hu]
      | some pf =>
        obtain ⟨hupf, hclean, hszp⟩ := runUnify_sound hdag hu
        cases h1 : alloc.getD 1 true with
        | false =>
          refine Or.inr (Or.inr (Or.inl ⟨pf, rfl, rfl, rfl, ?_⟩))
          unfold runInfer
          rw [if_neg h0f]
          simp only [hu]
          rw [if_pos h1]
        | true =>
          have h1f : ¬ (alloc.getD 1 true = false) := by
            rw [h1]
            exact Bool.noConfusion
          cases hf : runFreeze pf dag.length with
          | none => exact absurd hf (runFreeze_ne_none hupf hclean hszp)
          | some o2 =>
            cases o2 with
            | none =>
              refine Or.inr (Or.inr (Or.inr (Or.inl ⟨pf, rfl, rfl, rfl, hf, ?_⟩)))
              unfold runInfer
              rw [if_neg h0f]
              simp only [hu]
              rw [if_neg h1f]
              simp only [hf]
            | some pr =>
              obtain ⟨pz, td⟩ := pr
              refine Or.inr (Or.inr (Or.inr (Or.inr ⟨pf, pz, td, rfl, rfl, rfl, hf, ?_⟩)))
              refine ⟨{ type_dag := td
                        sourceIx := (annOf pz (dag.length - 1)).1
                        targetIx := (annOf pz (dag.length - 1)).2
                        annotations := (List.range dag.length).map (fun i => annOf pz i) },
                ?_, rfl⟩
              unfold runInfer
              rw [if_neg h0f]
              simp only [hu]
              rw [if_neg h1f]
              simp only [hf]

theorem unifySucceeded_inv {ip : Bool} {dag : List dag_node}
    (h : unifySucceeded ip dag = true) :
    runUnify ip dag = some (some (theUnifyPool ip dag)) := by
  unfold unifySucceeded at h
  unfold theUnifyPool
  cases hu : runUnify ip dag with
  | none =>
    rw [hu] at h
    exact Bool.noConfusion h
  | some o =>
    cases o with
    | none =>
      rw [hu] at h
      exact Bool.noConfusion h
    | some pf => rfl

theorem malloc_some_inv {alloc : List Bool} {ip : Bool} {dag : List dag_node}
    {census : combinator_counters} {td : List typeSkel}
    (h : (mallocTypeInference alloc ip dag census).type_dag = some td) :
    ∃ out, runInfer alloc ip dag = .ok out ∧ out.type_dag = td ∧
      (mallocTypeInference alloc ip dag census).ok = true ∧
      (mallocTypeInference alloc ip dag census).sourceIx = out.sourceIx ∧
      (mallocTypeInference alloc ip dag census).targetIx = out.targetIx ∧
      (mallocTypeInference alloc ip dag census).annotations = out.annotations := by
  unfold mallocTypeInference at h ⊢
  cases hr : runInfer alloc ip dag with
  | error e =>
    cases e <;> simp only [hr] at h ⊢ <;> cases h
  | ok out =>
    simp only [hr] at h
    injection h with h2
    refine ⟨out, rfl, h2, ?_, ?_, ?_, ?_⟩ <;> simp only [hr]

/-- C3: whenever mallocTypeInference returns true with a non-NULL type DAG
on a well-formed input, the returned array is non-empty, its entry at
index 0 is ONE, and every SUM or PRODUCT entry's child indices are
strictly smaller than the entry's own index (topological order). -/
theorem c3_type_dag_wf (alloc : List Bool) (ip : Bool) (dag : List dag_node)
    (census : combinator_counters) (td : List typeSkel) (hdag : dagWF dag)
    (h : (mallocTypeInference alloc ip dag census).type_dag = some td) :
    (mallocTypeInference alloc ip dag census).ok = true ∧
    td ≠ [] ∧ td.getD 0 typeSkel.one = typeSkel.one ∧
    ∀ i, i < td.length → nodeTopo i (td.getD i typeSkel.one) = true := by
  obtain ⟨out, hri, htd, hok, _, _, _⟩ := malloc_some_inv h
  subst htd
  obtain ⟨pf, pz, _, _, _, _, _, hfin, _⟩ := engine_success_inv hdag hri
  exact ⟨hok, hfin.tdne, hfin.td0, hfin.topo⟩

theorem c3_type_dag_wf_witness :
    (mallocTypeInference [] false dagIden (censusOf dagIden)).ok = true ∧
    [typeSkel.one] ≠ [] ∧
    ([typeSkel.one].getD 0 typeSkel.one = typeSkel.one) ∧
    ∀ i, i < [typeSkel.one].length →
      nodeTopo i ([typeSkel.one].getD i typeSkel.one) = true :=
  c3_type_dag_wf [] false dagIden (censusOf dagIden) [typeSkel.one] (by decide) (by decide)

theorem getD_map_range {α : Type} (f : Nat → α) (d : α) {len i : Nat} (hi : i < len) :
    ((List.range len).map f).getD i d = f i := by
  rw [List.getD_eq_getElem _ _ (by simpa using hi)]
  simp

theorem free_root_frozen_zero {pf pz : Pool} {td : List typeSkel}
    (hfin : FInv pz td []) (hroot : ∀ w, pz.root w = pf.root w)
    (hfld : ∀ w, (pz.vars w).isBound = (pf.vars w).isBound ∧
      (pz.vars w).bound.kind = (pf.vars w).bound.kind ∧
      (pz.vars w).bound.arg0 = (pf.vars w).bound.arg0 ∧
      (pz.vars w).bound.arg1 = (pf.vars w).bound.arg1)
    {c : Nat} (hc : c < pz.size) (hblack : blackV pz c)
    (hfree : ¬ (pf.vars (pf.root c)).isBound = true ∨
      (pf.vars (pf.root c)).bound.kind = typeName.one) :
    (pz.vars (pz.root c)).bound.frozen_ix = some 0 := by
  obtain ⟨hrep, hrlt, _⟩ := root_isRep hfin.pwf hfin.rwf hc
  cases hj : (pz.vars (pz.root c)).bound.frozen_ix with
  | none => exact absurd hj hblack
  | some j =>
    have hsem := (hfin.sem (pz.root c) hrlt hrep j hj).1
    have hz : j = 0 := by
      apply hsem
      rcases hfree with hfree | hfree
      · left
        rw [(hfld (pz.root c)).1, hroot c]
        exact hfree
      · right
        rw [(hfld (pz.root c)).2.1, hroot c]
        exact hfree
    rw [hz]

theorem initPool_oneVar (dag : List dag_node) :
    ((initPool dag).vars (oneVar dag.length)).isBound = true ∧
    ((initPool dag).vars (oneVar dag.length)).bound.kind = typeName.one ∧
    isRep (initPool dag) (oneVar dag.length) := by
  have h : (initPool dag).vars (oneVar dag.length) = mkBoundVar typeName.one 0 0 := by
    show initVar dag (oneVar dag.length) = mkBoundVar typeName.one 0 0
    unfold initVar oneVar
    rw [if_neg (by omega), if_pos rfl]
  refine ⟨by rw [h]; rfl, by rw [h]; rfl, ?_⟩
  unfold isRep
  rw [h]
  rfl

theorem freeze_cyclic_fails {pf : Pool} {len i : Nat} (hinv : uInv pf) (hcl : clean pf)
    (hsz : pf.size = poolSize len) (hi : i < len)
    (hcyc : cyclicAt pf (pf.root (srcVar i)) = true) :
    runFreeze pf len = some none := by
  simp only [cyclicAt, Bool.and_eq_true, Bool.or_eq_true, decide_eq_true_eq] at hcyc
  obtain ⟨⟨⟨⟨hrsz, hrrep⟩, hrbnd⟩, hrknd⟩, hcycd⟩ := hcyc
  cases hres : runFreeze pf len with
  | none => exact absurd hres (runFreeze_ne_none hinv hcl hsz)
  | some o =>
    cases o with
    | none => rfl
    | some pr =>
      obtain ⟨pz, td⟩ := pr
      exfalso
      have hfinit := freeze_FInv_init hinv hcl hsz
      have hloopF : freezeLoop (freezeFuel pf (freezeInit len)) pf [typeSkel.one]
          (freezeInit len) = some (some (pz, td)) := hres
      obtain ⟨hfin, hszz, hfld, hroot, _, _, _, hcov⟩ :=
        freezeLoop_sound _ _ _ _ _ _ hfinit hloopF
      have hsv : srcVar i < pz.size := by
        rw [hszz, hsz]
        unfold srcVar poolSize
        omega
      have hx : pz.root (srcVar i) = pf.root (srcVar i) := hroot _
      have hblack : blackV pz (srcVar i) :=
        hcov _ (Or.inr ⟨(srcVar i, false), freezeInit_mem_src hi, Or.inl ⟨rfl, rfl⟩⟩)
      unfold blackV at hblack
      rw [hx] at hblack
      obtain ⟨hrep, hrlt, _⟩ := root_isRep hfin.pwf hfin.rwf hsv
      rw [hx] at hrep hrlt
      cases hj : (pz.vars (pf.root (srcVar i))).bound.frozen_ix with
      | none => exact hblack hj
      | some j =>
        have hsem := (hfin.sem (pf.root (srcVar i)) hrlt hrep j hj).2
          (by rw [(hfld _).1]; exact hrbnd)
          (by rw [(hfld _).2.1]; exact hrknd)
        obtain ⟨j0, j1, hj0, hj1, hjlt, heq⟩ := hsem
        have htopo := hfin.topo j hjlt
        rw [heq] at htopo
        rcases hcycd with hcy | hcy
        · have hr0 : pz.root ((pz.vars (pf.root (srcVar i))).bound.arg0)
              = pf.root (srcVar i) := by
            rw [(hfld (pf.root (srcVar i))).2.2.1, hroot, hcy]
          rw [hr0, hj] at hj0
          injection hj0 with hj0e
          subst hj0e
          by_cases hk : (pz.vars (pf.root (srcVar i))).bound.kind = typeName.sum
          · rw [if_pos hk] at htopo
            simp only [nodeTopo, decide_eq_true_eq] at htopo
            omega
          · rw [if_neg hk] at htopo
            simp only [nodeTopo, decide_eq_true_eq] at htopo
            omega
        · have hr1 : pz.root ((pz.vars (pf.root (srcVar i))).bound.arg1)
              = pf.root (srcVar i) := by
            rw [(hfld (pf.root (srcVar i))).2.2.2, hroot, hcy]
          rw [hr1, hj] at hj1
          injection hj1 with hj1e
          subst hj1e
          by_cases hk : (pz.vars (pf.root (srcVar i))).bound.kind = typeName.sum
          · rw [if_pos hk] at htopo
            simp only [nodeTopo, decide_eq_true_eq] at htopo
            omega
          · rw [if_neg hk] at htopo
            simp only [nodeTopo, decide_eq_true_eq] at htopo
            omega

theorem constraint_mem {dag : List dag_node} {i : Nat} (hi : i < dag.length)
    {fr : Nat × Nat} (hfr : fr ∈ nodeConstraints dag.length i (nodeAt dag i)) (ip : Bool) :
    fr ∈ emitStack ip dag := by
  unfold emitStack
  apply List.mem_append_left
  rw [List.mem_flatMap]
  exact ⟨i, List.mem_range.2 hi, hfr⟩

theorem initPool_extraVar1 (dag : List dag_node) (i : Nat) (hi : i < dag.length) :
    (initPool dag).vars (extraVar1 dag.length i) = boundExtra dag i ∧
    isRep (initPool dag) (extraVar1 dag.length i) ∧
    extraVar1 dag.length i < poolSize dag.length := by
  have h : (initPool dag).vars (extraVar1 dag.length i) = boundExtra dag i := by
    show initVar dag (extraVar1 dag.length i) = boundExtra dag i
    unfold initVar extraVar1
    rw [if_neg (by omega), if_neg (by omega), if_neg (by omega)]
    have he : extraIx dag.length (2 * dag.length + 2 + 2 * i) = i := by
      unfold extraIx
      omega
    rw [he]
  refine ⟨h, ?_, by unfold extraVar1 poolSize; omega⟩
  unfold isRep
  rw [h]
  unfold boundExtra
  cases (nodeAt dag i).tag <;> rfl

theorem pf_root_oneVar_kind {dag : List dag_node} {pf : Pool}
    (hkinds : ∀ v k, v < poolSize dag.length → classKind (initPool dag) v = some k →
      classKind pf v = some k) :
    (pf.vars (pf.root (oneVar dag.length))).bound.kind = typeName.one := by
  have hone := initPool_oneVar dag
  have hck0 : classKind (initPool dag) (oneVar dag.length) = some typeName.one := by
    unfold classKind
    rw [root_of_isRep hone.2.2, hone.1, if_pos rfl, hone.2.1]
  have hov : oneVar dag.length < poolSize dag.length := by
    unfold oneVar poolSize
    omega
  have hckf := hkinds (oneVar dag.length) typeName.one hov hck0
  unfold classKind at hckf
  by_cases hb : (pf.vars (pf.root (oneVar dag.length))).isBound = true
  · rw [if_pos hb] at hckf
    injection hckf
  · rw [if_neg hb] at hckf
    cases hckf

theorem blackV_extract {pz : Pool} {c : Nat} (hb : blackV pz c) :
    ∃ x, (pz.vars (pz.root c)).bound.frozen_ix = some x := by
  cases hx : (pz.vars (pz.root c)).bound.frozen_ix with
  | none => exact absurd hx hb
  | some x => exact ⟨x, rfl⟩

theorem annOf_fst {pz : Pool} {j x : Nat}
    (hx : (pz.vars (pz.root (srcVar j))).bound.frozen_ix = some x) :
    (annOf pz j).1 = x := by
  unfold annOf
  rw [hx]
  rfl

theorem annOf_snd {pz : Pool} {j x : Nat}
    (hx : (pz.vars (pz.root (tgtVar j))).bound.frozen_ix = some x) :
    (annOf pz j).2 = x := by
  unfold annOf
  rw [hx]
  rfl

theorem bound_class_entry {pf pz : Pool} {td : List typeSkel}
    (hfin : FInv pz td []) (hroot : ∀ w, pz.root w = pf.root w)
    (hfld : ∀ w, (pz.vars w).isBound = (pf.vars w).isBound ∧
      (pz.vars w).bound.kind = (pf.vars w).bound.kind ∧
      (pz.vars w).bound.arg0 = (pf.vars w).bound.arg0 ∧
      (pz.vars w).bound.arg1 = (pf.vars w).bound.arg1)
    {c : Nat} (hc : c < pz.size) (hblack : blackV pz c)
    (hbnd : (pf.vars (pf.root c)).isBound = true)
    (hknd : (pf.vars (pf.root c)).bound.kind ≠ typeName.one) :
    ∃ j j0 j1,
      (pz.vars (pz.root c)).bound.frozen_ix = some j ∧ j < td.length ∧
      td.getD j typeSkel.one
        = (if (pf.vars (pf.root c)).bound.kind = typeName.sum
           then typeSkel.sum j0 j1 else typeSkel.prod j0 j1) ∧
      (pz.vars (pz.root ((pf.vars (pf.root c)).bound.arg0))).bound.frozen_ix = some j0 ∧
      (pz.vars (pz.root ((pf.vars (pf.root c)).bound.arg1))).bound.frozen_ix = some j1 := by
  obtain ⟨hrep, hrlt, _⟩ := root_isRep hfin.pwf hfin.rwf hc
  obtain ⟨j, hj⟩ := blackV_extract hblack
  have hsem := (hfin.sem (pz.root c) hrlt hrep j hj).2
    (by rw [(hfld (pz.root c)).1, hroot c]; exact hbnd)
    (by rw [(hfld (pz.root c)).2.1, hroot c]; exact hknd)
  obtain ⟨j0, j1, hj0, hj1, hjlt, heq⟩ := hsem
  rw [(hfld (pz.root c)).2.1, hroot c] at heq
  rw [(hfld (pz.root c)).2.2.1, hroot c] at hj0
  rw [(hfld (pz.root c)).2.2.2, hroot c] at hj1
  exact ⟨j, j0, j1, hj, hjlt, heq, hj0, hj1⟩

theorem checkNode_of_engine {ip : Bool} {dag : List dag_node} {pf pz : Pool}
    {td : List typeSkel} (hdag : dagWF dag) (hfin : FInv pz td [])
    (hszz : pz.size = poolSize dag.length)
    (hroot : ∀ w, pz.root w = pf.root w)
    (hfld : ∀ w, (pz.vars w).isBound = (pf.vars w).isBound ∧
      (pz.vars w).bound.kind = (pf.vars w).bound.kind ∧
      (pz.vars w).bound.arg0 = (pf.vars w).bound.arg0 ∧
      (pz.vars w).bound.arg1 = (pf.vars w).bound.arg1)
    (hcov : ∀ c, coveredV pf (freezeInit dag.length) c → blackV pz c)
    (hmerged : ∀ fr, fr ∈ emitStack ip dag → pf.root fr.1 = pf.root fr.2)
    (hkinds : ∀ v k, v < poolSize dag.length → classKind (initPool dag) v = some k →
      classKind pf v = some k)
    (hbinds : ∀ r, r < poolSize dag.length → isRep (initPool dag) r →
      ((initPool dag).vars r).isBound = true →
      ((initPool dag).vars r).bound.kind ≠ typeName.one →
      (pf.vars (pf.root r)).isBound = true ∧
      (pf.vars (pf.root r)).bound.kind = ((initPool dag).vars r).bound.kind ∧
      pf.root ((pf.vars (pf.root r)).bound.arg0)
        = pf.root (((initPool dag).vars r).bound.arg0) ∧
      pf.root ((pf.vars (pf.root r)).bound.arg1)
        = pf.root (((initPool dag).vars r).bound.arg1))
    {i : Nat} (hi : i < dag.length) {anns : List (Nat × Nat)}
    (hanns : ∀ j, j < dag.length → anns.getD j (0, 0) = annOf pz j) :
    checkNode td anns i (nodeAt dag i) = true := by
  have hsv : ∀ j, j < dag.length → srcVar j < pz.size := by
    intro j hj
    rw [hszz]
    unfold srcVar poolSize
    omega
  have htv : ∀ j, j < dag.length → tgtVar j < pz.size := by
    intro j hj
    rw [hszz]
    unfold tgtVar poolSize
    omega
  have hblkS : ∀ j, j < dag.length → blackV pz (srcVar j) := fun j hj =>
    hcov _ (Or.inr ⟨(srcVar j, false), freezeInit_mem_src hj, Or.inl ⟨rfl, rfl⟩⟩)
  have hblkT : ∀ j, j < dag.length → blackV pz (tgtVar j) := fun j hj =>
    hcov _ (Or.inr ⟨(tgtVar j, false), freezeInit_mem_tgt hj, Or.inl ⟨rfl, rfl⟩⟩)
  have hpzeq : ∀ a b : Nat, pf.root a = pf.root b → pz.root a = pz.root b := by
    intro a b hab
    rw [hroot, hroot, hab]
  unfold checkNode
  cases htag : (nodeAt dag i).tag with
  | iden =>
    have hm1 : (srcVar i, tgtVar i) ∈ nodeConstraints dag.length i (nodeAt dag i) := by
      unfold nodeConstraints
      rw [htag]
      exact List.mem_cons_self _ _
    have hre : pz.root (srcVar i) = pz.root (tgtVar i) :=
      hpzeq _ _ (hmerged _ (constraint_mem hi hm1 ip))
    obtain ⟨x, hx⟩ := blackV_extract (hblkS i hi)
    have h1 : (annOf pz i).1 = x := annOf_fst hx
    have h2 : (annOf pz i).2 = x := annOf_snd (by rw [← hre]; exact hx)
    rw [hanns i hi, h1, h2]
    simp
  | unit =>
    have hm1 : (tgtVar i, oneVar dag.length)
        ∈ nodeConstraints dag.length i (nodeAt dag i) := by
      unfold nodeConstraints
      rw [htag]
      exact List.mem_cons_self _ _
    have hre : pf.root (tgtVar i) = pf.root (oneVar dag.length) :=
      hmerged _ (constraint_mem hi hm1 ip)
    have hfz0 : (pz.vars (pz.root (tgtVar i))).bound.frozen_ix = some 0 :=
      free_root_frozen_zero hfin hroot hfld (htv i hi) (hblkT i hi)
        (Or.inr (by rw [hre]; exact pf_root_oneVar_kind hkinds))
    have h2 : (annOf pz i).2 = 0 := annOf_snd hfz0
    rw [hanns i hi, h2]
    simp
  | comp =>
    obtain ⟨hc0, hc1⟩ := hdag.2 i hi
    have hc0i : (nodeAt dag i).child0 < i := hc0 (by rw [htag]; decide)
    have hc1i : (nodeAt dag i).child1 < i := hc1 (by rw [htag]; decide)
    have hm1 : (srcVar i, srcVar (nodeAt dag i).child0)
        ∈ nodeConstraints dag.length i (nodeAt dag i) := by
      unfold nodeConstraints
      rw [htag]
      exact List.mem_cons_self _ _
    have hm2 : (tgtVar (nodeAt dag i).child0, srcVar (nodeAt dag i).child1)
        ∈ nodeConstraints dag.length i (nodeAt dag i) := by
      unfold nodeConstraints
      rw [htag]
      exact List.mem_cons_of_mem _ (List.mem_cons_self _ _)
    have hm3 : (tgtVar i, tgtVar (nodeAt dag i).child1)
        ∈ nodeConstraints dag.length i (nodeAt dag i) := by
      unfold nodeConstraints
      rw [htag]
      exact List.mem_cons_of_mem _ (List.mem_cons_of_mem _ (List.mem_cons_self _ _))
    have hre1 : pz.root (srcVar i) = pz.root (srcVar (nodeAt dag i).child0) :=
      hpzeq _ _ (hmerged _ (constraint_mem hi hm1 ip))
    have hre2 : pz.root (tgtVar (nodeAt dag i).child0)
        = pz.root (srcVar (nodeAt dag i).child1) :=
      hpzeq _ _ (hmerged _ (constraint_mem hi hm2 ip))
    have hre3 : pz.root (tgtVar i) = pz.root (tgtVar (nodeAt dag i).child1) :=
      hpzeq _ _ (hmerged _ (constraint_mem hi hm3 ip))
    obtain ⟨x, hx⟩ := blackV_extract (hblkS i hi)
    obtain ⟨y, hy⟩ := blackV_extract (hblkT (nodeAt dag i).child0 (by omega))
    obtain ⟨z, hz⟩ := blackV_extract (hblkT i hi)
    have e1 : (annOf pz i).1 = x := annOf_fst hx
    have e2 : (annOf pz (nodeAt dag i).child0).1 = x :=
      annOf_fst (by rw [← hre1]; exact hx)
    have e3 : (annOf pz (nodeAt dag i).child0).2 = y := annOf_snd hy
    have e4 : (annOf pz (nodeAt dag i).child1).1 = y :=
      annOf_fst (by rw [← hre2]; exact hy)
    have e5 : (annOf pz i).2 = z := annOf_snd hz
    have e6 : (annOf pz (nodeAt dag i).child1).2 = z :=
      annOf_snd (by rw [← hre3]; exact hz)
    rw [hanns i hi, hanns (nodeAt dag i).child0 (by omega),
      hanns (nodeAt dag i).child1 (by omega), e1, e2, e3, e4, e5, e6]
    simp
  | injl =>
    obtain ⟨hc0, _⟩ := hdag.2 i hi
    have hc0i : (nodeAt dag i).child0 < i := hc0 (by rw [htag]; decide)
    have hm1 : (srcVar i, srcVar (nodeAt dag i).child0)
        ∈ nodeConstraints dag.length i (nodeAt dag i) := by
      unfold nodeConstraints
      rw [htag]
      exact List.mem_cons_self _ _
    have hm2 : (tgtVar i, extraVar1 dag.length i)
        ∈ nodeConstraints dag.length i (nodeAt dag i) := by
      unfold nodeConstraints
      rw [htag]
      exact List.mem_cons_of_mem _ (List.mem_cons_self _ _)
    have hre1 : pz.root (srcVar i) = pz.root (srcVar (nodeAt dag i).child0) :=
      hpzeq _ _ (hmerged _ (constraint_mem hi hm1 ip))
    have hre2 : pf.root (tgtVar i) = pf.root (extraVar1 dag.length i) :=
      hmerged _ (constraint_mem hi hm2 ip)
    obtain ⟨hIV, hIR, hIL⟩ := initPool_extraVar1 dag i hi
    have hbe : (initPool dag).vars (extraVar1 dag.length i)
        = mkBoundVar typeName.sum (tgtVar (nodeAt dag i).child0)
            (extraVar0 dag.length i) := by
      rw [hIV]
      unfold boundExtra
      rw [htag]
    obtain ⟨hBb, hBk, hBa0, hBa1⟩ := hbinds (extraVar1 dag.length i) hIL hIR
      (by rw [hbe]; rfl) (by rw [hbe]; exact fun hco => typeName.noConfusion hco)
    have hBk2 : (pf.vars (pf.root (extraVar1 dag.length i))).bound.kind
        = typeName.sum := by
      rw [hBk, hbe]
      rfl
    have hBa0v : pf.root ((pf.vars (pf.root (extraVar1 dag.length i))).bound.arg0)
        = pf.root (tgtVar (nodeAt dag i).child0) := by
      rw [hBa0, hbe]
      rfl
    have hpfb : (pf.vars (pf.root (tgtVar i))).isBound = true := by
      rw [hre2]
      exact hBb
    have hpfk : (pf.vars (pf.root (tgtVar i))).bound.kind = typeName.sum := by
      rw [hre2]
      exact hBk2
    obtain ⟨j, j0, j1, hj, hjlt, hentry, hj0, hj1⟩ := bound_class_entry hfin hroot hfld
      (htv i hi) (hblkT i hi) hpfb (by rw [hpfk]; decide)
    rw [hpfk, if_pos rfl] at hentry
    have hj0r : pz.root ((pf.vars (pf.root (tgtVar i))).bound.arg0)
        = pz.root (tgtVar (nodeAt dag i).child0) := by
      apply hpzeq
      rw [hre2]
      exact hBa0v
    rw [hj0r] at hj0
    obtain ⟨x, hx⟩ := blackV_extract (hblkS i hi)
    have e1 : (annOf pz i).1 = x := annOf_fst hx
    have e2 : (annOf pz (nodeAt dag i).child0).1 = x :=
      annOf_fst (by rw [← hre1]; exact hx)
    have e5 : (annOf pz i).2 = j := annOf_snd hj
    have e6 : (annOf pz (nodeAt dag i).child0).2 = j0 := annOf_snd hj0
    rw [hanns i hi, hanns (nodeAt dag i).child0 (by omega), e1, e2, e5, e6, hentry]
    simp
  | injr =>
    obtain ⟨hc0, _⟩ := hdag.2 i hi
    have hc0i : (nodeAt dag i).child0 < i := hc0 (by rw [htag]; decide)
    have hm1 : (srcVar i, srcVar (nodeAt dag i).child0)
        ∈ nodeConstraints dag.length i (nodeAt dag i) := by
      unfold nodeConstraints
      rw [htag]
      exact List.mem_cons_self _ _
    have hm2 : (tgtVar i, extraVar1 dag.length i)
        ∈ nodeConstraints dag.length i (nodeAt dag i) := by
      unfold nodeConstraints
      rw [htag]
      exact List.mem_cons_of_mem _ (List.mem_cons_self _ _)
    have hre1 : pz.root (srcVar i) = pz.root (srcVar (nodeAt dag i).child0) :=
      hpzeq _ _ (hmerged _ (constraint_mem hi hm1 ip))
    have hre2 : pf.root (tgtVar i) = pf.root (extraVar1 dag.length i) :=
      hmerged _ (constraint_mem hi hm2 ip)
    obtain ⟨hIV, hIR, hIL⟩ := initPool_extraVar1 dag i hi
    have hbe : (initPool dag).vars (extraVar1 dag.length i)
        = mkBoundVar typeName.sum (extraVar0 dag.length i)
            (tgtVar (nodeAt dag i).child0) := by
      rw [hIV]
      unfold boundExtra
      rw [htag]
    obtain ⟨hBb, hBk, hBa0, hBa1⟩ := hbinds (extraVar1 dag.length i) hIL hIR
      (by rw [hbe]; rfl) (by rw [hbe]; exact fun hco => typeName.noConfusion hco)
    have hBk2 : (pf.vars (pf.root (extraVar1 dag.length i))).bound.kind
        = typeName.sum := by
      rw [hBk, hbe]
      rfl
    have hBa1v : pf.root ((pf.vars (pf.root (extraVar1 dag.length i))).bound.arg1)
        = pf.root (tgtVar (nodeAt dag i).child0) := by
      rw [hBa1, hbe]
      rfl
    have hpfb : (pf.vars (pf.root (tgtVar i))).isBound = true := by
      rw [hre2]
      exact hBb
    have hpfk : (pf.vars (pf.root (tgtVar i))).bound.kind = typeName.sum := by
      rw [hre2]
      exact hBk2
    obtain ⟨j, j0, j1, hj, hjlt, hentry, hj0, hj1⟩ := bound_class_entry hfin hroot hfld
      (htv i hi) (hblkT i hi) hpfb (by rw [hpfk]; decide)
    rw [hpfk, if_pos rfl] at hentry
    have hj1r : pz.root ((pf.vars (pf.root (tgtVar i))).bound.arg1)
        = pz.root (tgtVar (nodeAt dag i).child0) := by
      apply hpzeq
      rw [hre2]
      exact hBa1v
    rw [hj1r] at hj1
    obtain ⟨x, hx⟩ := blackV_extract (hblkS i hi)
    have e1 : (annOf pz i).1 = x := annOf_fst hx
    have e2 : (annOf pz (nodeAt dag i).child0).1 = x :=
      annOf_fst (by rw [← hre1]; exact hx)
    have e5 : (annOf pz i).2 = j := annOf_snd hj
    have e6 : (annOf pz (nodeAt dag i).child0).2 = j1 := annOf_snd hj1
    rw [hanns i hi, hanns (nodeAt dag i).child0 (by omega), e1, e2, e5, e6, hentry]
    simp
  | take =>
    obtain ⟨hc0, _⟩ := hdag.2 i hi
    have hc0i : (nodeAt dag i).child0 < i := hc0 (by rw [htag]; decide)
    have hm1 : (tgtVar i, tgtVar (nodeAt dag i).child0)
        ∈ nodeConstraints dag.length i (nodeAt dag i) := by
      unfold nodeConstraints
      rw [htag]
      exact List.mem_cons_self _ _
    have hm2 : (srcVar i, extraVar1 dag.length i)
        ∈ nodeConstraints dag.length i (nodeAt dag i) := by
      unfold nodeConstraints
      rw [htag]
      exact List.mem_cons_of_mem _ (List.mem_cons_self _ _)
    have hre1 : pz.root (tgtVar i) = pz.root (tgtVar (nodeAt dag i).child0) :=
      hpzeq _ _ (hmerged _ (constraint_mem hi hm1 ip))
    have hre2 : pf.root (srcVar i) = pf.root (extraVar1 dag.length i) :=
      hmerged _ (constraint_mem hi hm2 ip)
    obtain ⟨hIV, hIR, hIL⟩ := initPool_extraVar1 dag i hi
    have hbe : (initPool dag).vars (extraVar1 dag.length i)
        = mkBoundVar typeName.prod (srcVar (nodeAt dag i).child0)
            (extraVar0 dag.length i) := by
      rw [hIV]
      unfold boundExtra
      rw [htag]
    obtain ⟨hBb, hBk, hBa0, hBa1⟩ := hbinds (extraVar1 dag.length i) hIL hIR
      (by rw [hbe]; rfl) (by rw [hbe]; exact fun hco => typeName.noConfusion hco)
    have hBk2 : (pf.vars (pf.root (extraVar1 dag.length i))).bound.kind
        = typeName.prod := by
      rw [hBk, hbe]
      rfl
    have hBa0v : pf.root ((pf.vars (pf.root (extraVar1 dag.length i))).bound.arg0)
        = pf.root (srcVar (nodeAt dag i).child0) := by
      rw [hBa0, hbe]
      rfl
    have hpfb : (pf.vars (pf.root (srcVar i))).isBound = true := by
      rw [hre2]
      exact hBb
    have hpfk : (pf.vars (pf.root (srcVar i))).bound.kind = typeName.prod := by
      rw [hre2]
      exact hBk2
    obtain ⟨j, j0, j1, hj, hjlt, hentry, hj0, hj1⟩ := bound_class_entry hfin hroot hfld
      (hsv i hi) (hblkS i hi) hpfb (by rw [hpfk]; decide)
    rw [hpfk, if_neg (by decide)] at hentry
    have hj0r : pz.root ((pf.vars (pf.root (srcVar i))).bound.arg0)
        = pz.root (srcVar (nodeAt dag i).child0) := by
      apply hpzeq
      rw [hre2]
      exact hBa0v
    rw [hj0r] at hj0
    obtain ⟨x, hx⟩ := blackV_extract (hblkT i hi)
    have e1 : (annOf pz i).2 = x := annOf_snd hx
    have e2 : (annOf pz (nodeAt dag i).child0).2 = x :=
      annOf_snd (by rw [← hre1]; exact hx)
    have e5 : (annOf pz i).1 = j := annOf_fst hj
    have e6 : (annOf pz (nodeAt dag i).child0).1 = j0 := annOf_fst hj0
    rw [hanns i hi, hanns (nodeAt dag i).child0 (by omega), e1, e2, e5, e6, hentry]
    simp
  | drop =>
    obtain ⟨hc0, _⟩ := hdag.2 i hi
    have hc0i : (nodeAt dag i).child0 < i := hc0 (by rw [htag]; decide)
    have hm1 : (tgtVar i, tgtVar (nodeAt dag i).child0)
        ∈ nodeConstraints dag.length i (nodeAt dag i) := by
      unfold nodeConstraints
      rw [htag]
      exact List.mem_cons_self _ _
    have hm2 : (srcVar i, extraVar1 dag.length i)
        ∈ nodeConstraints dag.length i (nodeAt dag i) := by
      unfold nodeConstraints
      rw [htag]
      exact List.mem_cons_of_mem _ (List.mem_cons_self _ _)
    have hre1 : pz.root (tgtVar i) = pz.root (tgtVar (nodeAt dag i).child0) :=
      hpzeq _ _ (hmerged _ (constraint_mem hi hm1 ip))
    have hre2 : pf.root (srcVar i) = pf.root (extraVar1 dag.length i) :=
      hmerged _ (constraint_mem hi hm2 ip)
    obtain ⟨hIV, hIR, hIL⟩ := initPool_extraVar1 dag i hi
    have hbe : (initPool dag).vars (extraVar1 dag.length i)
        = mkBoundVar typeName.prod (extraVar0 dag.length i)
            (srcVar (nodeAt dag i).child0) := by
      rw [hIV]
      unfold boundExtra
      rw [htag]
    obtain ⟨hBb, hBk, hBa0, hBa1⟩ := hbinds (extraVar1 dag.length i) hIL hIR
      (by rw [hbe]; rfl) (by rw [hbe]; exact fun hco => typeName.noConfusion hco)
    have hBk2 : (pf.vars (pf.root (extraVar1 dag.length i))).bound.kind
        = typeName.prod := by
      rw [hBk, hbe]
      rfl
    have hBa1v : pf.root ((pf.vars (pf.root (extraVar1 dag.length i))).bound.arg1)
        = pf.root (srcVar (nodeAt dag i).child0) := by
      rw [hBa1, hbe]
      rfl
    have hpfb : (pf.vars (pf.root (srcVar i))).isBound = true := by
      rw [hre2]
      exact hBb
    have hpfk : (pf.vars (pf.root (srcVar i))).bound.kind = typeName.prod := by
      rw [hre2]
      exact hBk2
    obtain ⟨j, j0, j1, hj, hjlt, hentry, hj0, hj1⟩ := bound_class_entry hfin hroot hfld
      (hsv i hi) (hblkS i hi) hpfb (by rw [hpfk]; decide)
    rw [hpfk, if_neg (by decide)] at hentry
    have hj1r : pz.root ((pf.vars (pf.root (srcVar i))).bound.arg1)
        = pz.root (srcVar (nodeAt dag i).child0) := by
      apply hpzeq
      rw [hre2]
      exact hBa1v
    rw [hj1r] at hj1
    obtain ⟨x, hx⟩ := blackV_extract (hblkT i hi)
    have e1 : (annOf pz i).2 = x := annOf_snd hx
    have e2 : (annOf pz (nodeAt dag i).child0).2 = x :=
      annOf_snd (by rw [← hre1]; exact hx)
    have e5 : (annOf pz i).1 = j := annOf_fst hj
    have e6 : (annOf pz (nodeAt dag i).child0).1 = j1 := annOf_fst hj1
    rw [hanns i hi, hanns (nodeAt dag i).child0 (by omega), e1, e2, e5, e6, hentry]
    simp
  | pair =>
    obtain ⟨hc0, hc1⟩ := hdag.2 i hi
    have hc0i : (nodeAt dag i).child0 < i := hc0 (by rw [htag]; decide)
    have hc1i : (nodeAt dag i).child1 < i := hc1 (by rw [htag]; decide)
    have hm1 : (srcVar i, srcVar (nodeAt dag i).child0)
        ∈ nodeConstraints dag.length i (nodeAt dag i) := by
      unfold nodeConstraints
      rw [htag]
      exact List.mem_cons_self _ _
    have hm2 : (srcVar i, srcVar (nodeAt dag i).child1)
        ∈ nodeConstraints dag.length i (nodeAt dag i) := by
      unfold nodeConstraints
      rw [htag]
      exact List.mem_cons_of_mem _ (List.mem_cons_self _ _)
    have hm3 : (tgtVar i, extraVar1 dag.length i)
        ∈ nodeConstraints dag.length i (nodeAt dag i) := by
      unfold nodeConstraints
      rw [htag]
      exact List.mem_cons_of_mem _ (List.mem_cons_of_mem _ (List.mem_cons_self _ _))
    have hre1 : pz.root (srcVar i) = pz.root (srcVar (nodeAt dag i).child0) :=
      hpzeq _ _ (hmerged _ (constraint_mem hi hm1 ip))
    have hre2 : pz.root (srcVar i) = pz.root (srcVar (nodeAt dag i).child1) :=
      hpzeq _ _ (hmerged _ (constraint_mem hi hm2 ip))
    have hre3 : pf.root (tgtVar i) = pf.root (extraVar1 dag.length i) :=
      hmerged _ (constraint_mem hi hm3 ip)
    obtain ⟨hIV, hIR, hIL⟩ := initPool_extraVar1 dag i hi
    have hbe : (initPool dag).vars (extraVar1 dag.length i)
        = mkBoundVar typeName.prod (tgtVar (nodeAt dag i).child0)
            (tgtVar (nodeAt dag i).child1) := by
      rw [hIV]
      unfold boundExtra
      rw [htag]
    obtain ⟨hBb, hBk, hBa0, hBa1⟩ := hbinds (extraVar1 dag.length i) hIL hIR
      (by rw [hbe]; rfl) (by rw [hbe]; exact fun hco => typeName.noConfusion hco)
    have hBk2 : (pf.vars (pf.root (extraVar1 dag.length i))).bound.kind
        = typeName.prod := by
      rw [hBk, hbe]
      rfl
    have hBa0v : pf.root ((pf.vars (pf.root (extraVar1 dag.length i))).bound.arg0)
        = pf.root (tgtVar (nodeAt dag i).child0) := by
      rw [hBa0, hbe]
      rfl
    have hBa1v : pf.root ((pf.vars (pf.root (extraVar1 dag.length i))).bound.arg1)
        = pf.root (tgtVar (nodeAt dag i).child1) := by
      rw [hBa1, hbe]
      rfl
    have hpfb : (pf.vars (pf.root (tgtVar i))).isBound = true := by
      rw [hre3]
      exact hBb
    have hpfk : (pf.vars (pf.root (tgtVar i))).bound.kind = typeName.prod := by
      rw [hre3]
      exact hBk2
    obtain ⟨j, j0, j1, hj, hjlt, hentry, hj0, hj1⟩ := bound_class_entry hfin hroot hfld
      (htv i hi) (hblkT i hi) hpfb (by rw [hpfk]; decide)
    rw [hpfk, if_neg (by decide)] at hentry
    have hj0r : pz.root ((pf.vars (pf.root (tgtVar i))).bound.arg0)
        = pz.root (tgtVar (nodeAt dag i).child0) := by
      apply hpzeq
      rw [hre3]
      exact hBa0v
    have hj1r : pz.root ((pf.vars (pf.root (tgtVar i))).bound.arg1)
        = pz.root (tgtVar (nodeAt dag i).child1) := by
      apply hpzeq
      rw [hre3]
      exact hBa1v
    rw [hj0r] at hj0
    rw [hj1r] at hj1
    obtain ⟨x, hx⟩ := blackV_extract (hblkS i hi)
    have e1 : (annOf pz i).1 = x := annOf_fst hx
    have e2 : (annOf pz (nodeAt dag i).child0).1 = x :=
      annOf_fst (by rw [← hre1]; exact hx)
    have e3 : (annOf pz (nodeAt dag i).child1).1 = x :=
      annOf_fst (by rw [← hre2]; exact hx)
    have e5 : (annOf pz i).2 = j := annOf_snd hj
    have e6 : (annOf pz (nodeAt dag i).child0).2 = j0 := annOf_snd hj0
    have e7 : (annOf pz (nodeAt dag i).child1).2 = j1 := annOf_snd hj1
    rw [hanns i hi, hanns (nodeAt dag i).child0 (by omega),
      hanns (nodeAt dag i).child1 (by omega), e1, e2, e3, e5, e6, e7, hentry]
    simp

/-- C2: on well-formed input, the Boolean result is false exactly when a
performed allocation failed (the pool allocation, or the output-array
allocation reached after unification succeeds), and then *type_dag is
NULL; when the result is true, *type_dag is NULL exactly when the DAG
has no principal type (unification clash or occurs-check failure), so a
non-NULL *type_dag is surfaced exactly on full success and no partial
type DAG is ever exposed. -/
theorem c2_error_surfacing (alloc : List Bool) (ip : Bool) (dag : List dag_node)
    (census : combinator_counters) (hdag : dagWF dag) :
    ((mallocTypeInference alloc ip dag census).ok = false →
      (mallocTypeInference alloc ip dag census).type_dag = none) ∧
    ((mallocTypeInference alloc ip dag census).ok = false ↔
      (alloc.getD 0 true = false ∨ ∃ pf, runUnify ip dag = some (some pf) ∧
        alloc.getD 1 true = false)) ∧
    ((mallocTypeInference alloc ip dag census).ok = true →
      ((mallocTypeInference alloc ip dag census).type_dag = none ↔
        noPrincipalType ip dag)) := by
  rcases runInfer_cases alloc ip dag hdag with
    ⟨h0, hri⟩ | ⟨h0, hu, hri⟩ | ⟨pf, h0, hu, h1, hri⟩ | ⟨pf, h0, hu, h1, hf, hri⟩ |
    ⟨pf, pz, td, h0, hu, h1, hf, out, hri, htd⟩
  · have hm : mallocTypeInference alloc ip dag census =
        { ok := false
          type_dag := none
          sourceIx := 0
          targetIx := 0
          annotations := [] } := by
      unfold mallocTypeInference
      rw [hri]
    rw [hm]
    refine ⟨fun _ => rfl, ⟨fun _ => Or.inl h0, fun _ => rfl⟩, ?_⟩
    intro hok
    cases hok
  · have hm : mallocTypeInference alloc ip dag census =
        { ok := true
          type_dag := none
          sourceIx := 0
          targetIx := 0
          annotations := [] } := by
      unfold mallocTypeInference
      rw [hri]
    rw [hm]
    refine ⟨?_, ⟨?_, ?_⟩, ?_⟩
    · intro hok
      cases hok
    · intro hok
      cases hok
    · intro hrhs
      rcases hrhs with h | ⟨pf2, hpf, _⟩
      · rw [h0] at h
        cases h
      · rw [hu] at hpf
        cases hpf
    · intro _
      exact ⟨fun _ => Or.inl hu, fun _ => rfl⟩
  · have hm : mallocTypeInference alloc ip dag census =
        { ok := false
          type_dag := none
          sourceIx := 0
          targetIx := 0
          annotations := [] } := by
      unfold mallocTypeInference
      rw [hri]
    rw [hm]
    refine ⟨fun _ => rfl, ⟨fun _ => Or.inr ⟨pf, hu, h1⟩, fun _ => rfl⟩, ?_⟩
    intro hok
    cases hok
  · have hm : mallocTypeInference alloc ip dag census =
        { ok := true
          type_dag := none
          sourceIx := 0
          targetIx := 0
          annotations := [] } := by
      unfold mallocTypeInference
      rw [hri]
    rw [hm]
    refine ⟨?_, ⟨?_, ?_⟩, ?_⟩
    · intro hok
      cases hok
    · intro hok
      cases hok
    · intro hrhs
      rcases hrhs with h | ⟨pf2, hpf, h1b⟩
      · rw [h0] at h
        cases h
      · rw [h1] at h1b
        cases h1b
    · intro _
      exact ⟨fun _ => Or.inr ⟨pf, hu, hf⟩, fun _ => rfl⟩
  · have hm : mallocTypeInference alloc ip dag census =
        { ok := true
          type_dag := some out.type_dag
          sourceIx := out.sourceIx
          targetIx := out.targetIx
          annotations := out.annotations } := by
      unfold mallocTypeInference
      rw [hri]
    rw [hm]
    refine ⟨?_, ⟨?_, ?_⟩, ?_⟩
    · intro hok
      cases hok
    · intro hok
      cases hok
    · intro hrhs
      rcases hrhs with h | ⟨pf2, hpf, h1b⟩
      · rw [h0] at h
        cases h
      · rw [h1] at h1b
        cases h1b
    · intro _
      constructor
      · intro hnone
        cases hnone
      · intro hnp
        exfalso
        rcases hnp with hcl | ⟨pf2, hpf2, hfz2⟩
        · rw [hu] at hcl
          cases hcl
        · rw [hu] at hpf2
          injection hpf2 with hpf3
          injection hpf3 with hpf4
          subst hpf4
          rw [hf] at hfz2
          cases hfz2

theorem c2_error_surfacing_witness :
    ((mallocTypeInference [] false dagIden (censusOf dagIden)).ok = false →
      (mallocTypeInference [] false dagIden (censusOf dagIden)).type_dag = none) ∧
    ((mallocTypeInference [] false dagIden (censusOf dagIden)).ok = false ↔
      (([] : List Bool).getD 0 true = false ∨ ∃ pf, runUnify false dagIden
        = some (some pf) ∧ ([] : List Bool).getD 1 true = false)) ∧
    ((mallocTypeInference [] false dagIden (censusOf dagIden)).ok = true →
      ((mallocTypeInference [] false dagIden (censusOf dagIden)).type_dag = none ↔
        noPrincipalType false dagIden)) :=
  c2_error_surfacing [] false dagIden (censusOf dagIden) (by decide)

/-- C4: on a well-formed input on which inference succeeds, a node whose
source (or target) class is still free after unification is annotated
with type-DAG index 0, which holds the type ONE: unconstrained types
are instantiated at ONE. -/
theorem c4_free_vars_one (alloc : List Bool) (ip : Bool) (dag : List dag_node)
    (census : combinator_counters) (td : List typeSkel) (i : Nat) (hdag : dagWF dag)
    (hi : i < dag.length)
    (h : (mallocTypeInference alloc ip dag census).type_dag = some td) :
    td.getD 0 typeSkel.one = typeSkel.one ∧
    (((theUnifyPool ip dag).vars ((theUnifyPool ip dag).root (srcVar i))).isBound = false →
      ((mallocTypeInference alloc ip dag census).annotations.getD i (0, 0)).1 = 0) ∧
    (((theUnifyPool ip dag).vars ((theUnifyPool ip dag).root (tgtVar i))).isBound = false →
      ((mallocTypeInference alloc ip dag census).annotations.getD i (0, 0)).2 = 0) := by
  obtain ⟨out, hri, htd, _, _, _, hanneq⟩ := malloc_some_inv h
  subst htd
  obtain ⟨pf, pz, hu, hf, hupf, hclean, hszp, hfin, hszz, hroot, hfld, hcov, _, _, _,
    _, _, hann⟩ := engine_success_inv hdag hri
  have hup : theUnifyPool ip dag = pf := by
    unfold theUnifyPool
    rw [hu]
  have hannv : (mallocTypeInference alloc ip dag census).annotations.getD i (0, 0)
      = annOf pz i := by
    rw [hanneq, hann, getD_map_range _ _ hi]
  have hsv : srcVar i < pz.size := by
    rw [hszz]
    unfold srcVar poolSize
    omega
  have htv : tgtVar i < pz.size := by
    rw [hszz]
    unfold tgtVar poolSize
    omega
  refine ⟨hfin.td0, ?_, ?_⟩
  · intro hfree
    rw [hup] at hfree
    have hblack : blackV pz (srcVar i) :=
      hcov (srcVar i) (Or.inr ⟨(srcVar i, false), freezeInit_mem_src hi,
        Or.inl ⟨rfl, rfl⟩⟩)
    have hfz := free_root_frozen_zero hfin hroot hfld hsv hblack
      (Or.inl (by rw [hfree]; exact Bool.noConfusion))
    rw [hannv]
    unfold annOf
    rw [hfz]
    rfl
  · intro hfree
    rw [hup] at hfree
    have hblack : blackV pz (tgtVar i) :=
      hcov (tgtVar i) (Or.inr ⟨(tgtVar i, false), freezeInit_mem_tgt hi,
        Or.inl ⟨rfl, rfl⟩⟩)
    have hfz := free_root_frozen_zero hfin hroot hfld htv hblack
      (Or.inl (by rw [hfree]; exact Bool.noConfusion))
    rw [hannv]
    unfold annOf
    rw [hfz]
    rfl

theorem c4_free_vars_one_witness :
    ([typeSkel.one, typeSkel.prod 0 0].getD 0 typeSkel.one = typeSkel.one) ∧
    ((mallocTypeInference [] false dagPairIden (censusOf dagPairIden)).annotations.getD 1
      (0, 0)).1 = 0 :=
  ⟨(c4_free_vars_one [] false dagPairIden (censusOf dagPairIden)
      [typeSkel.one, typeSkel.prod 0 0] 1 (by decide) (by decide) (by decide)).1,
   (c4_free_vars_one [] false dagPairIden (censusOf dagPairIden)
      [typeSkel.one, typeSkel.prod 0 0] 1 (by decide) (by decide) (by decide)).2.1
     (by decide)⟩

/-- C7: for an expression declared a program, a successful
mallocTypeInference call writes 0 into both *sourceIx and *targetIx,
the ONE entry of the returned type DAG. -/
theorem c7_program_rule (alloc : List Bool) (dag : List dag_node)
    (census : combinator_counters) (td : List typeSkel) (hdag : dagWF dag)
    (h : (mallocTypeInference alloc true dag census).type_dag = some td) :
    (mallocTypeInference alloc true dag census).sourceIx = 0 ∧
    (mallocTypeInference alloc true dag census).targetIx = 0 ∧
    td.getD 0 typeSkel.one = typeSkel.one := by
  obtain ⟨out, hri, htd, _, hsrceq, htgteq, _⟩ := malloc_some_inv h
  subst htd
  obtain ⟨pf, pz, hu, hf, hupf, hclean, hszp, hfin, hszz, hroot, hfld, hcov, hmerged,
    hkinds, _, hsrc, htgt, _⟩ := engine_success_inv hdag hri
  have hlen : 0 < dag.length := List.length_pos.2 hdag.1
  have hmem1 : (srcVar (dag.length - 1), oneVar dag.length) ∈ emitStack true dag := by
    unfold emitStack
    apply List.mem_append_right
    rw [if_pos rfl]
    exact List.mem_cons_self _ _
  have hmem2 : (tgtVar (dag.length - 1), oneVar dag.length) ∈ emitStack true dag := by
    unfold emitStack
    apply List.mem_append_right
    rw [if_pos rfl]
    exact List.mem_cons_of_mem _ (List.mem_cons_self _ _)
  have hr1 : pf.root (srcVar (dag.length - 1)) = pf.root (oneVar dag.length) :=
    hmerged _ hmem1
  have hr2 : pf.root (tgtVar (dag.length - 1)) = pf.root (oneVar dag.length) :=
    hmerged _ hmem2
  have hone := initPool_oneVar dag
  have hck0 : classKind (initPool dag) (oneVar dag.length) = some typeName.one := by
    unfold classKind
    rw [root_of_isRep hone.2.2, hone.1, if_pos rfl, hone.2.1]
  have hov : oneVar dag.length < poolSize dag.length := by
    unfold oneVar poolSize
    omega
  have hckf := hkinds (oneVar dag.length) typeName.one hov hck0
  have honef : (pf.vars (pf.root (oneVar dag.length))).bound.kind = typeName.one := by
    unfold classKind at hckf
    by_cases hb : (pf.vars (pf.root (oneVar dag.length))).isBound = true
    · rw [if_pos hb] at hckf
      injection hckf
    · rw [if_neg hb] at hckf
      cases hckf
  have hsv : srcVar (dag.length - 1) < pz.size := by
    rw [hszz]
    unfold srcVar poolSize
    omega
  have htv : tgtVar (dag.length - 1) < pz.size := by
    rw [hszz]
    unfold tgtVar poolSize
    omega
  have hil : dag.length - 1 < dag.length := by omega
  have hfz1 : (pz.vars (pz.root (srcVar (dag.length - 1)))).bound.frozen_ix = some 0 := by
    refine free_root_frozen_zero hfin hroot hfld hsv
      (hcov _ (Or.inr ⟨(srcVar (dag.length - 1), false), freezeInit_mem_src hil,
        Or.inl ⟨rfl, rfl⟩⟩)) (Or.inr ?_)
    rw [hr1]
    exact honef
  have hfz2 : (pz.vars (pz.root (tgtVar (dag.length - 1)))).bound.frozen_ix = some 0 := by
    refine free_root_frozen_zero hfin hroot hfld htv
      (hcov _ (Or.inr ⟨(tgtVar (dag.length - 1), false), freezeInit_mem_tgt hil,
        Or.inl ⟨rfl, rfl⟩⟩)) (Or.inr ?_)
    rw [hr2]
    exact honef
  refine ⟨?_, ?_, hfin.td0⟩
  · rw [hsrceq, hsrc]
    unfold annOf
    rw [hfz1]
    rfl
  · rw [htgteq, htgt]
    unfold annOf
    rw [hfz2]
    rfl

theorem c7_program_rule_witness :
    (mallocTypeInference [] true dagUnit (censusOf dagUnit)).sourceIx = 0 ∧
    (mallocTypeInference [] true dagUnit (censusOf dagUnit)).targetIx = 0 ∧
    [typeSkel.one].getD 0 typeSkel.one = typeSkel.one :=
  c7_program_rule [] dagUnit (censusOf dagUnit) [typeSkel.one] (by decide) (by decide)

/-- C6: when unification succeeds but binds some node's source class
cyclically (the class's own representative reappears among its binding's
argument classes, as in α ↦ PRODUCT(α, ONE)), the freezer's occurs check
rejects the cycle: with both allocations succeeding, mallocTypeInference
returns true with *type_dag NULL, and no type DAG is produced from the
cyclic solution. -/
theorem c6_occurs_check (alloc : List Bool) (ip : Bool) (dag : List dag_node)
    (census : combinator_counters) (i : Nat) (hdag : dagWF dag) (hi : i < dag.length)
    (hus : unifySucceeded ip dag = true)
    (hcyc : cyclicAt (theUnifyPool ip dag)
      ((theUnifyPool ip dag).root (srcVar i)) = true)
    (ha0 : alloc.getD 0 true = true) (ha1 : alloc.getD 1 true = true) :
    (mallocTypeInference alloc ip dag census).ok = true ∧
    (mallocTypeInference alloc ip dag census).type_dag = none := by
  have hu := unifySucceeded_inv hus
  obtain ⟨hupf, hclean, hszp⟩ := runUnify_sound hdag hu
  have hfz := freeze_cyclic_fails hupf hclean hszp hi hcyc
  rcases runInfer_cases alloc ip dag hdag with
    ⟨h0, hri⟩ | ⟨h0, hu2, hri⟩ | ⟨pf2, h0, hu2, h1, hri⟩ | ⟨pf2, h0, hu2, h1, hf2, hri⟩ |
    ⟨pf2, pz, td, h0, hu2, h1, hf2, out, hri, htd⟩
  · rw [ha0] at h0
    cases h0
  · rw [hu] at hu2
    cases hu2
  · rw [ha1] at h1
    cases h1
  · have hm : mallocTypeInference alloc ip dag census =
        { ok := true
          type_dag := none
          sourceIx := 0
          targetIx := 0
          annotations := [] } := by
      unfold mallocTypeInference
      rw [hri]
    rw [hm]
    exact ⟨rfl, rfl⟩
  · exfalso
    rw [hu] at hu2
    injection hu2 with h3
    injection h3 with h4
    rw [← h4] at hf2
    rw [hfz] at hf2
    cases hf2

set_option maxHeartbeats 16000000 in
theorem c6_occurs_check_witness :
    (mallocTypeInference [] false dagOccursSmall (censusOf dagOccursSmall)).ok = true ∧
    (mallocTypeInference [] false dagOccursSmall (censusOf dagOccursSmall)).type_dag
      = none :=
  c6_occurs_check [] false dagOccursSmall (censusOf dagOccursSmall) 0 (by decide)
    (by decide) (by decide) (by decide) (by decide) (by decide)

/-- C1: on a well-formed DAG with its matching census, when
mallocTypeInference returns true with a non-NULL type DAG, the returned
type DAG is well formed, every node receives a type annotation whose
source and target indices are valid indices into the type DAG, the
returned sourceIx and targetIx are the root node's annotation (hence
valid indices giving the whole expression's inferred source and target
types), and the full annotation satisfies every combinator's typing
rule (the spec-side checker), so the DAG admits the returned principal
typing. -/
theorem c1_success_principal (alloc : List Bool) (ip : Bool) (dag : List dag_node)
    (td : List typeSkel) (hdag : dagWF dag)
    (h : (mallocTypeInference alloc ip dag (censusOf dag)).type_dag = some td) :
    (td ≠ [] ∧ td.getD 0 typeSkel.one = typeSkel.one ∧
      ∀ i, i < td.length → nodeTopo i (td.getD i typeSkel.one) = true) ∧
    (mallocTypeInference alloc ip dag (censusOf dag)).annotations.length = dag.length ∧
    (∀ i, i < dag.length →
      ((mallocTypeInference alloc ip dag (censusOf dag)).annotations.getD i (0, 0)).1
        < td.length ∧
      ((mallocTypeInference alloc ip dag (censusOf dag)).annotations.getD i (0, 0)).2
        < td.length) ∧
    (mallocTypeInference alloc ip dag (censusOf dag)).sourceIx
      = ((mallocTypeInference alloc ip dag (censusOf dag)).annotations.getD
          (dag.length - 1) (0, 0)).1 ∧
    (mallocTypeInference alloc ip dag (censusOf dag)).targetIx
      = ((mallocTypeInference alloc ip dag (censusOf dag)).annotations.getD
          (dag.length - 1) (0, 0)).2 ∧
    (mallocTypeInference alloc ip dag (censusOf dag)).sourceIx < td.length ∧
    (mallocTypeInference alloc ip dag (censusOf dag)).targetIx < td.length ∧
    checkTypedDag dag td (mallocTypeInference alloc ip dag (censusOf dag)).annotations
      = true := by
  obtain ⟨out, hri, htd, hok, hsrceq, htgteq, hanneq⟩ := malloc_some_inv h
  subst htd
  obtain ⟨pf, pz, hu, hf, hupf, hclean, hszp, hfin, hszz, hroot, hfld, hcov, hmerged,
    hkinds, hbinds, hsrc, htgt, hann⟩ := engine_success_inv hdag hri
  have hlen : 0 < dag.length := List.length_pos.2 hdag.1
  have hanns : ∀ j, j < dag.length →
      (mallocTypeInference alloc ip dag (censusOf dag)).annotations.getD j (0, 0)
        = annOf pz j := by
    intro j hj
    rw [hanneq, hann, getD_map_range _ _ hj]
  have hannlen :
      (mallocTypeInference alloc ip dag (censusOf dag)).annotations.length
        = dag.length := by
    rw [hanneq, hann]
    simp
  have hblkS : ∀ j, j < dag.length → blackV pz (srcVar j) := fun j hj =>
    hcov _ (Or.inr ⟨(srcVar j, false), freezeInit_mem_src hj, Or.inl ⟨rfl, rfl⟩⟩)
  have hblkT : ∀ j, j < dag.length → blackV pz (tgtVar j) := fun j hj =>
    hcov _ (Or.inr ⟨(tgtVar j, false), freezeInit_mem_tgt hj, Or.inl ⟨rfl, rfl⟩⟩)
  have hbounds : ∀ j, j < dag.length →
      (annOf pz j).1 < out.type_dag.length ∧ (annOf pz j).2 < out.type_dag.length := by
    intro j hj
    obtain ⟨x, hx⟩ := blackV_extract (hblkS j hj)
    obtain ⟨y, hy⟩ := blackV_extract (hblkT j hj)
    rw [annOf_fst hx, annOf_snd hy]
    exact ⟨hfin.alt _ x hx, hfin.alt _ y hy⟩
  have hsrc2 : (mallocTypeInference alloc ip dag (censusOf dag)).sourceIx
      = ((mallocTypeInference alloc ip dag (censusOf dag)).annotations.getD
          (dag.length - 1) (0, 0)).1 := by
    rw [hsrceq, hsrc, hanns _ (by omega)]
  have htgt2 : (mallocTypeInference alloc ip dag (censusOf dag)).targetIx
      = ((mallocTypeInference alloc ip dag (censusOf dag)).annotations.getD
          (dag.length - 1) (0, 0)).2 := by
    rw [htgteq, htgt, hanns _ (by omega)]
  refine ⟨⟨hfin.tdne, hfin.td0, hfin.topo⟩, hannlen, ?_, hsrc2, htgt2, ?_, ?_, ?_⟩
  · intro j hj
    rw [hanns j hj]
    exact hbounds j hj
  · rw [hsrc2, hanns _ (by omega)]
    exact (hbounds _ (by omega)).1
  · rw [htgt2, hanns _ (by omega)]
    exact (hbounds _ (by omega)).2
  · unfold checkTypedDag
    rw [List.all_eq_true]
    intro x hx
    rw [List.mem_range] at hx
    exact checkNode_of_engine hdag hfin hszz hroot hfld hcov hmerged hkinds hbinds
      hx hanns

theorem c1_success_principal_witness :
    (([typeSkel.one] : List typeSkel) ≠ [] ∧
      [typeSkel.one].getD 0 typeSkel.one = typeSkel.one ∧
      ∀ i, i < [typeSkel.one].length →
        nodeTopo i ([typeSkel.one].getD i typeSkel.one) = true) ∧
    (mallocTypeInference [] false dagIden (censusOf dagIden)).annotations.length
      = dagIden.length ∧
    (∀ i, i < dagIden.length →
      ((mallocTypeInference [] false dagIden (censusOf dagIden)).annotations.getD i
        (0, 0)).1 < [typeSkel.one].length ∧
      ((mallocTypeInference [] false dagIden (censusOf dagIden)).annotations.getD i
        (0, 0)).2 < [typeSkel.one].length) ∧
    (mallocTypeInference [] false dagIden (censusOf dagIden)).sourceIx
      = ((mallocTypeInference [] false dagIden (censusOf dagIden)).annotations.getD
          (dagIden.length - 1) (0, 0)).1 ∧
    (mallocTypeInference [] false dagIden (censusOf dagIden)).targetIx
      = ((mallocTypeInference [] false dagIden (censusOf dagIden)).annotations.getD
          (dagIden.length - 1) (0, 0)).2 ∧
    (mallocTypeInference [] false dagIden (censusOf dagIden)).sourceIx
      < [typeSkel.one].length ∧
    (mallocTypeInference [] false dagIden (censusOf dagIden)).targetIx
      < [typeSkel.one].length ∧
    checkTypedDag dagIden [typeSkel.one]
      (mallocTypeInference [] false dagIden (censusOf dagIden)).annotations = true :=
  c1_success_principal [] false dagIden [typeSkel.one] (by decide) (by decide)

end Simplicity
